import Mathlib

/-!
# libtorrent: lazy bencode decoder (`src/src/lazy_bdecode.cpp`), disk buffer pool
(`src/src/disk_buffer_pool.cpp`) and uTP socket manager (`src/src/utp_socket_manager.cpp`)

A shallow embedding of `parse_int`, `find_char`, `lazy_bdecode`,
`lazy_entry::int_value`, `lazy_entry::dict_append`, `lazy_entry::list_append`
and `lazy_entry::clear`, then the bencode values and their encoding used to
state the round trip, then the disk buffer pool and the uTP socket manager (their
conventions are given where their definitions start), followed by theorems about them.

Modelling conventions.

* The byte buffer `[start, end)` is a `List Nat` (one element per `char`,
  values `0..255`).  A pointer into it is an `Int` offset from the first byte,
  so `end` is `buf.length`.  Pointer arithmetic is on mathematical integers;
  an access `*p` outside `0 ≤ p < buf.length` makes the enclosing function
  return the memory-fault outcome (`none` / `decode_result.fault`).
* `boost::int64_t` arithmetic wraps modulo `2^64` (`wrap64`).
* `char` is signed, as on x86: a byte `c ≥ 128` has the value `c - 256`.
* `new (std::nothrow)` always succeeds; `m_capacity` only drives reallocation
  and is not represented.
* The `std::vector<lazy_entry*> stack` holds pointers to the entries under
  construction.  Every pointer except the first targets the last child of the
  entry pointed to by the element beneath it, so the stack is kept as the list
  of the pointed-to entries (top first); popping writes the finished entry into
  the last child slot of its parent.
-/

namespace libtorrent

/-- Modelled from the spec: the declaration of `lazy_entry` (`lazy_entry.hpp`) is
not among the sources.  An entry is one of the variants none, dictionary, list,
string and integer of the data model; as `lazy_bdecode.cpp` uses it, it holds
`m_type` together with the active member of `m_data`: `start` for integers and
strings, the first `m_size` elements of `list` or `dict` for containers. -/
inductive lazy_entry where
  | none_t
  | dict_t (items : List (Int × lazy_entry))
  | list_t (items : List lazy_entry)
  | string_t (start : Int)
  | int_t (start : Int)

/-- The read `*p`. -/
def rd (buf : List Nat) (p : Int) : Option Nat :=
  if p < 0 then none else buf.get? p.toNat

/-- The write `*p = v`. -/
def wr (buf : List Nat) (p : Int) (v : Nat) : Option (List Nat) :=
  if 0 ≤ p ∧ p < buf.length then some (buf.set p.toNat v) else none

/-- Reduction of an integer to the range of `boost::int64_t`. -/
def wrap64 (x : Int) : Int :=
  (x + 9223372036854775808) % 18446744073709551616 - 9223372036854775808

/-- The value of a (signed) `char` holding the byte `c`. -/
def char_val (c : Nat) : Int :=
  if c < 128 then c else (c : Int) - 256

/-- `std::isdigit` in the C locale. -/
def isdigit (c : Nat) : Bool :=
  decide (48 ≤ c) && decide (c ≤ 57)

/-- Converts the `int` depth limit to `size_t` for the comparison
with `stack.size()`. -/
def to_size_t (d : Int) : Int :=
  if d < 0 then d + 18446744073709551616 else d

/-- The loop of `parse_int`; the first argument is `end - start`. -/
def parse_int_loop (buf : List Nat) (delimiter : Nat) :
    Nat → Int → Int → Option (Option Int × Int)
  | 0, start, val => some (some start, val)
  | n + 1, start, val =>
    match rd buf start with
    | none => none
    | some c =>
      if c = delimiter then some (some start, val)
      else if !isdigit c then some (none, val)
      else parse_int_loop buf delimiter n (start + 1)
        (wrap64 (wrap64 (val * 10) + ((c : Int) - 48)))

/-- `parse_int(start, end, delimiter, val)`: the returned pointer (`none` for the
null pointer) and the final `val`; the outer `none` is a memory fault. -/
def parse_int (buf : List Nat) (start end_ : Int) (delimiter : Nat) (val : Int) :
    Option (Option Int × Int) :=
  parse_int_loop buf delimiter (end_ - start).toNat start val

/-- The loop of `find_char`; the first argument is `end - start`. -/
def find_char_loop (buf : List Nat) (delimiter : Nat) : Nat → Int → Option Int
  | 0, start => some start
  | n + 1, start =>
    match rd buf start with
    | none => none
    | some c =>
      if c = delimiter then some start
      else find_char_loop buf delimiter n (start + 1)

/-- `find_char(start, end, delimiter)`. -/
def find_char (buf : List Nat) (start end_ : Int) (delimiter : Nat) : Option Int :=
  find_char_loop buf delimiter (end_ - start).toNat start

/-- `lazy_entry::clear()`. -/
def lazy_entry.clear (_e : lazy_entry) : lazy_entry := .none_t

/-- Modelled from the spec: `lazy_entry::type()`, declared in the missing header,
as a number, in the order `none_t, dict_t, list_t, string_t, int_t`. -/
def lazy_entry.type : lazy_entry → Nat
  | .none_t => 0
  | .dict_t _ => 1
  | .list_t _ => 2
  | .string_t _ => 3
  | .int_t _ => 4

/-- `lazy_entry::dict_append(name)`: the entry after the call; the returned
pointer targets the (fresh) second component of the new last pair. -/
def dict_append (e : lazy_entry) (name : Int) : lazy_entry :=
  match e with
  | .dict_t items => .dict_t (items ++ [(name, .none_t)])
  | e => e

/-- `lazy_entry::list_append()`: the entry after the call; the returned pointer
targets the (fresh) new last element. -/
def list_append (e : lazy_entry) : lazy_entry :=
  match e with
  | .list_t items => .list_t (items ++ [.none_t])
  | e => e

/-- Stores `child` in the last child slot of `parent` (the slot the child's
stack pointer targets). -/
def set_last (parent child : lazy_entry) : lazy_entry :=
  match parent with
  | .list_t items => .list_t (items.dropLast ++ [child])
  | .dict_t items =>
    match items.getLast? with
    | some (name, _) => .dict_t (items.dropLast ++ [(name, child)])
    | none => .dict_t items
  | e => e

/-- The variables of `lazy_bdecode` inside its loop: the buffer contents, the
read pointer `start`, the stack (top first) and, once the stack has become
empty, the finished root `ret`. -/
structure decode_state where
  buf : List Nat
  start : Int
  stack : List lazy_entry
  ret : lazy_entry

/-- Writes the entries of a stack back into their parents, innermost first. -/
def plug (child : lazy_entry) : List lazy_entry → lazy_entry
  | [] => child
  | parent :: rest => plug (set_last parent child) rest

/-- The entry `ret` as the caller sees it. -/
def decode_state.root (s : decode_state) : lazy_entry :=
  match s.stack with
  | [] => s.ret
  | top :: rest => plug top rest

/-- The call `stack.pop_back()`. -/
def pop (s : decode_state) : decode_state :=
  match s.stack with
  | [] => s
  | [top] => { s with stack := [], ret := top }
  | top :: parent :: rest => { s with stack := set_last parent top :: rest }

/-- Modelled from the spec: the calls `top->construct_dict()`, `construct_list()`,
`construct_int(start)` and `construct_string(start)`, defined in the missing
header: the entry on top of the stack becomes the empty dictionary, the empty
list, or the integer or string that starts at `start`, passed here as `e`. -/
def construct (s : decode_state) (e : lazy_entry) : decode_state :=
  match s.stack with
  | [] => s
  | _ :: rest => { s with stack := e :: rest }

/-- What one pass through the loop body does: go round again, return a code,
or access memory outside the buffer. -/
inductive step where
  | next (s : decode_state)
  | ret (code : Int) (s : decode_state)
  | fault

/-- The second `switch` of the loop body, `switch (t)`, on the new top of the
stack. -/
def parse_token (t : Nat) (s : decode_state) : step :=
  let end_ : Int := s.buf.length
  if t = 100 then .next (construct s (.dict_t []))
  else if t = 108 then .next (construct s (.list_t []))
  else if t = 105 then
    let s1 := construct s (.int_t s.start)
    match find_char s1.buf s1.start end_ 101 with
    | none => .fault
    | some p =>
      if p = end_ then .ret (-1) s1
      else
        match wr s1.buf p 0 with
        | none => .fault
        | some b => .next (pop { s1 with buf := b, start := p + 1 })
  else if !isdigit t then .ret (-1) s
  else
    match parse_int s.buf s.start end_ 58 (char_val t - 48) with
    | none => .fault
    | some (none, _) => .ret (-1) s
    | some (some p, len) =>
      if p + len + 1 > end_ then .ret (-1) s
      else
        match rd s.buf p with
        | none => .fault
        | some c =>
          if c ≠ 58 then .ret (-1) s
          else
            let s1 := pop (construct { s with start := p + 1 } (.string_t (p + 1)))
            .next { s1 with start := p + 1 + len }

/-- The `dict_t` case of `switch (top->type())` when `t` is not `e`: the key
`<len>:<name>` is read, a pair is appended for it, its child is pushed, and the
first byte of the value is fetched into `t` and cleared; then `switch (t)`. -/
def dict_key (t : Nat) (s : decode_state) (top : lazy_entry) (rest : List lazy_entry) : step :=
  let end_ : Int := s.buf.length
  match parse_int s.buf s.start end_ 58 (char_val t - 48) with
  | none => .fault
  | some (none, _) => .ret (-1) s
  | some (some p, len) =>
    if p + len + 3 > end_ then .ret (-1) s
    else
      match rd s.buf p with
      | none => .fault
      | some c =>
        if c ≠ 58 then .ret (-1) s
        else
          let s2 : decode_state :=
            { s with start := p + 1 + len,
                     stack := .none_t :: dict_append top (p + 1) :: rest }
          match rd s2.buf s2.start with
          | none => .fault
          | some t2 =>
            match wr s2.buf s2.start 0 with
            | none => .fault
            | some b2 => parse_token t2 { s2 with buf := b2, start := s2.start + 1 }

/-- The first `switch` of the loop body, `switch (top->type())`, followed by
`switch (t)`; `top :: rest` is the stack. -/
def switch_type (t : Nat) (s : decode_state) (top : lazy_entry) (rest : List lazy_entry) : step :=
  match top with
  | .dict_t _ =>
    if t = 101 then .next (pop s)
    else dict_key t s top rest
  | .list_t _ =>
    if t = 101 then .next (pop s)
    else parse_token t { s with stack := .none_t :: list_append top :: rest }
  | _ => parse_token t s

/-- One pass through the body of `while (start < end)`. -/
def iteration (depth_limit : Int) (s : decode_state) : step :=
  let end_ : Int := s.buf.length
  match s.stack with
  | [] => .ret 0 s
  | top :: rest =>
    if (s.stack.length : Int) > to_size_t depth_limit then .ret (-1) s
    else if s.start = end_ then .ret (-1) s
    else
      match rd s.buf s.start with
      | none => .fault
      | some t =>
        match wr s.buf s.start 0 with
        | none => .fault
        | some b =>
          let s1 : decode_state := { s with buf := b, start := s.start + 1 }
          if s1.start = end_ ∧ t ≠ 101 then .ret (-1) s1
          else switch_type t s1 top rest

/-- What a call of `lazy_bdecode` does: return `code` leaving the buffer and
`ret` as given, access memory outside the buffer, or still be running when the
iteration budget is used up. -/
inductive decode_result where
  | returned (code : Int) (buf : List Nat) (ret : lazy_entry)
  | fault
  | timeout

/-- The loop `while (start < end)` of `lazy_bdecode`, for at most the given number
of evaluations of its condition, and the `return 0` after it. -/
def run (depth_limit : Int) : Nat → decode_state → decode_result
  | 0, _ => .timeout
  | fuel + 1, s =>
    if s.start < s.buf.length then
      match iteration depth_limit s with
      | .next s1 => run depth_limit fuel s1
      | .ret code s1 => .returned code s1.buf s1.root
      | .fault => .fault
    else .returned 0 s.buf s.root

/-- `lazy_bdecode(start, end, ret, depth_limit)` on the buffer `buf`.  Every pass
of the loop that goes round again has cleared a byte that was not `0`
before, so `buf.length + 1` evaluations of the loop condition are enough: the
outcome is never `timeout` (theorem `lazy_bdecode_terminates`). -/
def lazy_bdecode (buf : List Nat) (ret : lazy_entry) (depth_limit : Int) : decode_result :=
  let ret0 := ret.clear
  if buf.length = 0 then .returned 0 buf ret0
  else run depth_limit (buf.length + 1) { buf := buf, start := 0, stack := [ret0], ret := ret0 }

/-- `lazy_entry::int_value()` with the buffer contents `buf`; `none` when the
entry is not an integer or a byte outside the buffer is read. -/
def int_value (buf : List Nat) (e : lazy_entry) : Option Int :=
  match e with
  | .int_t p =>
    match rd buf p with
    | none => none
    | some c =>
      let negative : Bool := decide (c = 45)
      match parse_int buf (if negative then p + 1 else p) (p + 100) 0 0 with
      | none => none
      | some (_, val) => some (if negative then wrap64 (-val) else val)
  | _ => none

/-- The loop reading a NUL-terminated string. -/
def c_str_loop (buf : List Nat) : Nat → Int → Option (List Nat)
  | 0, _ => none
  | n + 1, p =>
    match rd buf p with
    | none => none
    | some c => if c = 0 then some [] else (c_str_loop buf n (p + 1)).map (fun r => c :: r)

/-- Modelled from the spec: the accessor of a string entry is declared in the
missing header.  Strings and keys are self-terminating (the decoder overwrites
the byte after them with NUL, and `dict_find` compares keys with `strcmp`):
the bytes of the NUL-terminated string at `p`; `none` when no NUL byte follows
inside the buffer. -/
def c_str (buf : List Nat) (p : Int) : Option (List Nat) :=
  c_str_loop buf (buf.length + 1) p

mutual
/-- Container nesting depth of an entry: the largest number of lists and
dictionaries on a path from the entry to one of its leaves. -/
def edepth : lazy_entry → Nat
  | .dict_t items => 1 + edepth_dict items
  | .list_t items => 1 + edepth_list items
  | _ => 0
/-- Largest `edepth` among the elements of a list. -/
def edepth_list : List lazy_entry → Nat
  | [] => 0
  | x :: xs => max (edepth x) (edepth_list xs)
/-- Largest `edepth` among the children of the pairs of a dictionary. -/
def edepth_dict : List (Int × lazy_entry) → Nat
  | [] => 0
  | (_, x) :: xs => max (edepth x) (edepth_dict xs)
end

/-- Largest `edepth` among the children of an entry. -/
def cdepth : lazy_entry → Nat
  | .dict_t items => edepth_dict items
  | .list_t items => edepth_list items
  | _ => 0

/-- Depth bound on the entries below the top of the stack: the entry with `k`
entries beneath it is at level `k + 1`, and its children stay within `D`. -/
def frames_ok (D : Int) : List lazy_entry → Prop
  | [] => True
  | parent :: rest => (rest.length : Int) + 1 + cdepth parent ≤ D ∧ frames_ok D rest

/-- Depth bound on a state whose top of stack has been counted by the depth
check, or needs no check. -/
def depth_checked (D : Int) (s : decode_state) : Prop :=
  match s.stack with
  | [] => (edepth s.ret : Int) ≤ D
  | top :: rest => frames_ok D rest ∧ (rest.length : Int) ≤ D ∧
      (rest.length : Int) + edepth top ≤ D

/-- Loop invariant for the depth bound: either the state is `depth_checked`, or
the top of the stack is a container that was just constructed and input remains,
so that the depth check of the next pass still sees it. -/
def depth_inv (D : Int) (s : decode_state) : Prop :=
  match s.stack with
  | [] => (edepth s.ret : Int) ≤ D
  | top :: rest => frames_ok D rest ∧ (rest.length : Int) ≤ D ∧
      ((rest.length : Int) + edepth top ≤ D ∨ (edepth top ≤ 1 ∧ s.start < s.buf.length))

/-- The entry the first element of the stack points to, which is `ret`. -/
def bottom (top : lazy_entry) : List lazy_entry → lazy_entry
  | [] => top
  | parent :: rest => bottom parent rest

/-- The entry is a dictionary or a list. -/
def is_container (e : lazy_entry) : Prop :=
  e.type = 1 ∨ e.type = 2

/-- Loop invariant once the root has been constructed as a container: the first
element of the stack, if any, points to a dictionary or a list. -/
def root_built (s : decode_state) : Prop :=
  match s.stack with
  | [] => True
  | top :: rest => is_container (bottom top rest)

/-! ### Bencode values and their canonical encoding -/

/-- Modelled from the spec: a bencode value of the grammar of the decoder section
(integer, string, list, dictionary); no encoder is among the sources.  Bytes
are numbers below 256. -/
inductive bvalue where
  | int (n : Int)
  | str (s : List Nat)
  | list (xs : List bvalue)
  | dict (kvs : List (List Nat × bvalue))

/-- The decimal digits of `n`, most significant first, for at most `fuel` digits. -/
def decimal_loop : Nat → Nat → List Nat
  | 0, _ => []
  | fuel + 1, n => if n < 10 then [48 + n] else decimal_loop fuel (n / 10) ++ [48 + n % 10]

/-- The ASCII decimal numeral of `n`, without leading zeros. -/
def decimal (n : Nat) : List Nat := decimal_loop (n + 1) n

/-- INT of the grammar: an optional `-` and the decimal digits. -/
def int_text (n : Int) : List Nat :=
  if n < 0 then 45 :: decimal (-n).toNat else decimal n.toNat

/-- Applies `mark` to the first byte of a token. -/
def mark_head (mark : Nat → Nat) : List Nat → List Nat
  | [] => []
  | c :: cs => mark c :: cs

/-- The token DECIMAL-LEN `:` BYTES of a string or dictionary key. -/
def string_token (mark : Nat → Nat) (s : List Nat) : List Nat :=
  mark_head mark (decimal s.length) ++ 58 :: s

mutual
/-- Modelled from the spec: the encoding of a value by the grammar `i` INT `e`,
DECIMAL-LEN `:` BYTES, `l` ELEMENT* `e`, `d` (KEY ELEMENT)* `e`.  The function
`mark` is applied to the first byte of every token and to every terminator `e`:
these are the bytes the decoder overwrites. -/
def encode_with (mark : Nat → Nat) : bvalue → List Nat
  | .int n => mark 105 :: (int_text n ++ [mark 101])
  | .str s => string_token mark s
  | .list xs => mark 108 :: (encode_list mark xs ++ [mark 101])
  | .dict kvs => mark 100 :: (encode_dict mark kvs ++ [mark 101])
/-- The encodings of the elements of a list, one after the other. -/
def encode_list (mark : Nat → Nat) : List bvalue → List Nat
  | [] => []
  | x :: xs => encode_with mark x ++ encode_list mark xs
/-- The encodings of the pairs of a dictionary, one after the other. -/
def encode_dict (mark : Nat → Nat) : List (List Nat × bvalue) → List Nat
  | [] => []
  | (k, v) :: kvs => string_token mark k ++ (encode_with mark v ++ encode_dict mark kvs)
end

/-- Modelled from the spec: the canonical encoding `encode(t)`. -/
def encode (t : bvalue) : List Nat := encode_with (fun c => c) t

/-- The contents of a buffer that held `encode t` once the decoder has cleared
the first byte of every token and every terminator. -/
def decoded_buffer (t : bvalue) : List Nat := encode_with (fun _ => 0) t

mutual
/-- The entry the decoder builds for a value whose encoding starts at offset `p`. -/
def entry_of (p : Int) : bvalue → lazy_entry
  | .int _ => .int_t (p + 1)
  | .str s => .string_t (p + ((decimal s.length).length + 1 : Nat))
  | .list xs => .list_t (entries_of (p + 1) xs)
  | .dict kvs => .dict_t (pairs_of (p + 1) kvs)
/-- The entries for the elements of a list encoded from offset `p` on. -/
def entries_of (p : Int) : List bvalue → List lazy_entry
  | [] => []
  | x :: xs => entry_of p x :: entries_of (p + ((encode x).length : Nat)) xs
/-- The pairs for the pairs of a dictionary encoded from offset `p` on. -/
def pairs_of (p : Int) : List (List Nat × bvalue) → List (Int × lazy_entry)
  | [] => []
  | (k, v) :: kvs =>
    (p + ((decimal k.length).length + 1 : Nat),
      entry_of (p + ((string_token (fun c => c) k).length : Nat)) v) ::
    pairs_of (p + ((string_token (fun c => c) k).length + (encode v).length : Nat)) kvs
end

mutual
/-- The values of the round-trip claim: integers in the signed 64-bit range,
strings and keys without NUL bytes (and short enough for their length to be a
signed 64-bit number). -/
def value_ok : bvalue → Bool
  | .int n => decide (-9223372036854775808 ≤ n) && decide (n < 9223372036854775808)
  | .str s => decide (0 ∉ s) && decide (s.length < 9223372036854775808)
  | .list xs => values_ok xs
  | .dict kvs => pairs_ok kvs
/-- All elements are `value_ok`. -/
def values_ok : List bvalue → Bool
  | [] => true
  | x :: xs => value_ok x && values_ok xs
/-- All keys and values are `value_ok`. -/
def pairs_ok : List (List Nat × bvalue) → Bool
  | [] => true
  | (k, v) :: kvs =>
    decide (0 ∉ k) && decide (k.length < 9223372036854775808) && value_ok v && pairs_ok kvs
end

mutual
/-- Every string and key of the value is shorter than `2^63` bytes, so that its
length is a signed 64-bit number. -/
def sizes_ok : bvalue → Bool
  | .int _ => true
  | .str s => decide (s.length < 9223372036854775808)
  | .list xs => sizes_ok_list xs
  | .dict kvs => sizes_ok_dict kvs
/-- All elements are `sizes_ok`. -/
def sizes_ok_list : List bvalue → Bool
  | [] => true
  | x :: xs => sizes_ok x && sizes_ok_list xs
/-- All keys and values are `sizes_ok`. -/
def sizes_ok_dict : List (List Nat × bvalue) → Bool
  | [] => true
  | (k, v) :: kvs => decide (k.length < 9223372036854775808) && sizes_ok v && sizes_ok_dict kvs
end

mutual
/-- Nesting depth of a value: the largest number of lists and dictionaries on a
path from the value to one of its leaves. -/
def vdepth : bvalue → Nat
  | .list xs => 1 + vdepth_list xs
  | .dict kvs => 1 + vdepth_dict kvs
  | _ => 0
/-- Largest `vdepth` among the elements. -/
def vdepth_list : List bvalue → Nat
  | [] => 0
  | x :: xs => max (vdepth x) (vdepth_list xs)
/-- Largest `vdepth` among the values of the pairs. -/
def vdepth_dict : List (List Nat × bvalue) → Nat
  | [] => 0
  | (_, v) :: kvs => max (vdepth v) (vdepth_dict kvs)
end

mutual
/-- Structural equality of a decoded tree and a value: the same variant at
every node, the same children in the same order, the same dictionary keys, the
same string bytes (read as NUL-terminated strings from `buf`) and the same
`int_value`. -/
def represents (buf : List Nat) : lazy_entry → bvalue → Bool
  | .int_t p, .int n => int_value buf (.int_t p) == some n
  | .string_t p, .str s => c_str buf p == some s
  | .list_t es, .list xs => represents_list buf es xs
  | .dict_t items, .dict kvs => represents_dict buf items kvs
  | _, _ => false
/-- Elementwise `represents`. -/
def represents_list (buf : List Nat) : List lazy_entry → List bvalue → Bool
  | [], [] => true
  | e :: es, x :: xs => represents buf e x && represents_list buf es xs
  | _, _ => false
/-- Pairwise `represents`, with equal keys. -/
def represents_dict (buf : List Nat) :
    List (Int × lazy_entry) → List (List Nat × bvalue) → Bool
  | [], [] => true
  | (p, e) :: items, (k, v) :: kvs =>
    (c_str buf p == some k) && represents buf e v && represents_dict buf items kvs
  | _, _ => false
end

/-- What `parse_int` leaves in `val` after reading the digits `ds`. -/
def wfold (val : Int) (ds : List Nat) : Int :=
  ds.foldl (fun (a : Int) (c : Nat) => wrap64 (wrap64 (a * 10) + ((c : Int) - 48))) val

/-- The number denoted by the digits `ds`, continuing from `acc`. -/
def digits_val (acc : Int) (ds : List Nat) : Int :=
  ds.foldl (fun (a : Int) (c : Nat) => a * 10 + ((c : Int) - 48)) acc

/-- What `run` does with the outcome of a pass: `k` is the rest of the loop. -/
def finish (k : decode_state → decode_result) : step → decode_result
  | .next s => k s
  | .ret code s => .returned code s.buf s.root
  | .fault => .fault

/-- The decoder handles the encoding of `v` wherever it stands: once the first
byte `h` of the token has been fetched and cleared and an entry has been pushed
for it, `switch (h)` and `k` more passes leave the buffer with the token's marked
bytes cleared, the read pointer behind the token, and the entry for `v`
popped from the stack. -/
def decodes_value (d : Int) (v : bvalue) : Prop :=
  ∀ (A B : List Nat) (h : Nat) (tl : List Nat) (top0 : lazy_entry) (rest : List lazy_entry)
    (ret : lazy_entry),
    encode v = h :: tl → (rest.length : Int) + vdepth v ≤ to_size_t d →
    ∃ k : Nat, k + 1 ≤ (encode v).length ∧ ∀ fuel : Nat,
      finish (run d (fuel + k))
          (parse_token h ⟨A ++ 0 :: (tl ++ B), (A.length : Int) + 1, top0 :: rest, ret⟩) =
        run d fuel (pop ⟨A ++ decoded_buffer v ++ B, ((A ++ encode v).length : Int),
          entry_of A.length v :: rest, ret⟩)

/-- The decoder handles the elements `xs` and the terminator of a list whose
entry is on top of the stack. -/
def decodes_list (d : Int) (xs : List bvalue) : Prop :=
  ∀ (A B : List Nat) (done rest : List lazy_entry) (ret : lazy_entry),
    (rest.length : Int) + 1 + vdepth_list xs ≤ to_size_t d →
    ∃ k : Nat, k ≤ (encode_list (fun c => c) xs).length + 1 ∧ ∀ fuel : Nat,
      run d (fuel + k) ⟨A ++ (encode_list (fun c => c) xs ++ 101 :: B), (A.length : Int),
          .list_t done :: rest, ret⟩ =
        run d fuel (pop ⟨A ++ (encode_list (fun _ => 0) xs ++ 0 :: B),
          ((A ++ encode_list (fun c => c) xs).length : Int) + 1,
          .list_t (done ++ entries_of A.length xs) :: rest, ret⟩)

/-- The decoder handles the pairs `kvs` and the terminator of a dictionary whose
entry is on top of the stack. -/
def decodes_dict (d : Int) (kvs : List (List Nat × bvalue)) : Prop :=
  ∀ (A B : List Nat) (done : List (Int × lazy_entry)) (rest : List lazy_entry)
    (ret : lazy_entry),
    (rest.length : Int) + 1 + vdepth_dict kvs ≤ to_size_t d →
    ∃ k : Nat, k ≤ (encode_dict (fun c => c) kvs).length + 1 ∧ ∀ fuel : Nat,
      run d (fuel + k) ⟨A ++ (encode_dict (fun c => c) kvs ++ 101 :: B), (A.length : Int),
          .dict_t done :: rest, ret⟩ =
        run d fuel (pop ⟨A ++ (encode_dict (fun _ => 0) kvs ++ 0 :: B),
          ((A ++ encode_dict (fun c => c) kvs).length : Int) + 1,
          .dict_t (done ++ pairs_of A.length kvs) :: rest, ret⟩)

/-- The value found in `v` by following `path`: each number selects an element of
a list or the value of a pair of a dictionary, counted from 0. -/
def value_at : bvalue → List Nat → Option bvalue
  | v, [] => some v
  | .list xs, i :: path =>
    match xs[i]? with
    | some x => value_at x path
    | none => none
  | .dict kvs, i :: path =>
    match kvs[i]? with
    | some kv => value_at kv.2 path
    | none => none
  | _, _ :: _ => none

/-- The entry found in `e` by following `path`: each number selects an element of
a list or the child of a pair of a dictionary, counted from 0. -/
def entry_at : lazy_entry → List Nat → Option lazy_entry
  | e, [] => some e
  | .list_t es, i :: path =>
    match es[i]? with
    | some x => entry_at x path
    | none => none
  | .dict_t items, i :: path =>
    match items[i]? with
    | some kv => entry_at kv.2 path
    | none => none
  | _, _ :: _ => none

/-- The number of bytes of the buffer that are not NUL: the loop of
`lazy_bdecode` clears one of them in every pass that goes round again. -/
def nonzero_count (buf : List Nat) : Nat :=
  buf.countP (fun c => decide (c ≠ 0))

/-- The test `strcmp(name, key) == 0` of `dict_find`, where `name` is given by
its bytes before the terminating NUL and `key` is the pointer `p` into the
buffer; `none` when a byte outside the buffer is read. -/
def strcmp_eq (buf : List Nat) : List Nat → Int → Option Bool
  | [], p =>
    match rd buf p with
    | none => none
    | some c => some (decide (c = 0))
  | n :: ns, p =>
    match rd buf p with
    | none => none
    | some c => if c = n then strcmp_eq buf ns (p + 1) else some false

/-- The loop of `lazy_entry::dict_find` from index `i` on, over the remaining
pairs. -/
def dict_find_loop (buf : List Nat) (name : List Nat) :
    List (Int × lazy_entry) → Nat → Option (Option (Nat × lazy_entry))
  | [], _ => some none
  | (key, child) :: rest, i =>
    match strcmp_eq buf name key with
    | none => none
    | some true => some (some (i, child))
    | some false => dict_find_loop buf name rest (i + 1)

/-- `lazy_entry::dict_find(name)`: `some none` is the null pointer,
`some (some (i, child))` the pointer to the child of pair number `i`; `none`
when the entry is not a dictionary or a byte outside the buffer is read.  The
function writes no member of the entry, so there is no entry after the call
to return. -/
def dict_find (buf : List Nat) (e : lazy_entry) (name : List Nat) :
    Option (Option (Nat × lazy_entry)) :=
  match e with
  | .dict_t items => dict_find_loop buf name items 0
  | _ => none

/-- The bytes of an ASCII text. -/
def bytes (s : String) : List Nat := s.toList.map Char.toNat

/-! ## The disk buffer pool (`src/src/disk_buffer_pool.cpp`)

Modelling conventions.

* A pointer that may be NULL is an `Option`: `none` is NULL, `some a` the
  address `a`.  This holds for the blocks returned by the allocation functions,
  for `handler_t::buffer`, for `m_cache_pool` and for the `shared_ptr` observer
  argument.
* `int` members are mathematical integers (signed overflow is undefined in C++
  and not represented); `/` on them truncates towards zero (`Int.tdiv`).  An
  `int` converted to `size_t` or `boost::uint64_t` is reduced modulo `2^64`.
* `char const* category`, the `boost::function` callbacks and the
  `shared_ptr<disk_observer>` observers are not inspected by the pool: each is a
  natural number naming it.
* What the heap and the operating system answer is an argument of the function
  that asks: `m` is the result of the one `malloc` an allocation may perform,
  `ms i` the result for handler number `i` of a wake, `open_fd`, `mmap_ret` and
  `errno` the results of `open` and `mmap` in `set_settings`.  `mmap` is taken to
  return `MAP_FAILED` (`none`) or a non-null address.
* The build is the default one: the pool allocator is compiled in, and
  `TORRENT_USE_PURGABLE_CONTROL`, the statistics and the debug members are off.
  `TORRENT_HAVE_MMAP` is the argument `have_mmap` of `set_settings`; where the
  macro is off `m_cache_pool` stays NULL, which selects the same branches in the
  other functions.  `mlock`, `madvise`, `munmap`, `ftruncate`, `close` and
  `release_memory` change nothing that is represented.
* The calls of `m_trigger_cache_trim()` and of `m_ios.post(...)` made so far are
  kept in the state (`trim_calls`, `posted`), as the pool has no other way to
  show them.  The mutex is not represented: every function runs atomically.
-/

/-- Modelled from the spec: `disk_buffer_pool::handler_t` is declared in the
missing header `disk_buffer_pool.hpp`; `async_allocate_buffer` fills the three
members `category`, `callback` and `buffer` (the block for the waiting
consumer, NULL while it is queued). -/
structure handler_t where
  category : Nat
  callback : Nat
  buffer : Option Int
deriving DecidableEq

/-- A function object handed to `m_ios.post`: `watermark_callback` bound to its
two pointer arguments, or `alert_callback` carrying an `mmap_cache_alert` with
the error code. -/
inductive posted_t where
  | watermark_callback (cbs : Option (List Nat)) (handlers : Option (List handler_t))
  | alert_callback (ec : Int)
deriving DecidableEq

/-- Modelled from the spec: `aux::session_settings` is declared in a missing
header; these are the settings `set_settings` reads, under their
`settings_pack` names. -/
structure session_settings where
  cache_buffer_chunk_size : Int
  lock_disk_cache : Bool
  use_disk_cache_pool : Bool
  mmap_cache : String
  cache_size : Int
  max_queued_disk_bytes : Int
deriving DecidableEq

/-- Modelled from the spec: the class is declared in the missing header
`disk_buffer_pool.hpp`; these are the data members `disk_buffer_pool.cpp`
initialises and uses (`m_pool_next_size` is the next-size of the
`boost::pool` member `m_pool`, `m_post_alert` whether the alert dispatcher is
non-null), followed by the record of the calls of `m_trigger_cache_trim` and
`m_ios.post`. -/
structure disk_buffer_pool where
  m_block_size : Int
  m_in_use : Int
  m_max_use : Int
  m_low_watermark : Int
  m_exceeded_max_size : Bool
  m_handlers : List handler_t
  m_observers : List Nat
  m_cache_buffer_chunk_size : Int
  m_lock_disk_cache : Bool
  m_cache_fd : Int
  m_cache_pool : Option Int
  m_free_list : List Int
  m_post_alert : Bool
  m_using_pool_allocator : Bool
  m_want_pool_allocator : Bool
  m_pool_next_size : Int
  trim_calls : Nat
  posted : List posted_t
deriving DecidableEq

/-- The constructor `disk_buffer_pool::disk_buffer_pool(block_size, ios,
trigger_trim, alert_disp)`. -/
def new_disk_buffer_pool (block_size : Int) (alert_disp : Bool) : disk_buffer_pool :=
  { m_block_size := block_size
    m_in_use := 0
    m_max_use := 64
    m_low_watermark := max (64 - 32) 0
    m_exceeded_max_size := false
    m_handlers := []
    m_observers := []
    m_cache_buffer_chunk_size := 0
    m_lock_disk_cache := false
    m_cache_fd := -1
    m_cache_pool := none
    m_free_list := []
    m_post_alert := alert_disp
    m_using_pool_allocator := false
    m_want_pool_allocator := false
    m_pool_next_size := 32
    trim_calls := 0
    posted := [] }

/-- The two statements `m_exceeded_max_size = true; m_trigger_cache_trim();`. -/
def trigger_trim (p : disk_buffer_pool) : disk_buffer_pool :=
  { p with m_exceeded_max_size := true, trim_calls := p.trim_calls + 1 }

/-- The end of `allocate_buffer_impl` (lines 366 to 371): the block is counted
and the pool enters pressure at the middle of the two watermarks. -/
def count_block (p : disk_buffer_pool) : disk_buffer_pool :=
  let p1 := { p with m_in_use := p.m_in_use + 1 }
  if p1.m_in_use ≥ p1.m_low_watermark + (p1.m_max_use - p1.m_low_watermark).tdiv 2
      ∧ p1.m_exceeded_max_size = false then
    trigger_trim p1
  else p1

/-- `disk_buffer_pool::allocate_buffer_impl`; `m` is what `m_pool.malloc()` or
`page_aligned_allocator::malloc` returns if it is called. -/
def allocate_buffer_impl (p : disk_buffer_pool) (_category : Nat) (m : Option Int) :
    disk_buffer_pool × Option Int :=
  match p.m_cache_pool with
  | some base =>
    let p1 :=
      if (p.m_free_list.length : Int) ≤ (p.m_max_use - p.m_low_watermark).tdiv 2 % 18446744073709551616
          ∧ p.m_exceeded_max_size = false then
        trigger_trim p
      else p
    match p1.m_free_list.getLast? with
    | none => (p1, none)
    | some slot_index =>
      (count_block { p1 with m_free_list := p1.m_free_list.dropLast },
        some (base + slot_index % 18446744073709551616 * 16384))
  | none =>
    let p1 :=
      if p.m_using_pool_allocator then
        { p with m_pool_next_size :=
            if p.m_cache_buffer_chunk_size ≠ 0 then p.m_cache_buffer_chunk_size
            else max (p.m_max_use.tdiv 10) 1 }
      else p
    match m with
    | none => (trigger_trim p1, none)
    | some ret => (count_block p1, some ret)

/-- `disk_buffer_pool::allocate_buffer(char const* category)`. -/
def allocate_buffer (p : disk_buffer_pool) (category : Nat) (m : Option Int) :
    disk_buffer_pool × Option Int :=
  allocate_buffer_impl p category m

/-- `disk_buffer_pool::allocate_buffer(bool& exceeded, shared_ptr<disk_observer> o,
char const* category)`; the last component of the result is `exceeded` after the
call. -/
def allocate_buffer_observer (p : disk_buffer_pool) (exceeded : Bool) (o : Option Nat)
    (category : Nat) (m : Option Int) : disk_buffer_pool × Option Int × Bool :=
  let r := allocate_buffer_impl p category m
  if r.1.m_exceeded_max_size then
    match o with
    | some ob => ({ r.1 with m_observers := r.1.m_observers ++ [ob] }, r.2, true)
    | none => (r.1, r.2, true)
  else (r.1, r.2, exceeded)

/-- `disk_buffer_pool::async_allocate_buffer`. -/
def async_allocate_buffer (p : disk_buffer_pool) (category : Nat) (handler : Nat)
    (m : Option Int) : disk_buffer_pool × Option Int :=
  if p.m_exceeded_max_size then
    ({ p with m_handlers :=
        p.m_handlers ++ [{ category := category, callback := handler, buffer := none }] },
      none)
  else allocate_buffer_impl p category m

/-- The `for` loop of `check_buffer_level` from handler number `i` on, over the
handlers not visited yet.  The result is the pool, the visited handlers with
the buffers assigned to them, and, when the loop left through `break`, the
handlers that stay in `m_handlers`. -/
def drain (ms : Nat → Option Int) :
    disk_buffer_pool → Nat → List handler_t →
      disk_buffer_pool × List handler_t × Option (List handler_t)
  | p, _, [] => (p, [], none)
  | p, i, h :: rest =>
    let r := allocate_buffer_impl p h.category (ms i)
    let h1 := { h with buffer := r.2 }
    if r.1.m_exceeded_max_size = false ∨ rest.isEmpty then
      let d := drain ms r.1 (i + 1) rest
      (d.1, h1 :: d.2.1, d.2.2)
    else (r.1, [h1], some rest)

/-- `disk_buffer_pool::check_buffer_level`. -/
def check_buffer_level (p : disk_buffer_pool) (ms : Nat → Option Int) : disk_buffer_pool :=
  if p.m_exceeded_max_size = false ∨ p.m_in_use > p.m_low_watermark then p
  else
    let d := drain ms { p with m_exceeded_max_size := false } 0 p.m_handlers
    match d.2.2 with
    | some remaining =>
      { d.1 with
        m_handlers := remaining
        posted := d.1.posted ++ [.watermark_callback none (some d.2.1)] }
    | none =>
      if d.1.m_exceeded_max_size then
        { d.1 with
          m_handlers := []
          posted := d.1.posted ++ [.watermark_callback none (some d.2.1)] }
      else
        { d.1 with
          m_handlers := []
          m_observers := []
          posted := d.1.posted ++ [.watermark_callback (some d.1.m_observers) (some d.2.1)] }

/-- `disk_buffer_pool::free_buffer_impl`. -/
def free_buffer_impl (p : disk_buffer_pool) (buf : Int) : disk_buffer_pool :=
  let p1 :=
    match p.m_cache_pool with
    | some base => { p with m_free_list := p.m_free_list ++ [(buf - base).tdiv 16384] }
    | none => p
  let p2 := { p1 with m_in_use := p1.m_in_use - 1 }
  if p2.m_in_use = 0 ∧ p2.m_want_pool_allocator ≠ p2.m_using_pool_allocator then
    { p2 with m_using_pool_allocator := p2.m_want_pool_allocator }
  else p2

/-- `disk_buffer_pool::free_buffer`. -/
def free_buffer (p : disk_buffer_pool) (buf : Int) (ms : Nat → Option Int) :
    disk_buffer_pool :=
  check_buffer_level (free_buffer_impl p buf) ms

/-- `disk_buffer_pool::free_multiple_buffers`; `numbufs` is the length of
`bufvec`. -/
def free_multiple_buffers (p : disk_buffer_pool) (bufvec : List Int)
    (ms : Nat → Option Int) : disk_buffer_pool :=
  check_buffer_level ((bufvec.insertionSort (· ≤ ·)).foldl free_buffer_impl p) ms

/-- The part of `set_settings` that changes the size (lines 469 to 476). -/
def set_size (p : disk_buffer_pool) (sett : session_settings) : disk_buffer_pool :=
  let low := sett.cache_size - max 16 (sett.max_queued_disk_bytes.tdiv 16384)
  let p1 := { p with
    m_max_use := sett.cache_size
    m_low_watermark := if low < 0 then 0 else low }
  if p1.m_in_use ≥ p1.m_max_use ∧ p1.m_exceeded_max_size = false then trigger_trim p1
  else p1

/-- The posting of an `mmap_cache_alert` when there is an alert dispatcher. -/
def post_mmap_alert (p : disk_buffer_pool) (errno : Int) : disk_buffer_pool :=
  if p.m_post_alert then { p with posted := p.posted ++ [.alert_callback errno] } else p

/-- `disk_buffer_pool::set_settings`. -/
def set_settings (p : disk_buffer_pool) (sett : session_settings) (have_mmap : Bool)
    (open_fd : Int) (mmap_ret : Option Int) (errno : Int) : disk_buffer_pool :=
  let p1 := { p with
    m_cache_buffer_chunk_size := sett.cache_buffer_chunk_size
    m_lock_disk_cache := sett.lock_disk_cache
    m_want_pool_allocator := sett.use_disk_cache_pool }
  let p2 :=
    if p1.m_in_use = 0 then { p1 with m_using_pool_allocator := p1.m_want_pool_allocator }
    else p1
  if have_mmap = true ∧ p2.m_cache_pool.isSome = true ∧ p2.m_in_use > 0 then p2
  else
    let p3 :=
      if (have_mmap = true ∧ p2.m_cache_pool.isNone = true) ∨ sett.mmap_cache.isEmpty = true
      then set_size p2 sett
      else p2
    if have_mmap = false then p3
    else if p3.m_cache_pool.isSome = true ∧ sett.mmap_cache.isEmpty = true then
      { p3 with m_cache_pool := none, m_cache_fd := -1, m_free_list := [] }
    else if p3.m_cache_pool.isNone = true ∧ sett.mmap_cache.isEmpty = false then
      if open_fd < 0 then post_mmap_alert { p3 with m_cache_fd := open_fd } errno
      else
        match mmap_ret with
        | none =>
          { post_mmap_alert { p3 with m_cache_fd := open_fd } errno with
            m_cache_pool := none, m_cache_fd := -1 }
        | some addr =>
          { p3 with
            m_cache_fd := open_fd
            m_cache_pool := some addr
            m_free_list := p3.m_free_list ++ (List.range p3.m_max_use.toNat).map Int.ofNat }
    else p3

/-- One call of the public interface of the pool, with the answers of the heap. -/
inductive pool_call where
  | allocate_buffer (category : Nat) (m : Option Int)
  | allocate_buffer_observer (exceeded : Bool) (o : Option Nat) (category : Nat)
      (m : Option Int)
  | async_allocate_buffer (category : Nat) (handler : Nat) (m : Option Int)
  | free_buffer (buf : Int) (ms : Nat → Option Int)
  | free_multiple_buffers (bufvec : List Int) (ms : Nat → Option Int)

/-- The blocks carried by a batch of handlers. -/
def blocks_of (hs : List handler_t) : List Int :=
  hs.filterMap (fun h => h.buffer)

/-- The blocks carried by the handlers of posted function objects. -/
def posted_blocks : List posted_t → List Int
  | [] => []
  | .watermark_callback _ (some hs) :: rest => blocks_of hs ++ posted_blocks rest
  | _ :: rest => posted_blocks rest

/-- The blocks carried by what a call has posted: `p` is the pool before the
call and `q` the pool after it. -/
def woken_blocks (p q : disk_buffer_pool) : List Int :=
  posted_blocks (q.posted.drop p.posted.length)

/-- Removes one occurrence of every block of `bufs` from the allocated blocks;
`none` when one of them is not allocated (any more). -/
def remove_blocks : List Int → List Int → Option (List Int)
  | allocated, [] => some allocated
  | allocated, b :: bs =>
    if b ∈ allocated then remove_blocks (allocated.erase b) bs else none

/-- A pool together with the bookkeeping of a client: the blocks it holds (handed
out and not freed yet), the number of blocks handed out so far and the number
of blocks freed so far. -/
structure pool_trace where
  pool : disk_buffer_pool
  allocated : List Int
  handed_out : Nat
  freed : Nat

/-- The bookkeeping after blocks have been handed out. -/
def pool_trace.hand_out (t : pool_trace) (q : disk_buffer_pool) (blocks : List Int) :
    pool_trace :=
  { pool := q
    allocated := t.allocated ++ blocks
    handed_out := t.handed_out + blocks.length
    freed := t.freed }

/-- One call on a pool with its bookkeeping; `none` when the call frees a block
that the client does not hold. -/
def pool_trace.call (t : pool_trace) : pool_call → Option pool_trace
  | .allocate_buffer category m =>
    let r := libtorrent.allocate_buffer t.pool category m
    some (t.hand_out r.1 r.2.toList)
  | .allocate_buffer_observer exceeded o category m =>
    let r := libtorrent.allocate_buffer_observer t.pool exceeded o category m
    some (t.hand_out r.1 r.2.1.toList)
  | .async_allocate_buffer category handler m =>
    let r := libtorrent.async_allocate_buffer t.pool category handler m
    some (t.hand_out r.1 r.2.toList)
  | .free_buffer buf ms =>
    match remove_blocks t.allocated [buf] with
    | none => none
    | some rest =>
      let q := libtorrent.free_buffer t.pool buf ms
      some (pool_trace.hand_out
        { pool := t.pool, allocated := rest, handed_out := t.handed_out, freed := t.freed + 1 }
        q (woken_blocks t.pool q))
  | .free_multiple_buffers bufvec ms =>
    match remove_blocks t.allocated bufvec with
    | none => none
    | some rest =>
      let q := libtorrent.free_multiple_buffers t.pool bufvec ms
      some (pool_trace.hand_out
        { pool := t.pool, allocated := rest, handed_out := t.handed_out,
          freed := t.freed + bufvec.length }
        q (woken_blocks t.pool q))

/-- A sequence of calls, from left to right. -/
def pool_trace.calls (t : pool_trace) : List pool_call → Option pool_trace
  | [] => some t
  | c :: cs =>
    match t.call c with
    | none => none
    | some t1 => pool_trace.calls t1 cs

/-- The bookkeeping of a client that holds no block. -/
def pool_trace.start (p : disk_buffer_pool) : pool_trace :=
  { pool := p, allocated := [], handed_out := 0, freed := 0 }

/-- Settings asking for a cache of one block on the heap. -/
def small_cache : session_settings :=
  { cache_buffer_chunk_size := 0
    lock_disk_cache := false
    use_disk_cache_pool := false
    mmap_cache := ""
    cache_size := 1
    max_queued_disk_bytes := 0 }

/-- A new pool for blocks of 16 KiB after `set_settings(small_cache)`. -/
def small_pool : disk_buffer_pool :=
  set_settings (new_disk_buffer_pool 16384 false) small_cache true 0 none 0

/-- Settings asking for a memory-mapped cache of two blocks. -/
def mapped_cache : session_settings :=
  { cache_buffer_chunk_size := 0
    lock_disk_cache := false
    use_disk_cache_pool := false
    mmap_cache := "cache"
    cache_size := 2
    max_queued_disk_bytes := 0 }

/-- A new pool after `set_settings(mapped_cache)`, where `open` has returned the
descriptor 3 and `mmap` the address 65536. -/
def mapped_pool : disk_buffer_pool :=
  set_settings (new_disk_buffer_pool 16384 false) mapped_cache true 3 (some 65536) 0

/-- The pool `small_pool` after the block 4096 has been allocated and two
requests, with the callbacks 1 and 2, have been queued. -/
def waiting_pool : disk_buffer_pool :=
  (async_allocate_buffer
    (async_allocate_buffer (allocate_buffer small_pool 7 (some 4096)).1 8 1 none).1
    8 2 none).1

/-- The watermarks are in order, a pool that holds more than `max_use` blocks is
under pressure, and in a memory-mapped cache the blocks in use and the free
slots add up to `max_use`. -/
def pool_ok (p : disk_buffer_pool) : Prop :=
  p.m_low_watermark ≤ p.m_max_use ∧
  (p.m_max_use < p.m_in_use → p.m_exceeded_max_size = true) ∧
  (p.m_cache_pool ≠ none → p.m_in_use + (p.m_free_list.length : Int) = p.m_max_use)

/-- The bookkeeping of the client agrees with the pool: `in_use` counts the blocks
the client holds, and these are the blocks handed out less the blocks freed. -/
def pool_trace.ok (t : pool_trace) : Prop :=
  t.pool.m_in_use = (t.allocated.length : Int) ∧
  t.allocated.length + t.freed = t.handed_out

/-- A call made by a function object that the executor runs: the callback of a
handler with its buffer, or `on_disk()` of an observer. -/
inductive invoked_t where
  | callback (handler : Nat) (buffer : Option Int)
  | on_disk (observer : Nat)
deriving DecidableEq

/-- The static function `watermark_callback(cbs, handlers)`: the calls it makes,
in order. -/
def watermark_callback (cbs : Option (List Nat)) (handlers : Option (List handler_t)) :
    List invoked_t :=
  (match handlers with
    | some hs => hs.map (fun h => invoked_t.callback h.callback h.buffer)
    | none => []) ++
  (match cbs with
    | some os => os.map invoked_t.on_disk
    | none => [])

/-- Reduction of an integer to the range of `int` (32 bits). -/
def wrap32 (x : Int) : Int :=
  (x + 2147483648) % 4294967296 - 2147483648

/-- `disk_buffer_pool::num_to_evict`.  The subtraction from `m_max_use` is done in
`size_t` and converted to `int`; the result is returned as `boost::uint32_t`. -/
def num_to_evict (p : disk_buffer_pool) (num_needed : Int) : Int :=
  let ret0 : Int :=
    if p.m_exceeded_max_size then
      p.m_in_use - min p.m_low_watermark
        (wrap32 ((p.m_max_use - ((p.m_observers.length + p.m_handlers.length : Nat) : Int) * 2)
          % 18446744073709551616))
    else 0
  let ret1 : Int :=
    if p.m_in_use + num_needed > p.m_max_use then
      max ret0 (p.m_in_use + num_needed - p.m_max_use)
    else ret0
  let ret2 : Int :=
    if ret1 < 0 then 0 else if ret1 > p.m_in_use then p.m_in_use else ret1
  ret2 % 4294967296

/-- Settings asking for a cache of four blocks on the heap. -/
def medium_cache : session_settings :=
  { cache_buffer_chunk_size := 0
    lock_disk_cache := false
    use_disk_cache_pool := false
    mmap_cache := ""
    cache_size := 4
    max_queued_disk_bytes := 0 }

/-- A new pool for blocks of 16 KiB after `set_settings(medium_cache)`. -/
def medium_pool : disk_buffer_pool :=
  set_settings (new_disk_buffer_pool 16384 false) medium_cache true 0 none 0

/-- The pool `medium_pool` after two blocks have been allocated, a request with
the callback 1 has been queued, and a third block has been allocated by the
variant that registers the observer 5. -/
def observed_pool : disk_buffer_pool :=
  (allocate_buffer_observer
    (async_allocate_buffer
      (allocate_buffer (allocate_buffer medium_pool 7 (some 4096)).1 7 (some 8192)).1
      8 1 none).1
    false (some 5) 7 (some 12288)).1

/-- Settings asking for a cache of 40 blocks with a low watermark of 2 blocks. -/
def wide_cache : session_settings :=
  { cache_buffer_chunk_size := 0
    lock_disk_cache := false
    use_disk_cache_pool := false
    mmap_cache := ""
    cache_size := 40
    max_queued_disk_bytes := 622592 }

/-- A new pool after `set_settings(wide_cache)` and three allocations. -/
def wide_pool : disk_buffer_pool :=
  (allocate_buffer
    (allocate_buffer
      (allocate_buffer
        (set_settings (new_disk_buffer_pool 16384 false) wide_cache true 0 none 0)
        7 (some 4096)).1
      7 (some 8192)).1
    7 (some 12288)).1

/-- The pool `base` with the given count of blocks, pressure flag, number of
calls of the trim trigger, handler queue and posted function objects. -/
def pool_state (base : disk_buffer_pool) (in_use : Int) (exceeded : Bool) (trims : Nat)
    (handlers : List handler_t) (posted : List posted_t) : disk_buffer_pool :=
  { base with
    m_in_use := in_use
    m_exceeded_max_size := exceeded
    trim_calls := trims
    m_handlers := handlers
    posted := posted }

/-- Settings asking for a memory-mapped cache of 40 blocks, with the given
`max_queued_disk_bytes`. -/
def mapped_wide_cache (max_queued_disk_bytes : Int) : session_settings :=
  { cache_buffer_chunk_size := 0
    lock_disk_cache := false
    use_disk_cache_pool := false
    mmap_cache := "cache"
    cache_size := 40
    max_queued_disk_bytes := max_queued_disk_bytes }

/-- One operation on the pool: a call of the allocation interface, or
`set_settings` with the answers of `open` and `mmap`. -/
inductive pool_op where
  | call (c : pool_call)
  | set_settings (sett : session_settings) (have_mmap : Bool) (open_fd : Int)
      (mmap_ret : Option Int) (errno : Int)

/-- A pool together with the blocks the client holds, each with the value that
`m_using_pool_allocator` had when the block was allocated, and the number of
blocks freed so far while `m_using_pool_allocator` had another value than at
their allocation.  Only the flag is recorded: whether a memory-mapped cache
existed at the allocation or exists at the free is not. -/
structure pool_run where
  pool : disk_buffer_pool
  held : List (Int × Bool)
  mixed : Nat

/-- The bookkeeping after blocks have been handed out by the pool `q`. -/
def pool_run.take (r : pool_run) (q : disk_buffer_pool) (blocks : List Int) : pool_run :=
  { pool := q
    held := r.held ++ blocks.map (fun b => (b, q.m_using_pool_allocator))
    mixed := r.mixed }

/-- The call `free_buffer_impl(buf)` with its bookkeeping; `none` when the client
does not hold `buf`. -/
def pool_run.free_one (r : pool_run) (buf : Int) : Option pool_run :=
  match r.held.find? (fun e => decide (e.1 = buf)) with
  | none => none
  | some e =>
    some
      { pool := free_buffer_impl r.pool buf
        held := r.held.erase e
        mixed := r.mixed + (if e.2 = r.pool.m_using_pool_allocator then 0 else 1) }

/-- The loop of `free_multiple_buffers` with its bookkeeping. -/
def pool_run.free_all (r : pool_run) : List Int → Option pool_run
  | [] => some r
  | b :: bs =>
    match r.free_one b with
    | none => none
    | some r1 => pool_run.free_all r1 bs

/-- The call `check_buffer_level` with its bookkeeping. -/
def pool_run.wake (r : pool_run) (ms : Nat → Option Int) : pool_run :=
  r.take (check_buffer_level r.pool ms) (woken_blocks r.pool (check_buffer_level r.pool ms))

/-- One operation with its bookkeeping; `none` when it frees a block that the
client does not hold. -/
def pool_run.op (r : pool_run) : pool_op → Option pool_run
  | .call (.allocate_buffer category m) =>
    some (r.take (libtorrent.allocate_buffer r.pool category m).1
      (libtorrent.allocate_buffer r.pool category m).2.toList)
  | .call (.allocate_buffer_observer exceeded o category m) =>
    some (r.take (libtorrent.allocate_buffer_observer r.pool exceeded o category m).1
      (libtorrent.allocate_buffer_observer r.pool exceeded o category m).2.1.toList)
  | .call (.async_allocate_buffer category handler m) =>
    some (r.take (libtorrent.async_allocate_buffer r.pool category handler m).1
      (libtorrent.async_allocate_buffer r.pool category handler m).2.toList)
  | .call (.free_buffer buf ms) =>
    (r.free_one buf).map (fun r1 => r1.wake ms)
  | .call (.free_multiple_buffers bufvec ms) =>
    (r.free_all (bufvec.insertionSort (· ≤ ·))).map (fun r1 => r1.wake ms)
  | .set_settings sett have_mmap open_fd mmap_ret errno =>
    some { r with pool := libtorrent.set_settings r.pool sett have_mmap open_fd mmap_ret errno }

/-- A sequence of operations, from left to right. -/
def pool_run.ops (r : pool_run) : List pool_op → Option pool_run
  | [] => some r
  | o :: os =>
    match r.op o with
    | none => none
    | some r1 => pool_run.ops r1 os

/-- The bookkeeping of a client that holds no block. -/
def pool_run.start (p : disk_buffer_pool) : pool_run :=
  { pool := p, held := [], mixed := 0 }

/-- The bookkeeping agrees with the pool, and every block the client holds was
allocated while `m_using_pool_allocator` had the value it has now. -/
def pool_run.ok (r : pool_run) : Prop :=
  r.pool.m_in_use = (r.held.length : Int) ∧
  (∀ e ∈ r.held, e.2 = r.pool.m_using_pool_allocator) ∧
  r.mixed = 0

/-- The cache size of the settings of an operation is not negative. -/
def pool_op.size_ok : pool_op → Prop
  | .call _ => True
  | .set_settings sett _ _ _ _ => 0 ≤ sett.cache_size

/-! ## The uTP socket manager (`src/src/utp_socket_manager.cpp`)

Modelling conventions.

* A `utp_socket_impl*` is the address of the connection, a natural number; NULL
  is `none`.  The connections themselves are kept with the directory entries
  that point to them; dereferencing a pointer that no directory entry holds
  is the memory-fault outcome `none`.
* `boost::uint16_t` identifiers are integers reduced modulo `2^16`; the `int`
  member `m_new_connection` is a mathematical integer.
* The functions of `utp_stream.cpp`, which is not among the sources, that the
  manager calls are arguments (`utp_env`), except `utp_match` and
  `construct_utp_impl`, which are modelled from the spec, as is
  `instantiate_connection`.  What `new
  (std::nothrow)`, the allocator of `construct_utp_impl` and `rand()` answer is
  an argument of the function that asks (`new_ok`, `impl_ptr`, `rand`).
* The calls of `utp_incoming_packet` and of the accept callback `m_cb` made so
  far are kept in the state (`delivered`, `accepted`).
* A datagram is the list of its bytes `p` together with the `size` passed for
  it (`int` converted to `size_t`, modulo `2^64`, for the comparison with
  `sizeof(utp_header)`); an endpoint is a natural number naming address and
  port.
-/

/-- Modelled from the spec: `utp_socket_impl` is defined in the missing
`utp_stream.cpp`.  Of a connection the manager only needs its address `ptr`,
the pair of connection identifiers and the remote endpoint (unset until the
connection has one). -/
structure utp_socket_impl where
  ptr : Nat
  m_recv_id : Int
  m_send_id : Int
  m_remote : Option Nat
deriving DecidableEq

/-- Modelled from the spec: `utp_header::get_version()` of the missing
`utp_stream.hpp`; the version is the low half of the first byte of the header. -/
def get_version (p : List Nat) : Option Nat :=
  (rd p 0).map (fun b => b % 16)

/-- Modelled from the spec: `utp_header::get_type()`; the type is the high half
of the first byte of the header. -/
def get_type (p : List Nat) : Option Nat :=
  (rd p 0).map (fun b => b / 16)

/-- Modelled from the spec: the member `connection_id` of `utp_header`, two
bytes in network byte order at offset 2. -/
def connection_id (p : List Nat) : Option Int :=
  match rd p 2, rd p 3 with
  | some hi, some lo => some ((hi % 256 * 256 + lo % 256 : Nat) : Int)
  | _, _ => none

/-- Modelled from the spec: `sizeof(utp_header)`, the fixed header of 20 bytes. -/
def sizeof_utp_header : Int := 20

/-- The packet type `ST_SYN`. -/
def ST_SYN : Nat := 4

/-- Modelled from the spec: `utp_match(s, ep, id)` of the missing
`utp_stream.cpp`; a connection is identified by `(recv_id, remote endpoint)`. -/
def utp_match (s : utp_socket_impl) (ep : Nat) (id : Int) : Bool :=
  decide (s.m_remote = some ep) && decide (s.m_recv_id = id)

/-- The functions of the connection state machine that the manager calls:
`utp_incoming_packet(s, p, size, ep, receive_time)` with its result and the
connection after the call, `should_delete(s)`, and `tick_utp_impl(s, now)`
with the connection after the call. -/
structure utp_env where
  utp_incoming_packet : utp_socket_impl → List Nat → Int → Nat → Bool × utp_socket_impl
  should_delete : utp_socket_impl → Bool
  tick_utp_impl : utp_socket_impl → utp_socket_impl

/-- Modelled from the spec: the class is declared in the missing header
`utp_socket_manager.hpp`.  These are the members `utp_socket_manager.cpp` uses:
the directory `m_utp_sockets` (a `std::multimap` from `recv_id` to the
connection, kept in key order, entries of equal key in insertion order),
`m_last_socket`, `m_new_connection` and the setting
`m_sett.enable_incoming_utp`, followed by the record of the calls of
`utp_incoming_packet` and `m_cb` (the addresses of the connections passed). -/
structure utp_socket_manager where
  m_utp_sockets : List (Int × utp_socket_impl)
  m_last_socket : Option Nat
  m_new_connection : Int
  enable_incoming_utp : Bool
  delivered : List Nat
  accepted : List Nat
deriving DecidableEq

/-- The constructor `utp_socket_manager::utp_socket_manager`. -/
def new_utp_socket_manager (enable_incoming_utp : Bool) : utp_socket_manager :=
  { m_utp_sockets := []
    m_last_socket := none
    m_new_connection := -1
    enable_incoming_utp := enable_incoming_utp
    delivered := []
    accepted := [] }

/-- `std::multimap::insert`: the new entry goes after the entries whose key is
not greater. -/
def multimap_insert (k : Int) (v : utp_socket_impl) :
    List (Int × utp_socket_impl) → List (Int × utp_socket_impl)
  | [] => [(k, v)]
  | e :: es => if k < e.1 then (k, v) :: e :: es else e :: multimap_insert k v es

/-- `m_utp_sockets.equal_range(id)`: the entries with the key `id`, in order. -/
def equal_range (m : utp_socket_manager) (id : Int) : List (Int × utp_socket_impl) :=
  m.m_utp_sockets.filter (fun e => decide (e.1 = id))

/-- The connection a pointer points to. -/
def deref (m : utp_socket_manager) (q : Nat) : Option utp_socket_impl :=
  (m.m_utp_sockets.find? (fun e => decide (e.2.ptr = q))).map (fun e => e.2)

/-- The test `m_last_socket && utp_match(m_last_socket, ep, id)`; `none` when
`m_last_socket` points to no connection of the directory. -/
def last_socket_matches (m : utp_socket_manager) (ep : Nat) (id : Int) : Option Bool :=
  match m.m_last_socket with
  | none => some false
  | some q => (deref m q).map (fun s => utp_match s ep id)

/-- The call `utp_incoming_packet(s, p, size, ep, receive_time)`: the connection
`s` is replaced by what the state machine makes of it, at the same address. -/
def deliver (env : utp_env) (m : utp_socket_manager) (s : utp_socket_impl) (p : List Nat)
    (size : Int) (ep : Nat) : utp_socket_manager × Bool :=
  let r := env.utp_incoming_packet s p size ep
  ({ m with
      m_utp_sockets := m.m_utp_sockets.map
        (fun e => if e.2.ptr = s.ptr then (e.1, { r.2 with ptr := s.ptr }) else e)
      delivered := m.delivered ++ [s.ptr] },
    r.1)

/-- `utp_socket_manager::new_utp_socket`; `impl_ptr` is the address of the
connection that `construct_utp_impl` returns. -/
def new_utp_socket (m : utp_socket_manager) (impl_ptr : Nat) (rand : Int) :
    utp_socket_manager × utp_socket_impl :=
  let send_id : Int :=
    if m.m_new_connection ≠ -1 then m.m_new_connection % 65536 else rand % 65536
  let recv_id : Int :=
    if m.m_new_connection ≠ -1 then (m.m_new_connection + 1) % 65536
    else (send_id - 1) % 65536
  let impl : utp_socket_impl :=
    { ptr := impl_ptr, m_recv_id := recv_id, m_send_id := send_id, m_remote := none }
  ({ m with
      m_new_connection := -1
      m_utp_sockets := multimap_insert recv_id impl m.m_utp_sockets },
    impl)

/-- Modelled from the spec: `instantiate_connection(ios, proxy, s, 0, sm)` of the
missing `instantiate_connection.cpp` makes the new socket a `utp_stream`, whose
connection is the one `sm->new_utp_socket(...)` returns. -/
def instantiate_connection (m : utp_socket_manager) (impl_ptr : Nat) (rand : Int) :
    utp_socket_manager × utp_socket_impl :=
  new_utp_socket m impl_ptr rand

/-- `utp_socket_manager::incoming_packet`. -/
def incoming_packet (env : utp_env) (m : utp_socket_manager) (p : List Nat) (size : Int)
    (ep : Nat) (new_ok : Bool) (impl_ptr : Nat) (rand : Int) :
    Option (utp_socket_manager × Bool) :=
  if size % 18446744073709551616 < sizeof_utp_header then some (m, false)
  else
    match get_version p with
    | none => none
    | some version =>
      if version ≠ 1 then some (m, false)
      else
        match connection_id p with
        | none => none
        | some id =>
          match last_socket_matches m ep id with
          | none => none
          | some true =>
            match m.m_last_socket with
            | none => none
            | some q => (deref m q).map (fun s => deliver env m s p size ep)
          | some false =>
            match (equal_range m id).find? (fun e => utp_match e.2 ep id) with
            | some e =>
              let r := deliver env m e.2 p size ep
              some ({ r.1 with
                  m_last_socket := if r.2 then some e.2.ptr else r.1.m_last_socket },
                r.2)
            | none =>
              if m.enable_incoming_utp = false then some (m, false)
              else
                match get_type p with
                | none => none
                | some type =>
                  if type = ST_SYN then
                    let m1 := { m with m_new_connection := id }
                    if new_ok = false then some (m1, false)
                    else
                      let n := instantiate_connection m1 impl_ptr rand
                      let r := deliver env n.1 n.2 p size ep
                      if r.2 = false then some (r.1, false)
                      else some ({ r.1 with accepted := r.1.accepted ++ [n.2.ptr] }, true)
                  else some (m, false)

/-- A datagram of 20 bytes: a header with the given type, version 1 and the given
connection identifier, all other fields zero. -/
def utp_packet (type : Nat) (id : Nat) : List Nat :=
  [type * 16 + 1, 0, id / 256, id % 256] ++ List.replicate 16 0

/-- A state machine that takes every datagram, records the sender as the remote
endpoint of the connection, and never asks for deletion. -/
def accepting_env : utp_env :=
  { utp_incoming_packet := fun s _ _ ep => (true, { s with m_remote := some ep })
    should_delete := fun _ => false
    tick_utp_impl := fun s => s }

/-- A manager with two connections that collide on `recv_id = 7`: the first
with the remote endpoint 1, the second with the remote endpoint 2. -/
def colliding_manager : utp_socket_manager :=
  { m_utp_sockets :=
      [(7, { ptr := 100, m_recv_id := 7, m_send_id := 8, m_remote := some 1 }),
        (7, { ptr := 200, m_recv_id := 7, m_send_id := 8, m_remote := some 2 })]
    m_last_socket := none
    m_new_connection := -1
    enable_incoming_utp := true
    delivered := []
    accepted := [] }

/-! ## The read position of the decoder -/

/-- The read positions of `lazy_bdecode` at the head of its loop, one for every
evaluation of the loop condition, for at most the given number of evaluations. -/
def loop_positions (depth_limit : Int) : Nat → decode_state → List Int
  | 0, _ => []
  | fuel + 1, s =>
    s.start ::
      (if s.start < s.buf.length then
        match iteration depth_limit s with
        | .next s1 => loop_positions depth_limit fuel s1
        | _ => []
      else [])


/-! ## The uTP socket manager: removal of connections -/

/-- `utp_socket_manager::remove_socket`; the argument is a `boost::uint16_t`.  The entry
that `m_utp_sockets.find(id)` gives is the first one with the key `id`. -/
def remove_socket (m : utp_socket_manager) (id : Int) : utp_socket_manager :=
  match m.m_utp_sockets.find? (fun e => decide (e.1 = id % 65536)) with
  | none => m
  | some e =>
    { m with
      m_last_socket := if m.m_last_socket = some e.2.ptr then none else m.m_last_socket
      m_utp_sockets := m.m_utp_sockets.erase e }

/-- The loop of `utp_socket_manager::tick` over the entries of the directory that are left
to visit, with the value of `m_last_socket`: an entry whose connection `should_delete` is
deleted and erased, and `m_last_socket` is cleared when it points to it; any other
connection is replaced by what `tick_utp_impl` makes of it, at the same address. -/
def tick_loop (env : utp_env) :
    List (Int × utp_socket_impl) → Option Nat → List (Int × utp_socket_impl) × Option Nat
  | [], last => ([], last)
  | e :: es, last =>
    if env.should_delete e.2 then
      tick_loop env es (if last = some e.2.ptr then none else last)
    else
      let r := tick_loop env es last
      ((e.1, { env.tick_utp_impl e.2 with ptr := e.2.ptr }) :: r.1, r.2)

/-- `utp_socket_manager::tick`. -/
def tick (env : utp_env) (m : utp_socket_manager) : utp_socket_manager :=
  let r := tick_loop env m.m_utp_sockets m.m_last_socket
  { m with m_utp_sockets := r.1, m_last_socket := r.2 }

/-- A call of one of the member functions of the manager that change the directory or
`m_last_socket`, with what the environment answers during the call. -/
inductive utp_call where
  | incoming_packet (p : List Nat) (size : Int) (ep : Nat) (new_ok : Bool) (impl_ptr : Nat)
      (rand : Int)
  | new_utp_socket (impl_ptr : Nat) (rand : Int)
  | remove_socket (id : Int)
  | tick

/-- The manager after a call, the state machine of the connections behaving as `env`
during the call; `none` when the call reads outside the datagram or dereferences an
`m_last_socket` that points to no connection of the directory. -/
def utp_socket_manager.call (m : utp_socket_manager) (env : utp_env) :
    utp_call → Option utp_socket_manager
  | .incoming_packet p size ep new_ok impl_ptr rand =>
    (incoming_packet env m p size ep new_ok impl_ptr rand).map (fun r => r.1)
  | .new_utp_socket impl_ptr rand => some (new_utp_socket m impl_ptr rand).1
  | .remove_socket id => some (remove_socket m id)
  | .tick => some (tick env m)

/-- The manager after a sequence of calls. -/
def utp_socket_manager.calls :
    utp_socket_manager → List (utp_env × utp_call) → Option utp_socket_manager
  | m, [] => some m
  | m, c :: cs =>
    match m.call c.1 c.2 with
    | none => none
    | some m1 => m1.calls cs

/-- The test that `m_last_socket` is null or the address of a connection of the
directory. -/
def last_socket_valid (m : utp_socket_manager) : Bool :=
  match m.m_last_socket with
  | none => true
  | some q => m.m_utp_sockets.any (fun e => decide (e.2.ptr = q))

/-- A state machine that takes every datagram and asks for the deletion of the
connections whose remote endpoint is 2. -/
def deleting_env : utp_env :=
  { utp_incoming_packet := fun s _ _ ep => (true, { s with m_remote := some ep })
    should_delete := fun s => decide (s.m_remote = some 2)
    tick_utp_impl := fun s => s }

/-- The manager after a SYN with `connection_id = 7` from the endpoint 2 was accepted and a
data packet was delivered to the connection made for it: the connection, at the address
100, is registered under the key 8 and cached in `m_last_socket`. -/
def cached_manager : utp_socket_manager :=
  { m_utp_sockets := [(8, { ptr := 100, m_recv_id := 8, m_send_id := 7, m_remote := some 2 })]
    m_last_socket := some 100
    m_new_connection := -1
    enable_incoming_utp := true
    delivered := [100, 100]
    accepted := [100] }

set_option maxRecDepth 100000

/-! ## Memory accesses -/

theorem rd_some_iff (buf : List Nat) (p : Int) (c : Nat) :
    rd buf p = some c ↔ 0 ≤ p ∧ buf.get? p.toNat = some c := by
  unfold rd
  by_cases h : p < 0
  · simp [h]
  · simp [h]; omega

theorem rd_bounds {buf : List Nat} {p : Int} {c : Nat} (h : rd buf p = some c) :
    0 ≤ p ∧ p < buf.length := by
  rw [rd_some_iff] at h
  obtain ⟨h0, h1⟩ := h
  obtain ⟨hlt, _⟩ := List.get?_eq_some.mp h1
  omega

theorem rd_isSome {buf : List Nat} {p : Int} (h0 : 0 ≤ p) (h1 : p < buf.length) :
    ∃ c, rd buf p = some c := by
  have hlt : p.toNat < buf.length := by omega
  refine ⟨buf.get ⟨p.toNat, hlt⟩, ?_⟩
  rw [rd_some_iff]
  exact ⟨h0, List.get?_eq_get hlt⟩

theorem wr_eq {buf : List Nat} {p : Int} (v : Nat) (h0 : 0 ≤ p) (h1 : p < buf.length) :
    wr buf p v = some (buf.set p.toNat v) := by
  unfold wr
  rw [if_pos ⟨h0, h1⟩]

theorem to_size_t_of_nonneg {d : Int} (h : 0 ≤ d) : to_size_t d = d := by
  unfold to_size_t
  rw [if_neg (by omega)]

/-! ## One pass of the loop -/

theorem iteration_step (d : Int) (s : decode_state) (top : lazy_entry) (rest : List lazy_entry)
    (t : Nat) (hs : s.stack = top :: rest) (hdep : (rest.length : Int) + 1 ≤ to_size_t d)
    (hrd : rd s.buf s.start = some t) :
    iteration d s =
      if s.start + 1 = s.buf.length ∧ t ≠ 101 then
        .ret (-1) { s with buf := s.buf.set s.start.toNat 0, start := s.start + 1 }
      else switch_type t { s with buf := s.buf.set s.start.toNat 0, start := s.start + 1 } top rest := by
  obtain ⟨buf, start, stack, ret⟩ := s
  simp only at hs hrd
  subst hs
  have hb := rd_bounds hrd
  unfold iteration
  simp only [List.length_cons]
  rw [if_neg (by push_cast; omega), if_neg (by omega), hrd]
  simp only [wr_eq 0 hb.1 hb.2]

theorem iteration_empty (d : Int) (s : decode_state) (hs : s.stack = []) :
    iteration d s = .ret 0 s := by
  unfold iteration
  rw [hs]

theorem iteration_depth (d : Int) (s : decode_state) (top : lazy_entry)
    (rest : List lazy_entry) (hs : s.stack = top :: rest)
    (hdep : (rest.length : Int) + 1 > to_size_t d) :
    iteration d s = .ret (-1) s := by
  unfold iteration
  rw [hs]
  simp only [List.length_cons]
  rw [if_pos (by push_cast; omega)]

theorem iteration_mono (d d' : Int) (s : decode_state) (h : to_size_t d ≤ to_size_t d') :
    iteration d' s = iteration d s ∨ iteration d s = .ret (-1) s := by
  unfold iteration
  cases hs : s.stack with
  | nil => simp
  | cons top rest =>
    simp only []
    by_cases h1 : ((top :: rest).length : Int) > to_size_t d
    · right; rw [if_pos h1]
    · left
      have h2 : ¬ ((top :: rest).length : Int) > to_size_t d' := by omega
      rw [if_neg h1, if_neg h2]

theorem run_mono (d d' : Int) (h : to_size_t d ≤ to_size_t d') (b : List Nat) (r : lazy_entry) :
    ∀ (fuel : Nat) (s : decode_state),
      run d fuel s = .returned 0 b r → run d' fuel s = .returned 0 b r := by
  intro fuel
  induction fuel with
  | zero => intro s hs; simp [run] at hs
  | succ n ih =>
    intro s hs
    unfold run at hs ⊢
    by_cases hlt : s.start < s.buf.length
    · simp only [hlt, if_true] at hs ⊢
      rcases iteration_mono d d' s h with h1 | h1
      · rw [h1]
        cases hit : iteration d s with
        | next s1 => rw [hit] at hs; exact ih s1 hs
        | ret code s1 => rw [hit] at hs; exact hs
        | fault => rw [hit] at hs; exact hs
      · rw [h1] at hs
        simp at hs
    · simp only [hlt, if_false] at hs ⊢
      exact hs

theorem lazy_bdecode_mono (d d' : Int) (h : to_size_t d ≤ to_size_t d') (buf b : List Nat)
    (ret r : lazy_entry) (hs : lazy_bdecode buf ret d = .returned 0 b r) :
    lazy_bdecode buf ret d' = .returned 0 b r := by
  unfold lazy_bdecode at hs ⊢
  by_cases h0 : buf.length = 0
  · simp only [h0, if_true] at hs ⊢; exact hs
  · simp only [h0, if_false] at hs ⊢
    exact run_mono d d' h b r _ _ hs

theorem find_char_loop_finds (buf : List Nat) (delimiter : Nat) :
    ∀ (n : Nat) (start : Int), 0 ≤ start → start + n = buf.length →
      ∀ q : Int, start ≤ q → rd buf q = some delimiter →
        ∃ p, find_char_loop buf delimiter n start = some p ∧ start ≤ p ∧ p ≤ q ∧
          rd buf p = some delimiter := by
  intro n
  induction n with
  | zero =>
    intro start _ hlen q hq hrd
    have := rd_bounds hrd
    omega
  | succ n ih =>
    intro start h0 hlen q hq hrd
    obtain ⟨c, hc⟩ := @rd_isSome buf start h0 (by omega)
    unfold find_char_loop
    rw [hc]
    by_cases hcd : c = delimiter
    · refine ⟨start, ?_, le_refl _, hq, ?_⟩
      · simp [hcd]
      · rw [hc, hcd]
    · have hne : q ≠ start := by
        intro h
        rw [h, hc] at hrd
        exact hcd (Option.some.inj hrd)
      obtain ⟨p, hp, hp1, hp2, hp3⟩ :=
        ih (start + 1) (by omega) (by push_cast at hlen ⊢; omega) q (by omega) hrd
      refine ⟨p, ?_, by omega, hp2, hp3⟩
      simp only [hcd, if_false]
      exact hp

/-! ## Claims about concrete buffers and integer tokens -/

/-- C1: decoding the 22-byte buffer `d3:bar4:spam3:fooi42ee` with any depth limit of at
least 2 returns 0 and leaves in `ret` a dictionary with exactly two pairs, in this order:
the key `bar` with the string `spam` as child and the key `foo` with an integer child,
whose `int_value` is 42. -/
theorem lazy_bdecode_spec_example (ret : lazy_entry) (depth_limit : Int)
    (h : 2 ≤ depth_limit) :
    (bytes "d3:bar4:spam3:fooi42ee").length = 22 ∧
    lazy_bdecode (bytes "d3:bar4:spam3:fooi42ee") ret depth_limit =
      .returned 0
        [0, 0, 58, 98, 97, 114, 0, 58, 115, 112, 97, 109, 0, 58, 102, 111, 111, 0, 52, 50, 0, 0]
        (.dict_t [(3, .string_t 8), (14, .int_t 18)]) ∧
    c_str [0, 0, 58, 98, 97, 114, 0, 58, 115, 112, 97, 109, 0, 58, 102, 111, 111, 0, 52, 50, 0, 0]
      3 = some (bytes "bar") ∧
    c_str [0, 0, 58, 98, 97, 114, 0, 58, 115, 112, 97, 109, 0, 58, 102, 111, 111, 0, 52, 50, 0, 0]
      8 = some (bytes "spam") ∧
    c_str [0, 0, 58, 98, 97, 114, 0, 58, 115, 112, 97, 109, 0, 58, 102, 111, 111, 0, 52, 50, 0, 0]
      14 = some (bytes "foo") ∧
    int_value
      [0, 0, 58, 98, 97, 114, 0, 58, 115, 112, 97, 109, 0, 58, 102, 111, 111, 0, 52, 50, 0, 0]
      (.int_t 18) = some 42 := by
  refine ⟨rfl, ?_, rfl, rfl, rfl, rfl⟩
  apply lazy_bdecode_mono 2 depth_limit
  · simp only [to_size_t]; split <;> split <;> omega
  · rfl

/-- The statement of `lazy_bdecode_spec_example` at an entry that is a list before the call
and the depth limit 2. -/
theorem lazy_bdecode_spec_example_witness :
    (2 : Int) ≤ 2 ∧
    lazy_bdecode (bytes "d3:bar4:spam3:fooi42ee") (.list_t [.int_t 0]) 2 =
      .returned 0
        [0, 0, 58, 98, 97, 114, 0, 58, 115, 112, 97, 109, 0, 58, 102, 111, 111, 0, 52, 50, 0, 0]
        (.dict_t [(3, .string_t 8), (14, .int_t 18)]) :=
  ⟨by decide, (lazy_bdecode_spec_example (.list_t [.int_t 0]) 2 (by decide)).2.1⟩

/-- C3, as stated, fails: the buffer `i-0e` is accepted; the call returns 0 and `ret` is
an integer entry pointing at `-0`. -/
theorem lazy_bdecode_accepts_minus_zero :
    lazy_bdecode (bytes "i-0e") .none_t 1000 = .returned 0 [0, 45, 48, 0] (.int_t 1) := by
  rfl

/-- C3, amended: every buffer of the form `i` X `e`, whatever the bytes X are, is accepted
when the depth limit is at least 1; the call returns 0 and `ret` is an integer entry
pointing at the byte after the `i`.  The bytes of X are not examined beyond the search for
the first `e`. -/
theorem lazy_bdecode_int_not_validated (X : List Nat) (ret : lazy_entry) (depth_limit : Int)
    (h : 1 ≤ depth_limit) :
    ∃ b, lazy_bdecode (105 :: X ++ [101]) ret depth_limit = .returned 0 b (.int_t 1) := by
  have hq : rd (0 :: (X ++ [101])) ((X.length : Int) + 1) = some 101 := by
    rw [rd_some_iff]
    refine ⟨by omega, ?_⟩
    have : ((X.length : Int) + 1).toNat = X.length + 1 := by omega
    rw [this]
    simp
  obtain ⟨p, hp, hp1, hp2, hp3⟩ :=
    find_char_loop_finds (0 :: (X ++ [101])) 101 (X.length + 1) 1 (by omega)
      (by simp; omega) ((X.length : Int) + 1) (by omega) hq
  have hd : to_size_t depth_limit = depth_limit := to_size_t_of_nonneg (by omega)
  refine ⟨(0 :: (X ++ [101])).set p.toNat 0, ?_⟩
  have hfc : ∀ e : Int, e = X.length + 2 →
      find_char (0 :: (X ++ [101])) 1 e 101 = some p := by
    intro e he
    unfold find_char
    have : (e - 1).toNat = X.length + 1 := by omega
    rw [this]
    exact hp
  have hwr : wr (0 :: (X ++ [101])) p 0 = some ((0 :: (X ++ [101])).set p.toNat 0) :=
    wr_eq 0 (by omega) (by simp; omega)
  have hit : iteration depth_limit
      { buf := 105 :: (X ++ [101]), start := 0, stack := [.none_t], ret := .none_t } =
      .next { buf := (0 :: (X ++ [101])).set p.toNat 0, start := p + 1, stack := [],
              ret := .int_t 1 } := by
    rw [iteration_step depth_limit ⟨105 :: (X ++ [101]), 0, [.none_t], .none_t⟩ .none_t [] 105
      rfl (by simp; omega) rfl]
    simp only [List.length_cons, List.length_append, List.length_singleton]
    rw [if_neg (by push_cast; omega)]
    simp only [switch_type, parse_token, construct, Int.toNat_zero, List.set_cons_zero,
      zero_add, List.length_cons, List.length_append, List.length_singleton, List.length_nil]
    simp only [show ¬ ((105 : Nat) = 100) by decide, show ¬ ((105 : Nat) = 108) by decide,
      if_false, if_true]
    rw [hfc _ (by push_cast; omega)]
    simp only
    rw [if_neg (by push_cast; omega), hwr]
    rfl
  unfold lazy_bdecode
  simp only [List.cons_append, List.length_cons, List.length_append, List.length_singleton,
    lazy_entry.clear]
  rw [if_neg (by omega), run, hit]
  simp only []
  rw [if_pos (by simp; omega), run]
  simp only [iteration, decode_state.root]
  split <;> rfl

/-- The statement of `lazy_bdecode_int_not_validated` for X = `-0` and X = `00x` . -/
theorem lazy_bdecode_int_not_validated_witness :
    (1 : Int) ≤ 1000 ∧
    ∃ b, lazy_bdecode (105 :: bytes "00x" ++ [101]) .none_t 1000 = .returned 0 b (.int_t 1) :=
  ⟨by decide, lazy_bdecode_int_not_validated (bytes "00x") .none_t 1000 (by decide)⟩

/-- C4: the buffers `d1:ai1e` and `li1e`, in which a container is opened and never closed,
are accepted: the call returns 0 and `ret` holds the unterminated container. -/
theorem lazy_bdecode_accepts_unterminated :
    lazy_bdecode (bytes "d1:ai1e") .none_t 1000 =
      .returned 0 [0, 0, 58, 97, 0, 49, 0] (.dict_t [(3, .int_t 5)]) ∧
    lazy_bdecode (bytes "li1e") .none_t 1000 =
      .returned 0 [0, 0, 49, 0] (.list_t [.int_t 2]) := by
  exact ⟨rfl, rfl⟩

/-- C6: the 21-byte buffer `18446744073709551616:` declares a string of 2^64 bytes with no
byte after the colon; `len` wraps to 0 in `parse_int`, the length check passes and the call
returns 0 with a string entry pointing at the end of the buffer. -/
theorem lazy_bdecode_length_wraps :
    (bytes "18446744073709551616:").length = 21 ∧
    parse_int (bytes "18446744073709551616:") 1 21 58 1 = some (some 20, 0) ∧
    lazy_bdecode (bytes "18446744073709551616:") .none_t 1000 =
      .returned 0 (0 :: (bytes "18446744073709551616:").tail) (.string_t 21) := by
  exact ⟨rfl, rfl, rfl⟩

/-- C9: on the 5-byte buffer `d!:xx` the key length is computed from the byte `!` as `-15`,
the length check passes and the read pointer is moved to offset `-12`, before the buffer;
the next read is outside the buffer.  The 20-byte top-level buffer
`18446744073709551615`, whose length wraps to `-1`, makes the call read `*end`. -/
theorem lazy_bdecode_reads_outside_buffer :
    lazy_bdecode (bytes "d!:xx") .none_t 1000 = .fault ∧
    lazy_bdecode (bytes "18446744073709551615") .none_t 1000 = .fault := by
  exact ⟨rfl, rfl⟩

/-! ## The depth bound -/

theorem run_induction (d : Int) (P : decode_state → Prop) (Q : decode_result → Prop)
    (hstep : ∀ s, P s → s.start < s.buf.length →
      match iteration d s with
      | .next s1 => P s1
      | .ret code s1 => Q (.returned code s1.buf s1.root)
      | .fault => Q .fault)
    (hexit : ∀ s, P s → ¬ s.start < s.buf.length → Q (.returned 0 s.buf s.root))
    (htime : Q .timeout) :
    ∀ (fuel : Nat) (s : decode_state), P s → Q (run d fuel s) := by
  intro fuel
  induction fuel with
  | zero => intro s _; exact htime
  | succ n ih =>
    intro s hs
    unfold run
    by_cases hlt : s.start < s.buf.length
    · rw [if_pos hlt]
      have h1 := hstep s hs hlt
      cases hit : iteration d s with
      | next s1 => rw [hit] at h1; exact ih s1 h1
      | ret code s1 => rw [hit] at h1; exact h1
      | fault => rw [hit] at h1; exact h1
    · rw [if_neg hlt]
      exact hexit s hs hlt

theorem edepth_list_append (xs ys : List lazy_entry) :
    edepth_list (xs ++ ys) = max (edepth_list xs) (edepth_list ys) := by
  induction xs with
  | nil => simp [edepth_list]
  | cons x xs ih => simp [edepth_list, ih, max_assoc]

theorem edepth_dict_append (xs ys : List (Int × lazy_entry)) :
    edepth_dict (xs ++ ys) = max (edepth_dict xs) (edepth_dict ys) := by
  induction xs with
  | nil => simp [edepth_dict]
  | cons x xs ih =>
    obtain ⟨k, e⟩ := x
    simp [edepth_dict, ih, max_assoc]

theorem edepth_list_dropLast (xs : List lazy_entry) :
    edepth_list xs.dropLast ≤ edepth_list xs := by
  induction xs with
  | nil => simp
  | cons x xs ih =>
    cases xs with
    | nil => simp [edepth_list]
    | cons y ys =>
      simp only [List.dropLast_cons₂, edepth_list] at ih ⊢
      omega

theorem edepth_dict_dropLast (xs : List (Int × lazy_entry)) :
    edepth_dict xs.dropLast ≤ edepth_dict xs := by
  induction xs with
  | nil => simp
  | cons x xs ih =>
    obtain ⟨k, e⟩ := x
    cases xs with
    | nil => simp [edepth_dict]
    | cons y ys =>
      simp only [List.dropLast_cons₂, edepth_dict] at ih ⊢
      omega

theorem edepth_le_cdepth (e : lazy_entry) : edepth e ≤ cdepth e + 1 := by
  cases e <;> simp [edepth, cdepth] <;> omega

theorem cdepth_set_last (parent child : lazy_entry) :
    cdepth (set_last parent child) ≤ max (cdepth parent) (edepth child) := by
  cases parent with
  | none_t => simp [set_last, cdepth]
  | string_t p => simp [set_last, cdepth]
  | int_t p => simp [set_last, cdepth]
  | list_t items =>
    simp only [set_last, cdepth, edepth_list_append, edepth_list]
    have := edepth_list_dropLast items
    omega
  | dict_t items =>
    simp only [set_last]
    cases hl : items.getLast? with
    | none => simp [cdepth]
    | some kv =>
      obtain ⟨k, e⟩ := kv
      simp only [cdepth, edepth_dict_append, edepth_dict]
      have := edepth_dict_dropLast items
      omega

theorem wr_length {buf b : List Nat} {p : Int} {v : Nat} (h : wr buf p v = some b) :
    b.length = buf.length := by
  unfold wr at h
  split at h
  · cases h; simp
  · cases h

theorem depth_checked_inv {D : Int} {s : decode_state} (h : depth_checked D s) :
    depth_inv D s := by
  unfold depth_checked at h
  unfold depth_inv
  cases hs : s.stack with
  | nil => rw [hs] at h; exact h
  | cons top rest => rw [hs] at h; exact ⟨h.1, h.2.1, Or.inl h.2.2⟩

theorem pop_depth_checked (D : Int) (buf : List Nat) (start : Int) (top : lazy_entry)
    (rest : List lazy_entry) (ret : lazy_entry) (hf : frames_ok D rest)
    (ht : (rest.length : Int) + edepth top ≤ D) :
    depth_checked D (pop ⟨buf, start, top :: rest, ret⟩) := by
  cases rest with
  | nil =>
    simp only [pop, depth_checked]
    simpa using ht
  | cons parent ps =>
    simp only [pop, depth_checked]
    obtain ⟨hf1, hf2⟩ := hf
    have h1 := cdepth_set_last parent top
    have h2 := edepth_le_cdepth (set_last parent top)
    simp only [List.length_cons] at ht
    push_cast at ht
    refine ⟨hf2, by omega, ?_⟩
    omega

theorem parse_token_depth (D : Int) (t : Nat) (buf : List Nat) (start : Int)
    (top : lazy_entry) (rest : List lazy_entry) (ret : lazy_entry)
    (hf : frames_ok D rest) (hr : (rest.length : Int) ≤ D)
    (hlt : t = 100 ∨ t = 108 → start < buf.length) :
    match parse_token t ⟨buf, start, top :: rest, ret⟩ with
    | .next s1 => depth_inv D s1
    | .ret code _ => code = -1
    | .fault => True := by
  unfold parse_token
  simp only [construct]
  by_cases h100 : t = 100
  · rw [if_pos h100]
    exact ⟨hf, hr, Or.inr ⟨by simp [edepth, edepth_dict], hlt (Or.inl h100)⟩⟩
  rw [if_neg h100]
  by_cases h108 : t = 108
  · rw [if_pos h108]
    exact ⟨hf, hr, Or.inr ⟨by simp [edepth, edepth_list], hlt (Or.inr h108)⟩⟩
  rw [if_neg h108]
  by_cases h105 : t = 105
  · rw [if_pos h105]
    cases hfc : find_char buf start buf.length 101 with
    | none => trivial
    | some p =>
      simp only
      by_cases hp : p = (buf.length : Int)
      · rw [if_pos hp]
      · rw [if_neg hp]
        cases hw : wr buf p 0 with
        | none => trivial
        | some b =>
          simp only
          exact depth_checked_inv (pop_depth_checked D b (p + 1) (.int_t start) rest ret hf
            (by simp [edepth]; omega))
  rw [if_neg h105]
  by_cases hdig : (!isdigit t) = true
  · rw [if_pos hdig]
  rw [if_neg hdig]
  cases hpi : parse_int buf start buf.length 58 (char_val t - 48) with
  | none => trivial
  | some r =>
    obtain ⟨q, len⟩ := r
    cases q with
    | none => rfl
    | some p =>
      simp only
      by_cases hlen : p + len + 1 > (buf.length : Int)
      · rw [if_pos hlen]
      · rw [if_neg hlen]
        cases hrd : rd buf p with
        | none => trivial
        | some c =>
          simp only
          by_cases hc : c ≠ 58
          · rw [if_pos hc]
          · rw [if_neg hc]
            have := pop_depth_checked D buf (p + 1) (.string_t (p + 1)) rest ret hf
              (by simp [edepth]; omega)
            apply depth_checked_inv
            revert this
            cases rest <;> simp [pop, depth_checked]

theorem cdepth_cases (e : lazy_entry) : cdepth e + 1 = edepth e ∨ cdepth e = 0 := by
  cases e <;> simp [edepth, cdepth] <;> omega

theorem cdepth_dict_append (e : lazy_entry) (name : Int) :
    cdepth (dict_append e name) = cdepth e := by
  cases e <;> simp [dict_append, cdepth, edepth_dict_append, edepth_dict, edepth]

theorem cdepth_list_append (e : lazy_entry) : cdepth (list_append e) = cdepth e := by
  cases e <;> simp [list_append, cdepth, edepth_list_append, edepth_list, edepth]

theorem dict_key_depth (D : Int) (t : Nat) (buf : List Nat) (start : Int)
    (top : lazy_entry) (rest : List lazy_entry) (ret : lazy_entry)
    (hf : frames_ok D rest) (hc : (rest.length : Int) + 1 + cdepth top ≤ D) :
    match dict_key t ⟨buf, start, top :: rest, ret⟩ top rest with
    | .next s1 => depth_inv D s1
    | .ret code _ => code = -1
    | .fault => True := by
  unfold dict_key
  simp only
  cases hpi : parse_int buf start buf.length 58 (char_val t - 48) with
  | none => trivial
  | some r =>
    obtain ⟨q, len⟩ := r
    cases q with
    | none => rfl
    | some p =>
      simp only
      by_cases hlen : p + len + 3 > (buf.length : Int)
      · rw [if_pos hlen]
      · rw [if_neg hlen]
        cases hrd : rd buf p with
        | none => trivial
        | some c =>
          simp only
          by_cases hc58 : c ≠ 58
          · rw [if_pos hc58]
          · rw [if_neg hc58]
            cases hrd2 : rd buf (p + 1 + len) with
            | none => trivial
            | some t2 =>
              simp only
              cases hw : wr buf (p + 1 + len) 0 with
              | none => trivial
              | some b2 =>
                simp only
                have hl := wr_length hw
                apply parse_token_depth D t2 b2 (p + 1 + len + 1) .none_t
                  (dict_append top (p + 1) :: rest) ret
                · exact ⟨by rw [cdepth_dict_append]; exact hc, hf⟩
                · simp only [List.length_cons]; push_cast; omega
                · intro _; rw [hl]; omega

theorem switch_type_depth (D : Int) (t : Nat) (buf : List Nat) (start : Int)
    (top : lazy_entry) (rest : List lazy_entry) (ret : lazy_entry)
    (hf : frames_ok D rest) (hc : (rest.length : Int) + 1 + cdepth top ≤ D)
    (hlt : t ≠ 101 → start < buf.length) :
    match switch_type t ⟨buf, start, top :: rest, ret⟩ top rest with
    | .next s1 => depth_inv D s1
    | .ret code _ => code = -1
    | .fault => True := by
  have hpop : cdepth top + 1 = edepth top →
      depth_inv D (pop ⟨buf, start, top :: rest, ret⟩) := by
    intro he
    exact depth_checked_inv (pop_depth_checked D buf start top rest ret hf (by omega))
  have hother : match parse_token t ⟨buf, start, top :: rest, ret⟩ with
      | .next s1 => depth_inv D s1
      | .ret code _ => code = -1
      | .fault => True := by
    apply parse_token_depth D t buf start top rest ret hf (by omega)
    intro h
    apply hlt
    omega
  cases top with
  | none_t => exact hother
  | string_t p => exact hother
  | int_t p => exact hother
  | dict_t items =>
    simp only [switch_type]
    by_cases he : t = 101
    · rw [if_pos he]
      exact hpop (by simp [cdepth, edepth]; omega)
    · rw [if_neg he]
      exact dict_key_depth D t buf start _ rest ret hf hc
  | list_t items =>
    simp only [switch_type]
    by_cases he : t = 101
    · rw [if_pos he]
      exact hpop (by simp [cdepth, edepth]; omega)
    · rw [if_neg he]
      apply parse_token_depth D t buf start .none_t (list_append (.list_t items) :: rest) ret
      · exact ⟨by rw [cdepth_list_append]; exact hc, hf⟩
      · simp only [List.length_cons]; push_cast; omega
      · intro _; exact hlt he

theorem iteration_depth_inv (d : Int) (s : decode_state)
    (hinv : depth_inv (to_size_t d) s) (hlt : s.start < s.buf.length) :
    match iteration d s with
    | .next s1 => depth_inv (to_size_t d) s1
    | .ret code s1 => code = 0 → (edepth s1.root : Int) ≤ to_size_t d
    | .fault => True := by
  obtain ⟨buf, start, stack, ret⟩ := s
  cases stack with
  | nil =>
    rw [iteration_empty d _ rfl]
    intro _
    exact hinv
  | cons top rest =>
    simp only at hlt
    obtain ⟨hf, hr, ht⟩ := hinv
    by_cases hdep : (rest.length : Int) + 1 > to_size_t d
    · rw [iteration_depth d _ top rest rfl hdep]
      intro h; cases h
    · cases hrd : rd buf start with
      | none =>
        unfold iteration
        simp only [List.length_cons]
        rw [if_neg (by push_cast; omega), if_neg (by omega), hrd]
        trivial
      | some t =>
        rw [iteration_step d _ top rest t rfl (by omega) hrd]
        simp only
        by_cases hend : start + 1 = (buf.length : Int) ∧ t ≠ 101
        · rw [if_pos hend]
          intro h; cases h
        · rw [if_neg hend]
          have hc : (rest.length : Int) + 1 + cdepth top ≤ to_size_t d := by
            have := cdepth_cases top
            omega
          have := switch_type_depth (to_size_t d) t (buf.set start.toNat 0) (start + 1) top rest
            ret hf hc (by
              intro hne
              simp only [List.length_set]
              by_contra hcon
              exact hend ⟨by omega, hne⟩)
          revert this
          cases switch_type t ⟨buf.set start.toNat 0, start + 1, top :: rest, ret⟩ top rest with
          | next s1 => exact fun h => h
          | ret code s1 => intro h h0; rw [h] at h0; cases h0
          | fault => exact fun h => h

theorem plug_depth (D : Int) : ∀ (rest : List lazy_entry) (top : lazy_entry),
    frames_ok D rest → (rest.length : Int) + edepth top ≤ D →
    (edepth (plug top rest) : Int) ≤ D := by
  intro rest
  induction rest with
  | nil => intro top _ h; simpa [plug] using h
  | cons parent ps ih =>
    intro top hf ht
    obtain ⟨hf1, hf2⟩ := hf
    simp only [plug]
    apply ih _ hf2
    have h1 := cdepth_set_last parent top
    have h2 := edepth_le_cdepth (set_last parent top)
    simp only [List.length_cons] at ht
    push_cast at ht
    omega

theorem run_depth (d : Int) (fuel : Nat) (s : decode_state)
    (hinv : depth_inv (to_size_t d) s) (b : List Nat) (r : lazy_entry)
    (h : run d fuel s = .returned 0 b r) : (edepth r : Int) ≤ to_size_t d := by
  have key := run_induction d (depth_inv (to_size_t d))
    (fun res => ∀ b r, res = .returned 0 b r → (edepth r : Int) ≤ to_size_t d)
    (by
      intro s1 h1 hlt
      have := iteration_depth_inv d s1 h1 hlt
      revert this
      cases iteration d s1 with
      | next s2 => exact fun h => h
      | ret code s2 =>
        intro h b r heq
        injection heq with h1 h2 h3
        rw [← h3]
        exact h h1
      | fault => intro _ b r heq; cases heq)
    (by
      intro s1 h1 hlt b r heq
      injection heq with _ h2 h3
      rw [← h3]
      obtain ⟨buf, start, stack, ret⟩ := s1
      cases stack with
      | nil => exact h1
      | cons top rest =>
        obtain ⟨hf, hr, ht⟩ := h1
        simp only [decode_state.root]
        apply plug_depth _ rest top hf
        rcases ht with ht | ht
        · exact ht
        · exact absurd ht.2 hlt)
    (by intro b r heq; cases heq)
    fuel s hinv
  exact key b r h

theorem lazy_bdecode_depth (buf : List Nat) (ret : lazy_entry) (d : Int) (b : List Nat)
    (r : lazy_entry) (hd : 0 ≤ to_size_t d)
    (h : lazy_bdecode buf ret d = .returned 0 b r) : (edepth r : Int) ≤ to_size_t d := by
  unfold lazy_bdecode at h
  simp only [lazy_entry.clear] at h
  by_cases h0 : buf.length = 0
  · rw [if_pos h0] at h
    injection h with _ _ h3
    rw [← h3]
    simpa [edepth] using hd
  · rw [if_neg h0] at h
    apply run_depth d _ _ _ b r h
    exact ⟨trivial, by simpa using hd, Or.inl (by simpa [edepth] using hd)⟩

theorem rd_set_ne (buf : List Nat) (i j : Int) (v : Nat) (hi : 0 ≤ i) (hj : 0 ≤ j)
    (hne : i ≠ j) : rd (buf.set j.toNat v) i = rd buf i := by
  unfold rd
  rw [if_neg (by omega), if_neg (by omega)]
  simp only [List.get?_eq_getElem?]
  rw [List.getElem?_set_ne]
  omega

theorem rd_nested (k : Nat) (i : Int) (h0 : 0 ≤ i) (hk : i < k) :
    rd (List.replicate k 108 ++ List.replicate k 101) i = some 108 := by
  unfold rd
  rw [if_neg (by omega)]
  simp only [List.get?_eq_getElem?]
  rw [List.getElem?_append_left (by simp; omega)]
  rw [List.getElem?_replicate]
  rw [if_pos (by omega)]

theorem nested_run (d : Int) (k : Nat) (hk : to_size_t d < k) :
    ∀ (m : Nat) (s : decode_state) (j : Nat), 1 ≤ j → (j : Int) + m = to_size_t d + 1 →
      s.start = j → s.buf.length = 2 * k →
      (∀ i : Int, (j : Int) ≤ i → i < k → rd s.buf i = some 108) →
      s.stack.length = j → (∃ items rest, s.stack = .list_t items :: rest) →
      ∀ fuel, m + 1 ≤ fuel → ∃ b r, run d fuel s = .returned (-1) b r := by
  intro m
  induction m with
  | zero =>
    intro s j hj1 hjm hstart hlen hrd hsl ⟨items, rest, hs⟩ fuel hfuel
    obtain ⟨f, rfl⟩ : ∃ f, fuel = f + 1 := ⟨fuel - 1, by omega⟩
    rw [hs] at hsl
    simp only [List.length_cons] at hsl
    unfold run
    rw [if_pos (by rw [hstart, hlen]; push_cast; omega)]
    rw [iteration_depth d s _ rest hs (by omega)]
    exact ⟨_, _, rfl⟩
  | succ m ih =>
    intro s j hj1 hjm hstart hlen hrd hsl ⟨items, rest, hs⟩ fuel hfuel
    obtain ⟨f, rfl⟩ : ∃ f, fuel = f + 1 := ⟨fuel - 1, by omega⟩
    rw [hs] at hsl
    simp only [List.length_cons] at hsl
    have hjk : (j : Int) < k := by push_cast at hjm; omega
    have hr := hrd j (le_refl _) hjk
    rw [← hstart] at hr
    unfold run
    rw [if_pos (by rw [hstart, hlen]; push_cast; omega)]
    rw [iteration_step d s _ rest 108 hs (by push_cast at hjm; omega) hr]
    rw [if_neg (by rw [hstart, hlen]; push_cast; omega)]
    simp only [switch_type, parse_token, construct, show ¬ ((108 : Nat) = 101) by decide,
      show ¬ ((108 : Nat) = 100) by decide, if_false, if_true]
    apply ih _ (j + 1) (by omega) (by push_cast at hjm ⊢; omega)
    · simp only [hstart]; push_cast; rfl
    · simp only [List.length_set]; exact hlen
    · intro i hi1 hi2
      simp only
      rw [rd_set_ne _ _ _ _ (by push_cast at hi1; omega) (by omega) (by push_cast at hi1; omega)]
      exact hrd i (by push_cast at hi1; omega) hi2
    · simp only [List.length_cons]; omega
    · exact ⟨_, _, rfl⟩
    · omega

theorem nested_lists_rejected (k : Nat) (d : Int) (ret : lazy_entry) (hd : 0 ≤ to_size_t d)
    (hk : to_size_t d < k) :
    ∃ b r, lazy_bdecode (List.replicate k 108 ++ List.replicate k 101) ret d =
      .returned (-1) b r := by
  have hlen : (List.replicate k 108 ++ List.replicate k 101 : List Nat).length = 2 * k := by
    simp; omega
  unfold lazy_bdecode
  simp only [lazy_entry.clear]
  rw [if_neg (by rw [hlen]; omega), hlen]
  unfold run
  simp only
  rw [if_pos (by rw [hlen]; push_cast; omega)]
  by_cases h0 : to_size_t d = 0
  · rw [iteration_depth d _ .none_t [] rfl (by simp; omega)]
    exact ⟨_, _, rfl⟩
  · rw [iteration_step d _ .none_t [] 108 rfl (by simp; omega)
      (rd_nested k 0 (le_refl _) (by omega))]
    simp only
    rw [if_neg (by rw [hlen]; push_cast; omega)]
    simp only [switch_type, parse_token, construct, show ¬ ((108 : Nat) = 100) by decide,
      if_false, if_true]
    apply nested_run d k hk (to_size_t d).toNat _ 1 (le_refl _) (by push_cast; omega)
    · rfl
    · simp only [List.length_set]; exact hlen
    · intro i hi1 hi2
      simp only
      rw [rd_set_ne _ _ _ _ (by push_cast at hi1; omega) (by omega) (by push_cast at hi1; omega)]
      exact rd_nested k i (by push_cast at hi1; omega) hi2
    · rfl
    · exact ⟨_, _, rfl⟩
    · omega

/-- C7: for every buffer and every non-negative depth limit, if `lazy_bdecode` returns 0
then the container nesting depth of the tree left in `ret` (the number of lists and
dictionaries on any root-to-leaf path) is at most the depth limit; and `k` nested lists,
`l` repeated `k` times followed by `e` repeated `k` times, are rejected with `-1` whenever
`k` exceeds the depth limit. -/
theorem lazy_bdecode_depth_bounded (buf : List Nat) (ret : lazy_entry) (depth_limit : Int)
    (b : List Nat) (r : lazy_entry) (k : Nat) (hd : 0 ≤ depth_limit) :
    (lazy_bdecode buf ret depth_limit = .returned 0 b r → (edepth r : Int) ≤ depth_limit) ∧
    (depth_limit < k →
      ∃ b1 r1, lazy_bdecode (List.replicate k 108 ++ List.replicate k 101) ret depth_limit =
        .returned (-1) b1 r1) := by
  have hD := to_size_t_of_nonneg hd
  constructor
  · intro h
    have := lazy_bdecode_depth buf ret depth_limit b r (by omega) h
    omega
  · intro hk
    exact nested_lists_rejected k depth_limit ret (by omega) (by omega)

/-- The statement of `lazy_bdecode_depth_bounded` for the buffer `llee`, which is accepted
at depth limit 2, and for three nested lists, which are rejected at depth limit 2. -/
theorem lazy_bdecode_depth_bounded_witness :
    (0 : Int) ≤ 2 ∧
    lazy_bdecode (bytes "llee") .none_t 2 = .returned 0 [0, 0, 0, 0] (.list_t [.list_t []]) ∧
    (edepth (.list_t [.list_t []]) : Int) ≤ 2 ∧
    (2 : Int) < (3 : Nat) ∧
    ∃ b1 r1, lazy_bdecode (List.replicate 3 108 ++ List.replicate 3 101) .none_t 2 =
      .returned (-1) b1 r1 :=
  ⟨by decide, rfl,
    (lazy_bdecode_depth_bounded (bytes "llee") .none_t 2 [0, 0, 0, 0] (.list_t [.list_t []]) 3
      (by decide)).1 rfl,
    by decide,
    (lazy_bdecode_depth_bounded (bytes "llee") .none_t 2 [0, 0, 0, 0] (.list_t [.list_t []]) 3
      (by decide)).2 (by decide)⟩

/-! ## What `ret` holds when the call fails -/

theorem set_last_type (parent child : lazy_entry) :
    (set_last parent child).type = parent.type := by
  cases parent with
  | dict_t items =>
    simp only [set_last]
    cases items.getLast? with
    | none => rfl
    | some kv => rfl
  | _ => rfl

theorem bottom_set_last (parent child : lazy_entry) (rest : List lazy_entry) :
    (bottom (set_last parent child) rest).type = (bottom parent rest).type := by
  cases rest with
  | nil => exact set_last_type parent child
  | cons p ps => rfl

theorem plug_type : ∀ (rest : List lazy_entry) (top : lazy_entry),
    (plug top rest).type = (bottom top rest).type := by
  intro rest
  induction rest with
  | nil => intro top; rfl
  | cons parent ps ih =>
    intro top
    simp only [plug, bottom]
    rw [ih, bottom_set_last]

theorem root_built_root (buf : List Nat) (start : Int) (top : lazy_entry)
    (rest : List lazy_entry) (ret : lazy_entry) (h : is_container (bottom top rest)) :
    is_container (decode_state.root ⟨buf, start, top :: rest, ret⟩) := by
  unfold is_container at h ⊢
  simp only [decode_state.root]
  rw [plug_type]
  exact h

theorem pop_root_built (buf : List Nat) (start : Int) (top : lazy_entry)
    (rest : List lazy_entry) (ret : lazy_entry) (h : is_container (bottom top rest)) :
    root_built (pop ⟨buf, start, top :: rest, ret⟩) := by
  cases rest with
  | nil => simp [pop, root_built]
  | cons parent ps =>
    simp only [pop, root_built]
    unfold is_container at h ⊢
    rw [bottom_set_last]
    exact h

theorem parse_token_root (t : Nat) (buf : List Nat) (start : Int) (top parent : lazy_entry)
    (rest : List lazy_entry) (ret : lazy_entry) (h : is_container (bottom parent rest)) :
    match parse_token t ⟨buf, start, top :: parent :: rest, ret⟩ with
    | .next s1 => root_built s1
    | .ret _ s1 => is_container s1.root
    | .fault => True := by
  have hroot : ∀ (b : List Nat) (st : Int) (e : lazy_entry),
      is_container (decode_state.root ⟨b, st, e :: parent :: rest, ret⟩) :=
    fun b st e => root_built_root b st e (parent :: rest) ret h
  have hpop : ∀ (b : List Nat) (st : Int) (e : lazy_entry),
      root_built (pop ⟨b, st, e :: parent :: rest, ret⟩) :=
    fun b st e => pop_root_built b st e (parent :: rest) ret h
  unfold parse_token
  simp only [construct]
  by_cases h100 : t = 100
  · rw [if_pos h100]; exact h
  rw [if_neg h100]
  by_cases h108 : t = 108
  · rw [if_pos h108]; exact h
  rw [if_neg h108]
  by_cases h105 : t = 105
  · rw [if_pos h105]
    cases hfc : find_char buf start buf.length 101 with
    | none => trivial
    | some p =>
      simp only
      by_cases hp : p = (buf.length : Int)
      · rw [if_pos hp]; exact hroot _ _ _
      · rw [if_neg hp]
        cases hw : wr buf p 0 with
        | none => trivial
        | some b => exact hpop _ _ _
  rw [if_neg h105]
  by_cases hdig : (!isdigit t) = true
  · rw [if_pos hdig]; exact hroot _ _ _
  rw [if_neg hdig]
  cases hpi : parse_int buf start buf.length 58 (char_val t - 48) with
  | none => trivial
  | some r =>
    obtain ⟨q, len⟩ := r
    cases q with
    | none => exact hroot _ _ _
    | some p =>
      simp only
      by_cases hlen : p + len + 1 > (buf.length : Int)
      · rw [if_pos hlen]; exact hroot _ _ _
      · rw [if_neg hlen]
        cases hrd : rd buf p with
        | none => trivial
        | some c =>
          simp only
          by_cases hc : c ≠ 58
          · rw [if_pos hc]; exact hroot _ _ _
          · rw [if_neg hc]
            have := hpop buf (p + 1) (.string_t (p + 1))
            revert this
            simp only [pop, root_built]
            exact fun h => h

theorem bottom_dict_append (top : lazy_entry) (name : Int) (rest : List lazy_entry) :
    (bottom (dict_append top name) rest).type = (bottom top rest).type := by
  cases rest with
  | nil => cases top <;> rfl
  | cons p ps => rfl

theorem bottom_list_append (top : lazy_entry) (rest : List lazy_entry) :
    (bottom (list_append top) rest).type = (bottom top rest).type := by
  cases rest with
  | nil => cases top <;> rfl
  | cons p ps => rfl

theorem dict_key_root (t : Nat) (buf : List Nat) (start : Int) (top : lazy_entry)
    (rest : List lazy_entry) (ret : lazy_entry) (h : is_container (bottom top rest)) :
    match dict_key t ⟨buf, start, top :: rest, ret⟩ top rest with
    | .next s1 => root_built s1
    | .ret _ s1 => is_container s1.root
    | .fault => True := by
  have hroot := root_built_root buf start top rest ret h
  unfold dict_key
  simp only
  cases hpi : parse_int buf start buf.length 58 (char_val t - 48) with
  | none => trivial
  | some r =>
    obtain ⟨q, len⟩ := r
    cases q with
    | none => exact hroot
    | some p =>
      simp only
      by_cases hlen : p + len + 3 > (buf.length : Int)
      · rw [if_pos hlen]; exact hroot
      · rw [if_neg hlen]
        cases hrd : rd buf p with
        | none => trivial
        | some c =>
          simp only
          by_cases hc58 : c ≠ 58
          · rw [if_pos hc58]; exact hroot
          · rw [if_neg hc58]
            cases hrd2 : rd buf (p + 1 + len) with
            | none => trivial
            | some t2 =>
              simp only
              cases hw : wr buf (p + 1 + len) 0 with
              | none => trivial
              | some b2 =>
                simp only
                apply parse_token_root
                unfold is_container at h ⊢
                rw [bottom_dict_append]
                exact h

theorem switch_type_root (t : Nat) (buf : List Nat) (start : Int) (top : lazy_entry)
    (rest : List lazy_entry) (ret : lazy_entry) (h : is_container (bottom top rest)) :
    match switch_type t ⟨buf, start, top :: rest, ret⟩ top rest with
    | .next s1 => root_built s1
    | .ret _ s1 => is_container s1.root
    | .fault => True := by
  have hother : top.type ≠ 1 → top.type ≠ 2 →
      match parse_token t ⟨buf, start, top :: rest, ret⟩ with
      | .next s1 => root_built s1
      | .ret _ s1 => is_container s1.root
      | .fault => True := by
    intro h1 h2
    cases rest with
    | nil =>
      rcases h with h | h
      · exact absurd h h1
      · exact absurd h h2
    | cons parent ps => exact parse_token_root t buf start top parent ps ret h
  cases top with
  | none_t => exact hother (by simp [lazy_entry.type]) (by simp [lazy_entry.type])
  | string_t p => exact hother (by simp [lazy_entry.type]) (by simp [lazy_entry.type])
  | int_t p => exact hother (by simp [lazy_entry.type]) (by simp [lazy_entry.type])
  | dict_t items =>
    simp only [switch_type]
    by_cases he : t = 101
    · rw [if_pos he]
      exact pop_root_built buf start _ rest ret h
    · rw [if_neg he]
      exact dict_key_root t buf start _ rest ret h
  | list_t items =>
    simp only [switch_type]
    by_cases he : t = 101
    · rw [if_pos he]
      exact pop_root_built buf start _ rest ret h
    · rw [if_neg he]
      apply parse_token_root
      unfold is_container at h ⊢
      rw [bottom_list_append]
      exact h

theorem iteration_root (d : Int) (s : decode_state) (hinv : root_built s) :
    match iteration d s with
    | .next s1 => root_built s1
    | .ret code s1 => code = -1 → is_container s1.root
    | .fault => True := by
  obtain ⟨buf, start, stack, ret⟩ := s
  cases stack with
  | nil =>
    rw [iteration_empty d _ rfl]
    intro h; cases h
  | cons top rest =>
    have hroot : ∀ (b : List Nat) (st : Int),
        is_container (decode_state.root ⟨b, st, top :: rest, ret⟩) :=
      fun b st => root_built_root b st top rest ret hinv
    by_cases hdep : (rest.length : Int) + 1 > to_size_t d
    · rw [iteration_depth d _ top rest rfl hdep]
      exact fun _ => hroot _ _
    · cases hrd : rd buf start with
      | none =>
        unfold iteration
        simp only [List.length_cons]
        rw [if_neg (by push_cast; omega)]
        by_cases hse : start = (buf.length : Int)
        · rw [if_pos hse]
          exact fun _ => hroot _ _
        · rw [if_neg hse, hrd]
          trivial
      | some t =>
        rw [iteration_step d _ top rest t rfl (by omega) hrd]
        simp only
        by_cases hend : start + 1 = (buf.length : Int) ∧ t ≠ 101
        · rw [if_pos hend]
          exact fun _ => hroot _ _
        · rw [if_neg hend]
          have := switch_type_root t (buf.set start.toNat 0) (start + 1) top rest ret hinv
          revert this
          cases switch_type t ⟨buf.set start.toNat 0, start + 1, top :: rest, ret⟩ top rest with
          | next s1 => exact fun h => h
          | ret code s1 => exact fun h _ => h
          | fault => exact fun h => h

theorem run_root (d : Int) (fuel : Nat) (s : decode_state) (hinv : root_built s)
    (b : List Nat) (r : lazy_entry) (h : run d fuel s = .returned (-1) b r) :
    is_container r := by
  have key := run_induction d root_built
    (fun res => ∀ b r, res = .returned (-1) b r → is_container r)
    (by
      intro s1 h1 _
      have := iteration_root d s1 h1
      revert this
      cases iteration d s1 with
      | next s2 => exact fun h => h
      | ret code s2 =>
        intro h b r heq
        injection heq with h1 h2 h3
        rw [← h3]
        exact h h1
      | fault => intro _ b r heq; cases heq)
    (by
      intro s1 _ _ b r heq
      injection heq with h1 _ _
      cases h1)
    (by intro b r heq; cases heq)
    fuel s hinv
  exact key b r h

theorem run_empty_stack (d : Int) (fuel : Nat) (s : decode_state) (hs : s.stack = [])
    (b : List Nat) (r : lazy_entry) : run d fuel s ≠ .returned (-1) b r := by
  cases fuel with
  | zero => intro h; cases h
  | succ n =>
    unfold run
    rw [iteration_empty d s hs]
    split
    · intro h; injection h with h1; cases h1
    · intro h; injection h with h1; cases h1

theorem parse_token_first (t : Nat) (buf : List Nat) (start : Int) (ret : lazy_entry) :
    match parse_token t ⟨buf, start, [.none_t], ret⟩ with
    | .next s1 => s1.stack = [] ∨ ((t = 100 ∨ t = 108) ∧ root_built s1)
    | .ret _ s1 => (t = 105 ∧ s1.root = .int_t start) ∨
        (t ≠ 100 ∧ t ≠ 108 ∧ t ≠ 105 ∧ s1.root = .none_t)
    | .fault => True := by
  unfold parse_token
  simp only [construct]
  by_cases h100 : t = 100
  · rw [if_pos h100]
    exact Or.inr ⟨Or.inl h100, Or.inl rfl⟩
  rw [if_neg h100]
  by_cases h108 : t = 108
  · rw [if_pos h108]
    exact Or.inr ⟨Or.inr h108, Or.inr rfl⟩
  rw [if_neg h108]
  by_cases h105 : t = 105
  · rw [if_pos h105]
    cases hfc : find_char buf start buf.length 101 with
    | none => trivial
    | some p =>
      simp only
      by_cases hp : p = (buf.length : Int)
      · rw [if_pos hp]; exact Or.inl ⟨h105, rfl⟩
      · rw [if_neg hp]
        cases hw : wr buf p 0 with
        | none => trivial
        | some b => exact Or.inl rfl
  rw [if_neg h105]
  by_cases hdig : (!isdigit t) = true
  · rw [if_pos hdig]; exact Or.inr ⟨h100, h108, h105, rfl⟩
  rw [if_neg hdig]
  cases hpi : parse_int buf start buf.length 58 (char_val t - 48) with
  | none => trivial
  | some r =>
    obtain ⟨q, len⟩ := r
    cases q with
    | none => exact Or.inr ⟨h100, h108, h105, rfl⟩
    | some p =>
      simp only
      by_cases hlen : p + len + 1 > (buf.length : Int)
      · rw [if_pos hlen]; exact Or.inr ⟨h100, h108, h105, rfl⟩
      · rw [if_neg hlen]
        cases hrd : rd buf p with
        | none => trivial
        | some c =>
          simp only
          by_cases hc : c ≠ 58
          · rw [if_pos hc]; exact Or.inr ⟨h100, h108, h105, rfl⟩
          · rw [if_neg hc]; exact Or.inl rfl

theorem not_container_none : ¬ is_container .none_t := by
  intro h
  rcases h with h | h <;> cases h

/-- C8, as stated, fails: on the buffer `li1ex` the call returns `-1` and leaves in `ret` a
list with one integer child, not an entry of type none. -/
theorem lazy_bdecode_error_exposes_partial_tree :
    lazy_bdecode (bytes "li1ex") .none_t 1000 =
      .returned (-1) [0, 0, 49, 0, 0] (.list_t [.int_t 2]) := by
  rfl

/-- C8, amended: when `lazy_bdecode` returns the decode error `-1`, `ret` is not cleared; it
holds whatever had been built when the error was detected.  It has type none (and no
children) exactly when the error is detected before the root is constructed, that is,
unless the depth limit (as a `size_t`) is at least 1, the buffer has at least 2 bytes and
its first byte is `d`, `l` or `i`. -/
theorem lazy_bdecode_error_ret_none_iff (buf : List Nat) (ret : lazy_entry) (d : Int) (b : List Nat)
    (r : lazy_entry) (h : lazy_bdecode buf ret d = .returned (-1) b r) :
    r = .none_t ↔
      ¬ (1 ≤ to_size_t d ∧ 2 ≤ buf.length ∧
        (buf.head? = some 100 ∨ buf.head? = some 108 ∨ buf.head? = some 105)) := by
  cases buf with
  | nil =>
    unfold lazy_bdecode at h
    simp at h
  | cons t tl =>
    unfold lazy_bdecode at h
    simp only [lazy_entry.clear] at h
    rw [if_neg (by simp)] at h
    unfold run at h
    rw [if_pos (by simp)] at h
    simp only [List.head?_cons, Option.some.injEq, List.length_cons]
    by_cases hD : 1 ≤ to_size_t d
    · rw [iteration_step d ⟨t :: tl, 0, [.none_t], .none_t⟩ .none_t [] t rfl (by simp; omega)
        rfl] at h
      simp only [List.length_cons] at h
      by_cases hend : (0 : Int) + 1 = ((tl.length + 1 : Nat) : Int) ∧ t ≠ 101
      · rw [if_pos hend] at h
        injection h with _ _ h3
        rw [← h3]
        simp only [decode_state.root, plug, true_iff]
        intro hcon
        obtain ⟨_, h2, _⟩ := hcon
        obtain ⟨h1, _⟩ := hend
        push_cast at h1
        omega
      · rw [if_neg hend] at h
        have hsw : ∀ s : decode_state, switch_type t s .none_t [] = parse_token t s :=
          fun s => rfl
        rw [hsw] at h
        have hlen2 : t = 100 ∨ t = 108 ∨ t = 105 → 2 ≤ tl.length + 1 := by
          intro ht
          by_contra hcon
          apply hend
          refine ⟨by push_cast; omega, ?_⟩
          rcases ht with ht | ht | ht <;> omega
        have hfirst := parse_token_first t ((t :: tl).set (0 : Int).toNat 0) (0 + 1) .none_t
        revert h hfirst
        cases parse_token t ⟨(t :: tl).set (0 : Int).toNat 0, 0 + 1, [.none_t], .none_t⟩ with
        | next s1 =>
          intro h hfirst
          simp only at h hfirst
          rcases hfirst with hs | ⟨ht, hb⟩
          · exact absurd h (run_empty_stack d _ s1 hs b r)
          · have hc := run_root d _ s1 hb b r h
            constructor
            · intro hr; rw [hr] at hc; exact absurd hc not_container_none
            · intro hcon
              exfalso
              apply hcon
              refine ⟨hD, hlen2 (by omega), by omega⟩
        | ret code s1 =>
          intro h hfirst
          simp only at h hfirst
          injection h with _ _ h3
          rw [← h3]
          rcases hfirst with ⟨ht, hr⟩ | ⟨h1, h2, h3, hr⟩
          · rw [hr]
            constructor
            · intro hc; cases hc
            · intro hcon
              exfalso
              apply hcon
              exact ⟨hD, hlen2 (by omega), by omega⟩
          · rw [hr]
            simp only [true_iff]
            intro hcon
            obtain ⟨_, _, hc⟩ := hcon
            omega
        | fault =>
          intro h _
          cases h
    · rw [iteration_depth d _ .none_t [] rfl (by simp; omega)] at h
      injection h with _ _ h3
      rw [← h3]
      simp only [decode_state.root, plug, true_iff]
      intro hcon
      exact hD hcon.1

/-- The statement of `lazy_bdecode_error_ret_none_iff` for the buffers `li1ex`, where `ret`
is left as a list, and `x`, where it is left of type none. -/
theorem lazy_bdecode_error_ret_none_iff_witness :
    lazy_bdecode (bytes "li1ex") .none_t 1000 =
      .returned (-1) [0, 0, 49, 0, 0] (.list_t [.int_t 2]) ∧
    ((lazy_entry.list_t [.int_t 2] = .none_t) ↔
      ¬ (1 ≤ to_size_t 1000 ∧ 2 ≤ (bytes "li1ex").length ∧
        ((bytes "li1ex").head? = some 100 ∨ (bytes "li1ex").head? = some 108 ∨
          (bytes "li1ex").head? = some 105))) :=
  ⟨rfl, lazy_bdecode_error_ret_none_iff (bytes "li1ex") .none_t 1000 [0, 0, 49, 0, 0]
    (.list_t [.int_t 2]) rfl⟩

/-! ## Decimal numerals -/

theorem decimal_loop_digits : ∀ (fuel n : Nat), ∀ c ∈ decimal_loop fuel n, 48 ≤ c ∧ c ≤ 57 := by
  intro fuel
  induction fuel with
  | zero => intro n c hc; simp [decimal_loop] at hc
  | succ f ih =>
    intro n c hc
    unfold decimal_loop at hc
    by_cases h : n < 10
    · rw [if_pos h] at hc
      simp at hc
      omega
    · rw [if_neg h] at hc
      rcases List.mem_append.mp hc with h1 | h1
      · exact ih _ c h1
      · simp at h1
        omega

theorem decimal_loop_ne_nil (fuel n : Nat) : decimal_loop (fuel + 1) n ≠ [] := by
  unfold decimal_loop
  by_cases h : n < 10
  · rw [if_pos h]; simp
  · rw [if_neg h]; simp

theorem decimal_loop_val : ∀ (fuel n : Nat), n < fuel →
    digits_val 0 (decimal_loop fuel n) = n := by
  intro fuel
  induction fuel with
  | zero => intro n h; omega
  | succ f ih =>
    intro n hn
    unfold decimal_loop
    by_cases h : n < 10
    · rw [if_pos h]
      simp [digits_val]
    · rw [if_neg h]
      have h1 := ih (n / 10) (by omega)
      unfold digits_val at h1 ⊢
      rw [List.foldl_append, h1]
      simp only [List.foldl_cons, List.foldl_nil]
      push_cast
      omega

theorem decimal_loop_length : ∀ (fuel n k : Nat), n < 10 ^ (k + 1) →
    (decimal_loop fuel n).length ≤ k + 1 := by
  intro fuel
  induction fuel with
  | zero => intro n k _; simp [decimal_loop]
  | succ f ih =>
    intro n k hn
    unfold decimal_loop
    by_cases h : n < 10
    · rw [if_pos h]; simp
    · rw [if_neg h]
      cases k with
      | zero => simp at hn; omega
      | succ k =>
        have h1 := ih (n / 10) k (by
          rw [pow_succ] at hn
          omega)
        simp only [List.length_append, List.length_singleton]
        omega

theorem decimal_digits (n : Nat) : ∀ c ∈ decimal n, 48 ≤ c ∧ c ≤ 57 :=
  decimal_loop_digits (n + 1) n

theorem decimal_val (n : Nat) : digits_val 0 (decimal n) = n :=
  decimal_loop_val (n + 1) n (by omega)

theorem decimal_cons (n : Nat) : ∃ c cs, decimal n = c :: cs := by
  have := decimal_loop_ne_nil n n
  unfold decimal
  cases h : decimal_loop (n + 1) n with
  | nil => exact absurd h this
  | cons c cs => exact ⟨c, cs, rfl⟩

theorem decimal_length (n : Nat) (h : n < 18446744073709551616) : (decimal n).length ≤ 20 := by
  apply decimal_loop_length (n + 1) n 19
  norm_num
  omega

theorem wrap64_step (a : Int) (c : Int) :
    wrap64 (wrap64 (wrap64 a * 10) + c) = wrap64 (a * 10 + c) := by
  unfold wrap64
  omega

theorem wfold_wrap : ∀ (ds : List Nat) (a : Int),
    wfold (wrap64 a) ds = wrap64 (digits_val a ds) := by
  intro ds
  induction ds with
  | nil => intro a; rfl
  | cons c cs ih =>
    intro a
    unfold wfold digits_val
    simp only [List.foldl_cons]
    rw [wrap64_step]
    exact ih _

theorem wrap64_id {a : Int} (h1 : -9223372036854775808 ≤ a) (h2 : a < 9223372036854775808) :
    wrap64 a = a := by
  unfold wrap64
  omega

/-! ## Reading tokens from a buffer given as prefix, token and suffix -/

theorem rd_append_cons (A B : List Nat) (c : Nat) :
    rd (A ++ c :: B) (A.length : Int) = some c := by
  unfold rd
  rw [if_neg (by omega)]
  simp only [Int.toNat_ofNat, List.get?_eq_getElem?]
  rw [List.getElem?_append_right (le_refl _)]
  simp

theorem set_append_cons (A B : List Nat) (c v : Nat) :
    (A ++ c :: B).set ((A.length : Int)).toNat v = A ++ v :: B := by
  simp

theorem parse_int_digits : ∀ (ds A B : List Nat) (delimiter n : Nat) (val : Int),
    (∀ c ∈ ds, isdigit c = true ∧ c ≠ delimiter) → ds.length < n →
    parse_int_loop (A ++ (ds ++ delimiter :: B)) delimiter n (A.length : Int) val =
      some (some ((A ++ ds).length : Int), wfold val ds) := by
  intro ds
  induction ds with
  | nil =>
    intro A B delimiter n val _ hn
    obtain ⟨m, rfl⟩ : ∃ m, n = m + 1 := ⟨n - 1, by simp at hn; omega⟩
    unfold parse_int_loop
    simp only [List.nil_append, rd_append_cons, if_true, List.append_nil, wfold, List.foldl_nil]
  | cons c cs ih =>
    intro A B delimiter n val hds hn
    obtain ⟨m, rfl⟩ : ∃ m, n = m + 1 := ⟨n - 1, by simp at hn; omega⟩
    have hc := hds c (List.mem_cons_self _ _)
    unfold parse_int_loop
    simp only [List.cons_append, rd_append_cons]
    rw [if_neg hc.2]
    simp only [hc.1, Bool.not_true, Bool.false_eq_true, if_false]
    have h1 : A ++ c :: (cs ++ delimiter :: B) = (A ++ [c]) ++ (cs ++ delimiter :: B) := by simp
    have h2 : (A.length : Int) + 1 = ((A ++ [c]).length : Int) := by simp
    rw [h1, h2, ih (A ++ [c]) B delimiter m _ (fun x hx => hds x (List.mem_cons_of_mem _ hx))
      (by simp at hn; omega)]
    simp [wfold]

theorem find_char_skip : ∀ (xs A B : List Nat) (delimiter n : Nat),
    (∀ c ∈ xs, c ≠ delimiter) → xs.length < n →
    find_char_loop (A ++ (xs ++ delimiter :: B)) delimiter n (A.length : Int) =
      some ((A ++ xs).length : Int) := by
  intro xs
  induction xs with
  | nil =>
    intro A B delimiter n _ hn
    obtain ⟨m, rfl⟩ : ∃ m, n = m + 1 := ⟨n - 1, by simp at hn; omega⟩
    unfold find_char_loop
    simp only [List.nil_append, rd_append_cons, if_true, List.append_nil]
  | cons c cs ih =>
    intro A B delimiter n hxs hn
    obtain ⟨m, rfl⟩ : ∃ m, n = m + 1 := ⟨n - 1, by simp at hn; omega⟩
    have hc := hxs c (List.mem_cons_self _ _)
    unfold find_char_loop
    simp only [List.cons_append, rd_append_cons]
    rw [if_neg hc]
    have h1 : A ++ c :: (cs ++ delimiter :: B) = (A ++ [c]) ++ (cs ++ delimiter :: B) := by simp
    have h2 : (A.length : Int) + 1 = ((A ++ [c]).length : Int) := by simp
    rw [h1, h2, ih (A ++ [c]) B delimiter m (fun x hx => hxs x (List.mem_cons_of_mem _ hx))
      (by simp at hn; omega)]
    simp

theorem c_str_read : ∀ (s A B : List Nat) (n : Nat), 0 ∉ s → s.length < n →
    c_str_loop (A ++ (s ++ 0 :: B)) n (A.length : Int) = some s := by
  intro s
  induction s with
  | nil =>
    intro A B n _ hn
    obtain ⟨m, rfl⟩ : ∃ m, n = m + 1 := ⟨n - 1, by simp at hn; omega⟩
    unfold c_str_loop
    simp only [List.nil_append, rd_append_cons, if_true]
  | cons c cs ih =>
    intro A B n hs hn
    obtain ⟨m, rfl⟩ : ∃ m, n = m + 1 := ⟨n - 1, by simp at hn; omega⟩
    have hc : c ≠ 0 := by
      intro h
      apply hs
      rw [h]
      exact List.mem_cons_self _ _
    have hcs : 0 ∉ cs := fun h => hs (List.mem_cons_of_mem _ h)
    unfold c_str_loop
    simp only [List.cons_append, rd_append_cons]
    rw [if_neg hc]
    have h1 : A ++ c :: (cs ++ 0 :: B) = (A ++ [c]) ++ (cs ++ 0 :: B) := by simp
    have h2 : (A.length : Int) + 1 = ((A ++ [c]).length : Int) := by simp
    rw [h1, h2, ih (A ++ [c]) B m hcs (by simp at hn; omega)]
    rfl

/-! ## Decoding the encoding of a value -/

theorem run_succ (d : Int) (fuel : Nat) (s : decode_state) (hlt : s.start < s.buf.length) :
    run d (fuel + 1) s = finish (run d fuel) (iteration d s) := by
  rw [run, if_pos hlt]
  cases iteration d s <;> rfl

theorem int_text_bytes (n : Int) : ∀ c ∈ int_text n, c = 45 ∨ (48 ≤ c ∧ c ≤ 57) := by
  intro c hc
  unfold int_text at hc
  split at hc
  · rcases List.mem_cons.mp hc with h | h
    · exact Or.inl h
    · exact Or.inr (decimal_digits _ c h)
  · exact Or.inr (decimal_digits _ c hc)

theorem parse_token_int (n : Int) (A B : List Nat) (top0 : lazy_entry)
    (rest : List lazy_entry) (ret : lazy_entry) :
    parse_token 105 ⟨A ++ 0 :: ((int_text n ++ [101]) ++ B), (A.length : Int) + 1,
        top0 :: rest, ret⟩ =
      .next (pop ⟨A ++ (0 :: (int_text n ++ [0])) ++ B,
        ((A ++ 105 :: (int_text n ++ [101])).length : Int),
        .int_t ((A.length : Int) + 1) :: rest, ret⟩) := by
  have hbuf : A ++ 0 :: ((int_text n ++ [101]) ++ B) = (A ++ [0]) ++ (int_text n ++ 101 :: B) := by
    simp
  have hfc : find_char (A ++ 0 :: ((int_text n ++ [101]) ++ B)) ((A.length : Int) + 1)
      ((A ++ 0 :: ((int_text n ++ [101]) ++ B)).length : Int) 101 =
      some (((A ++ [0]) ++ int_text n).length : Int) := by
    unfold find_char
    rw [hbuf]
    have h2 : (A.length : Int) + 1 = ((A ++ [0]).length : Int) := by simp
    rw [h2]
    apply find_char_skip
    · intro c hc
      have := int_text_bytes n c hc
      omega
    · simp only [List.length_append, List.length_cons, List.length_singleton, List.length_nil]
      omega
  have hw : wr (A ++ 0 :: ((int_text n ++ [101]) ++ B)) (((A ++ [0]) ++ int_text n).length : Int) 0
      = some (A ++ (0 :: (int_text n ++ [0])) ++ B) := by
    rw [wr_eq 0 (by omega) (by simp)]
    rw [hbuf, ← List.append_assoc, set_append_cons]
    simp
  unfold parse_token
  simp only [construct, show ¬ ((105 : Nat) = 100) by decide, show ¬ ((105 : Nat) = 108) by decide,
    if_false, if_true]
  rw [hfc]
  simp only
  rw [if_neg (by simp; omega), hw]
  simp only [List.length_append, List.length_cons, List.length_singleton, List.length_nil]
  congr 3
  push_cast
  omega

theorem pop_start (buf : List Nat) (start start1 : Int) (stack : List lazy_entry)
    (ret : lazy_entry) :
    { pop ⟨buf, start, stack, ret⟩ with start := start1 } = pop ⟨buf, start1, stack, ret⟩ := by
  match stack with
  | [] => rfl
  | [_] => rfl
  | _ :: _ :: _ => rfl

theorem isdigit_of_bounds {c : Nat} (h : 48 ≤ c ∧ c ≤ 57) : isdigit c = true := by
  unfold isdigit
  simp [h.1, h.2]

theorem char_val_digit {c : Nat} (h : 48 ≤ c ∧ c ≤ 57) : char_val c = c := by
  unfold char_val
  rw [if_pos (by omega)]

theorem parse_length (len : Nat) (c0 : Nat) (cs A B : List Nat) (n : Nat)
    (hdec : decimal len = c0 :: cs) (hlen : len < 9223372036854775808) (hn : cs.length < n) :
    parse_int_loop (A ++ (cs ++ 58 :: B)) 58 n (A.length : Int) (char_val c0 - 48) =
      some (some ((A ++ cs).length : Int), (len : Int)) := by
  have hdig := decimal_digits len
  rw [hdec] at hdig
  have hc0 := hdig c0 (List.mem_cons_self _ _)
  rw [parse_int_digits cs A B 58 n _ (fun c hc => by
    have := hdig c (List.mem_cons_of_mem _ hc)
    exact ⟨isdigit_of_bounds this, by omega⟩) hn]
  congr 2
  rw [char_val_digit hc0]
  have h1 : ((c0 : Int) - 48) = wrap64 ((c0 : Int) - 48) := by
    rw [wrap64_id (by omega) (by omega)]
  rw [h1, wfold_wrap]
  have h2 : digits_val ((c0 : Int) - 48) cs = digits_val 0 (decimal len) := by
    rw [hdec]
    simp [digits_val]
  rw [h2, decimal_val, wrap64_id (by omega) (by omega)]

theorem parse_token_str (s : List Nat) (c0 : Nat) (cs A B : List Nat) (top0 : lazy_entry)
    (rest : List lazy_entry) (ret : lazy_entry) (hdec : decimal s.length = c0 :: cs)
    (hlen : s.length < 9223372036854775808) :
    parse_token c0 ⟨A ++ 0 :: ((cs ++ 58 :: s) ++ B), (A.length : Int) + 1,
        top0 :: rest, ret⟩ =
      .next (pop ⟨A ++ (0 :: (cs ++ 58 :: s)) ++ B,
        ((A ++ c0 :: (cs ++ 58 :: s)).length : Int),
        .string_t ((A.length : Int) + ((decimal s.length).length + 1 : Nat)) :: rest, ret⟩) := by
  have hdig := decimal_digits s.length
  rw [hdec] at hdig
  have hc0 := hdig c0 (List.mem_cons_self _ _)
  have hbuf : A ++ 0 :: ((cs ++ 58 :: s) ++ B) = (A ++ [0]) ++ (cs ++ 58 :: (s ++ B)) := by
    simp
  have hpi : parse_int (A ++ 0 :: ((cs ++ 58 :: s) ++ B)) ((A.length : Int) + 1)
      ((A ++ 0 :: ((cs ++ 58 :: s) ++ B)).length : Int) 58 (char_val c0 - 48) =
      some (some (((A ++ [0]) ++ cs).length : Int), (s.length : Int)) := by
    unfold parse_int
    rw [hbuf]
    have h2 : (A.length : Int) + 1 = ((A ++ [0]).length : Int) := by simp
    rw [h2]
    apply parse_length s.length c0 cs _ _ _ hdec hlen
    simp only [List.length_append, List.length_cons, List.length_singleton, List.length_nil]
    omega
  have hrd : rd (A ++ 0 :: ((cs ++ 58 :: s) ++ B)) (((A ++ [0]) ++ cs).length : Int) = some 58 := by
    rw [hbuf, ← List.append_assoc, rd_append_cons]
  unfold parse_token
  simp only [construct]
  rw [if_neg (by omega), if_neg (by omega), if_neg (by omega)]
  simp only [isdigit_of_bounds hc0, Bool.not_true, Bool.false_eq_true, if_false]
  rw [hpi]
  simp only
  rw [if_neg (by simp; omega), hrd]
  simp only [ne_eq, not_true_eq_false, if_false]
  rw [pop_start]
  simp only [List.length_append, List.length_cons, List.length_singleton, List.length_nil, hdec]
  congr 2
  all_goals (try simp)
  all_goals (try omega)

theorem bvalue_induction (P : bvalue → Prop) (PL : List bvalue → Prop)
    (PD : List (List Nat × bvalue) → Prop)
    (hint : ∀ n, P (.int n)) (hstr : ∀ s, P (.str s))
    (hlist : ∀ xs, PL xs → P (.list xs)) (hdict : ∀ kvs, PD kvs → P (.dict kvs))
    (hnil : PL []) (hcons : ∀ x xs, P x → PL xs → PL (x :: xs))
    (hdnil : PD []) (hdcons : ∀ k v kvs, P v → PD kvs → PD ((k, v) :: kvs)) :
    ∀ v, P v :=
  @bvalue.rec P PL PD (fun kv => P kv.2) hint hstr hlist hdict hnil hcons hdnil
    (fun kv kvs h1 h2 => hdcons kv.1 kv.2 kvs h1 h2) (fun _ _ h => h)

theorem mark_head_length (mark : Nat → Nat) (l : List Nat) :
    (mark_head mark l).length = l.length := by
  cases l <;> rfl

theorem string_token_length (mark : Nat → Nat) (s : List Nat) :
    (string_token mark s).length = (decimal s.length).length + 1 + s.length := by
  unfold string_token
  simp [mark_head_length]
  omega

theorem encode_with_length (mark1 mark2 : Nat → Nat) :
    ∀ v, (encode_with mark1 v).length = (encode_with mark2 v).length := by
  apply bvalue_induction
    (fun v => (encode_with mark1 v).length = (encode_with mark2 v).length)
    (fun xs => (encode_list mark1 xs).length = (encode_list mark2 xs).length)
    (fun kvs => (encode_dict mark1 kvs).length = (encode_dict mark2 kvs).length)
  · intro n; simp [encode_with]
  · intro s; simp [encode_with, string_token_length]
  · intro xs h; simp [encode_with, h]
  · intro kvs h; simp [encode_with, h]
  · simp [encode_list]
  · intro x xs h1 h2; simp [encode_list, h1, h2]
  · simp [encode_dict]
  · intro k v kvs h1 h2; simp [encode_dict, h1, h2, string_token_length]

theorem decoded_buffer_length (v : bvalue) : (decoded_buffer v).length = (encode v).length :=
  encode_with_length _ _ v

theorem encode_list_length (mark1 mark2 : Nat → Nat) :
    ∀ xs, (encode_list mark1 xs).length = (encode_list mark2 xs).length := by
  intro xs
  induction xs with
  | nil => simp [encode_list]
  | cons x xs ih => simp [encode_list, ih, encode_with_length mark1 mark2 x]

theorem encode_dict_length (mark1 mark2 : Nat → Nat) :
    ∀ kvs, (encode_dict mark1 kvs).length = (encode_dict mark2 kvs).length := by
  intro kvs
  induction kvs with
  | nil => simp [encode_dict]
  | cons kv kvs ih =>
    obtain ⟨k, v⟩ := kv
    simp [encode_dict, ih, encode_with_length mark1 mark2 v, string_token_length]

theorem string_token_cons (mark : Nat → Nat) (s : List Nat) :
    ∃ c cs, decimal s.length = c :: cs ∧ string_token mark s = mark c :: (cs ++ 58 :: s) := by
  obtain ⟨c, cs, h⟩ := decimal_cons s.length
  exact ⟨c, cs, h, by simp [string_token, h, mark_head]⟩

theorem encode_with_head (mark : Nat → Nat) (v : bvalue) :
    ∃ h tl, encode_with (fun c => c) v = h :: tl ∧ h ≠ 101 ∧
      ∃ tl0, encode_with mark v = mark h :: tl0 := by
  cases v with
  | int n => exact ⟨105, _, by rw [encode_with], by decide, _, by rw [encode_with]⟩
  | list xs => exact ⟨108, _, by rw [encode_with], by decide, _, by rw [encode_with]⟩
  | dict kvs => exact ⟨100, _, by rw [encode_with], by decide, _, by rw [encode_with]⟩
  | str s =>
    obtain ⟨c, cs, h, _⟩ := string_token_cons mark s
    have hd := decimal_digits s.length
    rw [h] at hd
    have hc := hd c (List.mem_cons_self _ _)
    refine ⟨c, cs ++ 58 :: s, ?_, by omega, cs ++ 58 :: s, ?_⟩
    · simp [encode_with, string_token, h, mark_head]
    · simp [encode_with, string_token, h, mark_head]

theorem encode_length_ge (v : bvalue) : 2 ≤ (encode v).length := by
  unfold encode
  cases v with
  | int n => simp [encode_with]
  | list xs => simp [encode_with]
  | dict kvs => simp [encode_with]
  | str s =>
    obtain ⟨c, cs, h⟩ := decimal_cons s.length
    simp [encode_with, string_token_length, h]
    omega

theorem decodes_int (d : Int) (n : Int) : decodes_value d (.int n) := by
  intro A B h tl top0 rest ret henc _
  have he : encode (.int n) = 105 :: (int_text n ++ [101]) := by
    unfold encode; rw [encode_with]
  have hz : decoded_buffer (.int n) = 0 :: (int_text n ++ [0]) := by
    unfold decoded_buffer; rw [encode_with]
  rw [he] at henc
  injection henc with h1 h2
  subst h1 h2
  refine ⟨0, by rw [he]; simp, ?_⟩
  intro fuel
  rw [parse_token_int, he, hz]
  rfl

theorem decodes_str (d : Int) (s : List Nat) (hlen : s.length < 9223372036854775808) :
    decodes_value d (.str s) := by
  intro A B h tl top0 rest ret henc _
  obtain ⟨c0, cs, hdec, _⟩ := string_token_cons (fun c => c) s
  have he : encode (.str s) = c0 :: (cs ++ 58 :: s) := by
    unfold encode; rw [encode_with]; simp [string_token, hdec, mark_head]
  have hz : decoded_buffer (.str s) = 0 :: (cs ++ 58 :: s) := by
    unfold decoded_buffer; rw [encode_with]; simp [string_token, hdec, mark_head]
  rw [he] at henc
  injection henc with h1 h2
  subst h1 h2
  refine ⟨0, by rw [he]; simp, ?_⟩
  intro fuel
  rw [parse_token_str s c0 cs A B top0 rest ret hdec hlen, he, hz]
  rfl

theorem set_last_list (done : List lazy_entry) (e : lazy_entry) :
    set_last (.list_t (done ++ [.none_t])) e = .list_t (done ++ [e]) := by
  simp [set_last]

theorem set_last_dict (done : List (Int × lazy_entry)) (name : Int) (e : lazy_entry) :
    set_last (.dict_t (done ++ [(name, .none_t)])) e = .dict_t (done ++ [(name, e)]) := by
  simp [set_last]

theorem pop_cons_cons (buf : List Nat) (start : Int) (top parent : lazy_entry)
    (rest : List lazy_entry) (ret : lazy_entry) :
    pop ⟨buf, start, top :: parent :: rest, ret⟩ =
      ⟨buf, start, set_last parent top :: rest, ret⟩ := rfl

theorem decodes_list_nil (d : Int) : decodes_list d [] := by
  intro A B done rest ret hdep
  refine ⟨1, by simp, ?_⟩
  intro fuel
  simp only [encode_list, List.nil_append, List.append_nil, entries_of, vdepth_list] at hdep ⊢
  rw [run_succ d fuel _ (by simp)]
  rw [iteration_step d _ (.list_t done) rest 101 rfl (by omega) (rd_append_cons A B 101)]
  simp only [ne_eq, not_true_eq_false, and_false, if_false, set_append_cons, switch_type, if_true]
  rfl

theorem decodes_list_cons (d : Int) (x : bvalue) (xs : List bvalue)
    (hx : decodes_value d x) (hxs : decodes_list d xs) : decodes_list d (x :: xs) := by
  intro A B done rest ret hdep
  obtain ⟨h, tl, henc, hne, _⟩ := encode_with_head (fun c => c) x
  have henc1 : encode x = h :: tl := henc
  simp only [vdepth_list] at hdep
  obtain ⟨kx, hkx, hrunx⟩ := hx A (encode_list (fun c => c) xs ++ 101 :: B) h tl .none_t
    (.list_t (done ++ [.none_t]) :: rest) ret henc1 (by
      simp only [List.length_cons]; push_cast; omega)
  obtain ⟨kxs, hkxs, hrunxs⟩ := hxs (A ++ decoded_buffer x) B
    (done ++ [entry_of A.length x]) rest ret (by omega)
  refine ⟨kxs + kx + 1, ?_, ?_⟩
  · simp only [encode_list, List.length_append]
    unfold encode at hkx
    omega
  · intro fuel
    have hbuf : A ++ (encode_list (fun c => c) (x :: xs) ++ 101 :: B) =
        A ++ h :: (tl ++ (encode_list (fun c => c) xs ++ 101 :: B)) := by
      simp [encode_list, henc]
    rw [hbuf, ← Nat.add_assoc, ← Nat.add_assoc, run_succ d _ _ (by simp; omega)]
    rw [iteration_step d _ (.list_t done) rest h rfl (by omega) (rd_append_cons A _ h)]
    simp only
    rw [if_neg (by simp; omega)]
    simp only [set_append_cons, switch_type, if_neg hne, list_append]
    rw [hrunx (fuel + kxs)]
    have hl : ((A ++ encode x).length : Int) = ((A ++ decoded_buffer x).length : Int) := by
      simp [decoded_buffer_length]
    rw [pop_cons_cons, set_last_list, hl, hrunxs fuel]
    have hlen0 : (encode_with (fun _ => 0) x).length = (encode_with (fun c => c) x).length :=
      encode_with_length _ _ x
    congr 2
    all_goals simp [encode_list, decoded_buffer, encode, entries_of, hlen0]

theorem dict_key_step (key : List Nat) (c0 : Nat) (cs A X : List Nat) (h : Nat)
    (top : lazy_entry) (rest : List lazy_entry) (ret : lazy_entry)
    (hdec : decimal key.length = c0 :: cs) (hlen : key.length < 9223372036854775808)
    (hX : 1 ≤ X.length) :
    dict_key c0 ⟨A ++ 0 :: (cs ++ 58 :: (key ++ h :: X)), (A.length : Int) + 1,
        top :: rest, ret⟩ top rest =
      parse_token h ⟨(A ++ 0 :: (cs ++ 58 :: key)) ++ 0 :: X,
        ((A ++ 0 :: (cs ++ 58 :: key)).length : Int) + 1,
        .none_t :: dict_append top ((A.length : Int) + ((decimal key.length).length + 1 : Nat))
          :: rest, ret⟩ := by
  have hbuf : A ++ 0 :: (cs ++ 58 :: (key ++ h :: X)) =
      (A ++ [0]) ++ (cs ++ 58 :: (key ++ h :: X)) := by simp
  have hpi : parse_int (A ++ 0 :: (cs ++ 58 :: (key ++ h :: X))) ((A.length : Int) + 1)
      ((A ++ 0 :: (cs ++ 58 :: (key ++ h :: X))).length : Int) 58 (char_val c0 - 48) =
      some (some (((A ++ [0]) ++ cs).length : Int), (key.length : Int)) := by
    unfold parse_int
    rw [hbuf]
    have h2 : (A.length : Int) + 1 = ((A ++ [0]).length : Int) := by simp
    rw [h2]
    apply parse_length key.length c0 cs _ _ _ hdec hlen
    simp only [List.length_append, List.length_cons, List.length_singleton, List.length_nil]
    omega
  have hrd : rd (A ++ 0 :: (cs ++ 58 :: (key ++ h :: X))) (((A ++ [0]) ++ cs).length : Int)
      = some 58 := by
    rw [hbuf, ← List.append_assoc, rd_append_cons]
  have hbuf2 : A ++ 0 :: (cs ++ 58 :: (key ++ h :: X)) =
      (A ++ 0 :: (cs ++ 58 :: key)) ++ h :: X := by simp
  have hpos : (((A ++ [0]) ++ cs).length : Int) + 1 + (key.length : Int) =
      ((A ++ 0 :: (cs ++ 58 :: key)).length : Int) := by
    simp only [List.length_append, List.length_cons, List.length_singleton, List.length_nil]
    push_cast
    omega
  unfold dict_key
  simp only
  rw [hpi]
  simp only
  rw [if_neg (by simp; omega), hrd]
  simp only [ne_eq, not_true_eq_false, if_false]
  rw [hpos, hbuf2, rd_append_cons]
  simp only
  rw [wr_eq 0 (by omega) (by simp), set_append_cons]
  simp only
  congr 5
  simp only [List.length_append, List.length_cons, List.length_singleton, List.length_nil, hdec]
  push_cast
  omega

theorem decodes_dict_nil (d : Int) : decodes_dict d [] := by
  intro A B done rest ret hdep
  refine ⟨1, by simp, ?_⟩
  intro fuel
  simp only [encode_dict, List.nil_append, List.append_nil, pairs_of, vdepth_dict] at hdep ⊢
  rw [run_succ d fuel _ (by simp)]
  rw [iteration_step d _ (.dict_t done) rest 101 rfl (by omega) (rd_append_cons A B 101)]
  simp only [ne_eq, not_true_eq_false, and_false, if_false, set_append_cons, switch_type, if_true]
  rfl

theorem decodes_dict_cons (d : Int) (key : List Nat) (v : bvalue)
    (kvs : List (List Nat × bvalue)) (hkey : key.length < 9223372036854775808)
    (hv : decodes_value d v) (hkvs : decodes_dict d kvs) : decodes_dict d ((key, v) :: kvs) := by
  intro A B done rest ret hdep
  obtain ⟨c0, cs, hdec, htok⟩ := string_token_cons (fun c => c) key
  have htok0 : string_token (fun _ => 0) key = 0 :: (cs ++ 58 :: key) := by
    simp [string_token, hdec, mark_head]
  have hdig := decimal_digits key.length
  rw [hdec] at hdig
  have hc0 := hdig c0 (List.mem_cons_self _ _)
  obtain ⟨h, tl, henc, hne, _⟩ := encode_with_head (fun c => c) v
  have henc1 : encode v = h :: tl := henc
  simp only [vdepth_dict] at hdep
  obtain ⟨kv, hkv, hrunv⟩ := hv (A ++ 0 :: (cs ++ 58 :: key))
    (encode_dict (fun c => c) kvs ++ 101 :: B) h tl .none_t
    (.dict_t (done ++ [((A.length : Int) + ((decimal key.length).length + 1 : Nat), .none_t)])
      :: rest) ret henc1 (by
      simp only [List.length_cons]; push_cast; omega)
  obtain ⟨kk, hkk, hrunk⟩ := hkvs ((A ++ 0 :: (cs ++ 58 :: key)) ++ decoded_buffer v) B
    (done ++ [((A.length : Int) + ((decimal key.length).length + 1 : Nat),
      entry_of ((A ++ 0 :: (cs ++ 58 :: key)).length : Int) v)]) rest ret (by omega)
  refine ⟨kk + kv + 1, ?_, ?_⟩
  · simp only [encode_dict, List.length_append, htok, List.length_cons]
    unfold encode at hkv
    omega
  · intro fuel
    have hbuf : A ++ (encode_dict (fun c => c) ((key, v) :: kvs) ++ 101 :: B) =
        A ++ c0 :: (cs ++ 58 :: (key ++ h :: (tl ++ (encode_dict (fun c => c) kvs ++ 101 :: B))))
        := by
      simp [encode_dict, henc, htok]
    rw [hbuf, ← Nat.add_assoc, ← Nat.add_assoc, run_succ d _ _ (by simp; omega)]
    rw [iteration_step d _ (.dict_t done) rest c0 rfl (by omega) (rd_append_cons A _ c0)]
    simp only
    rw [if_neg (by simp; omega)]
    simp only [set_append_cons, switch_type]
    rw [if_neg (by omega)]
    rw [dict_key_step key c0 cs A _ h _ rest ret hdec hkey
      (by simp only [List.length_append, List.length_cons]; omega)]
    simp only [dict_append]
    rw [hrunv (fuel + kk)]
    have hl : (((A ++ 0 :: (cs ++ 58 :: key)) ++ encode v).length : Int) =
        (((A ++ 0 :: (cs ++ 58 :: key)) ++ decoded_buffer v).length : Int) := by
      simp [decoded_buffer_length]
    rw [pop_cons_cons, set_last_dict, hl, hrunk fuel]
    have hlen0 : (encode_with (fun _ => 0) v).length = (encode_with (fun c => c) v).length :=
      encode_with_length _ _ v
    congr 2
    all_goals simp [encode_dict, decoded_buffer, encode, pairs_of, hlen0, htok0, htok, hdec]
    congr 1
    omega

theorem decodes_list_value (d : Int) (xs : List bvalue) (hxs : decodes_list d xs) :
    decodes_value d (.list xs) := by
  intro A B h tl top0 rest ret henc hdep
  have he : encode (.list xs) = 108 :: (encode_list (fun c => c) xs ++ [101]) := by
    unfold encode; rw [encode_with]
  have hz : decoded_buffer (.list xs) = 0 :: (encode_list (fun _ => 0) xs ++ [0]) := by
    unfold decoded_buffer; rw [encode_with]
  rw [he] at henc
  injection henc with h1 h2
  subst h1 h2
  simp only [vdepth] at hdep
  obtain ⟨k, hk, hrun⟩ := hxs (A ++ [0]) B [] rest ret (by push_cast at hdep; omega)
  refine ⟨k, by rw [he]; simp; omega, ?_⟩
  intro fuel
  have hs : (⟨A ++ 0 :: ((encode_list (fun c => c) xs ++ [101]) ++ B), (A.length : Int) + 1,
      .list_t [] :: rest, ret⟩ : decode_state) =
      ⟨(A ++ [0]) ++ (encode_list (fun c => c) xs ++ 101 :: B), ((A ++ [0]).length : Int),
        .list_t [] :: rest, ret⟩ := by
    congr 1 <;> simp
  simp only [parse_token, construct, show ¬ ((108 : Nat) = 100) by decide, if_false, if_true,
    finish]
  rw [hs, hrun fuel, he, hz]
  congr 2
  all_goals simp [entry_of]
  omega

theorem decodes_dict_value (d : Int) (kvs : List (List Nat × bvalue))
    (hkvs : decodes_dict d kvs) : decodes_value d (.dict kvs) := by
  intro A B h tl top0 rest ret henc hdep
  have he : encode (.dict kvs) = 100 :: (encode_dict (fun c => c) kvs ++ [101]) := by
    unfold encode; rw [encode_with]
  have hz : decoded_buffer (.dict kvs) = 0 :: (encode_dict (fun _ => 0) kvs ++ [0]) := by
    unfold decoded_buffer; rw [encode_with]
  rw [he] at henc
  injection henc with h1 h2
  subst h1 h2
  simp only [vdepth] at hdep
  obtain ⟨k, hk, hrun⟩ := hkvs (A ++ [0]) B [] rest ret (by push_cast at hdep; omega)
  refine ⟨k, by rw [he]; simp; omega, ?_⟩
  intro fuel
  have hs : (⟨A ++ 0 :: ((encode_dict (fun c => c) kvs ++ [101]) ++ B), (A.length : Int) + 1,
      .dict_t [] :: rest, ret⟩ : decode_state) =
      ⟨(A ++ [0]) ++ (encode_dict (fun c => c) kvs ++ 101 :: B), ((A ++ [0]).length : Int),
        .dict_t [] :: rest, ret⟩ := by
    congr 1 <;> simp
  simp only [parse_token, construct, if_true, finish]
  rw [hs, hrun fuel, he, hz]
  congr 2
  all_goals simp [entry_of]
  omega

theorem decodes_all (d : Int) : ∀ v : bvalue, sizes_ok v = true → decodes_value d v := by
  apply bvalue_induction (fun v => sizes_ok v = true → decodes_value d v)
    (fun xs => sizes_ok_list xs = true → decodes_list d xs)
    (fun kvs => sizes_ok_dict kvs = true → decodes_dict d kvs)
  · intro n _
    exact decodes_int d n
  · intro s hs
    simp only [sizes_ok, decide_eq_true_eq] at hs
    exact decodes_str d s hs
  · intro xs ih hok
    simp only [sizes_ok] at hok
    exact decodes_list_value d xs (ih hok)
  · intro kvs ih hok
    simp only [sizes_ok] at hok
    exact decodes_dict_value d kvs (ih hok)
  · intro _
    exact decodes_list_nil d
  · intro x xs ihx ihxs hok
    simp only [sizes_ok_list, Bool.and_eq_true] at hok
    exact decodes_list_cons d x xs (ihx hok.1) (ihxs hok.2)
  · intro _
    exact decodes_dict_nil d
  · intro k v kvs ihv ihkvs hok
    simp only [sizes_ok_dict, Bool.and_eq_true, decide_eq_true_eq] at hok
    exact decodes_dict_cons d k v kvs hok.1.1 (ihv hok.1.2) (ihkvs hok.2)

theorem value_ok_sizes : ∀ v : bvalue, value_ok v = true → sizes_ok v = true := by
  apply bvalue_induction (fun v => value_ok v = true → sizes_ok v = true)
    (fun xs => values_ok xs = true → sizes_ok_list xs = true)
    (fun kvs => pairs_ok kvs = true → sizes_ok_dict kvs = true)
  · intro n _; rfl
  · intro s hs
    simp only [value_ok, Bool.and_eq_true, decide_eq_true_eq] at hs
    simp only [sizes_ok, decide_eq_true_eq]
    exact hs.2
  · intro xs ih hok
    simp only [value_ok] at hok
    simp only [sizes_ok]
    exact ih hok
  · intro kvs ih hok
    simp only [value_ok] at hok
    simp only [sizes_ok]
    exact ih hok
  · intro _; rfl
  · intro x xs ihx ihxs hok
    simp only [values_ok, Bool.and_eq_true] at hok
    simp only [sizes_ok_list, Bool.and_eq_true]
    exact ⟨ihx hok.1, ihxs hok.2⟩
  · intro _; rfl
  · intro k v kvs ihv ihkvs hok
    simp only [pairs_ok, Bool.and_eq_true, decide_eq_true_eq] at hok
    simp only [sizes_ok_dict, Bool.and_eq_true, decide_eq_true_eq]
    exact ⟨⟨hok.1.1.2, ihv hok.1.2⟩, ihkvs hok.2⟩

theorem run_done (d : Int) (fuel : Nat) (s : decode_state) (hs : s.stack = []) :
    run d (fuel + 1) s = .returned 0 s.buf s.ret := by
  unfold run
  rw [iteration_empty d s hs]
  simp only [decode_state.root, hs]
  split <;> rfl

theorem lazy_bdecode_encode_append (t : bvalue) (B : List Nat) (ret : lazy_entry) (d : Int)
    (hok : sizes_ok t = true) (hd : 1 ≤ to_size_t d)
    (hdep : (vdepth t : Int) ≤ to_size_t d) :
    lazy_bdecode (encode t ++ B) ret d = .returned 0 (decoded_buffer t ++ B) (entry_of 0 t) := by
  obtain ⟨h, tl, henc, hne, _⟩ := encode_with_head (fun c => c) t
  have henc1 : encode t = h :: tl := henc
  obtain ⟨k, hk, hrun⟩ := decodes_all d t hok [] B h tl .none_t [] .none_t henc1
    (by simpa using hdep)
  have hlen2 := encode_length_ge t
  obtain ⟨m, hm⟩ : ∃ m, (encode t ++ B).length = (m + 1) + k :=
    ⟨(encode t ++ B).length - k - 1, by simp only [List.length_append]; omega⟩
  unfold lazy_bdecode
  simp only [lazy_entry.clear]
  rw [if_neg (by omega), run_succ d _ _ (by simp; omega)]
  rw [iteration_step d _ .none_t [] h rfl (by simpa using hd) (by
    simp only [henc1]
    exact rd_append_cons [] (tl ++ B) h)]
  simp only
  rw [if_neg (by simp only [List.length_append]; push_cast; omega)]
  have hs : (⟨(encode t ++ B).set (0 : Int).toNat 0, 0 + 1, [.none_t], .none_t⟩ : decode_state) =
      ⟨[] ++ 0 :: (tl ++ B), (([] : List Nat).length : Int) + 1, [.none_t], .none_t⟩ := by
    congr 1
    rw [henc1]
    rfl
  have hsw : ∀ s : decode_state, switch_type h s .none_t [] = parse_token h s := fun s => rfl
  rw [hsw, hs, hm, hrun (m + 1)]
  have hp : pop ⟨[] ++ decoded_buffer t ++ B, ((([] : List Nat) ++ encode t).length : Int),
      [entry_of (([] : List Nat).length : Int) t], .none_t⟩ =
      ⟨decoded_buffer t ++ B, ((encode t).length : Int), [], entry_of 0 t⟩ := by
    simp [pop]
  rw [hp, run_done d m _ rfl]

/-! ## The decoded tree represents the value -/

theorem wfold_decimal (m : Nat) : wfold 0 (decimal m) = wrap64 m := by
  have h : (0 : Int) = wrap64 0 := by unfold wrap64; omega
  rw [h, wfold_wrap, decimal_val]

theorem parse_int_decimal (m : Nat) (A B : List Nat) (n : Nat)
    (hm : m < 18446744073709551616) (hn : 21 ≤ n) :
    parse_int_loop (A ++ (decimal m ++ 0 :: B)) 0 n (A.length : Int) 0 =
      some (some ((A ++ decimal m).length : Int), wrap64 m) := by
  rw [parse_int_digits (decimal m) A B 0 n 0 (fun c hc => by
    have := decimal_digits m c hc
    exact ⟨isdigit_of_bounds this, by omega⟩) (by
    have := decimal_length m hm
    omega), wfold_decimal]

theorem int_value_decoded (n : Int) (A B : List Nat) (hn : value_ok (.int n) = true) :
    int_value (A ++ (0 :: (int_text n ++ [0])) ++ B) (.int_t ((A.length : Int) + 1)) =
      some n := by
  simp only [value_ok, Bool.and_eq_true, decide_eq_true_eq] at hn
  have hp : (A.length : Int) + 1 = ((A ++ [0]).length : Int) := by simp
  unfold int_value
  simp only
  by_cases hneg : n < 0
  · have ht : int_text n = 45 :: decimal (-n).toNat := by
      unfold int_text; rw [if_pos hneg]
    have hbuf : A ++ (0 :: (int_text n ++ [0])) ++ B =
        (A ++ [0]) ++ 45 :: (decimal (-n).toNat ++ 0 :: B) := by
      simp [ht]
    have hbuf2 : (A ++ [0]) ++ 45 :: (decimal (-n).toNat ++ 0 :: B) =
        (A ++ [0, 45]) ++ (decimal (-n).toNat ++ 0 :: B) := by
      simp
    have hp2 : ((A ++ [0]).length : Int) + 1 = ((A ++ [0, 45]).length : Int) := by
      simp; omega
    rw [hbuf, hp, rd_append_cons]
    simp only [decide_True, if_true]
    unfold parse_int
    have hf : (((A ++ [0]).length : Int) + 100 - (((A ++ [0]).length : Int) + 1)).toNat = 99 := by
      omega
    rw [hf, hbuf2, hp2, parse_int_decimal _ _ _ _ (by omega) (by omega)]
    simp only [Option.some.injEq]
    have hc : (((-n).toNat : Nat) : Int) = -n := by omega
    rw [hc]
    unfold wrap64
    omega
  · have ht : int_text n = decimal n.toNat := by
      unfold int_text; rw [if_neg hneg]
    obtain ⟨c0, cs, hdec⟩ := decimal_cons n.toNat
    have hdig := decimal_digits n.toNat
    rw [hdec] at hdig
    have hc0 := hdig c0 (List.mem_cons_self _ _)
    have hbuf : A ++ (0 :: (int_text n ++ [0])) ++ B =
        (A ++ [0]) ++ (decimal n.toNat ++ 0 :: B) := by
      simp [ht]
    have hbuf1 : (A ++ [0]) ++ (decimal n.toNat ++ 0 :: B) =
        (A ++ [0]) ++ c0 :: (cs ++ 0 :: B) := by
      simp [hdec]
    rw [hbuf, hp]
    nth_rewrite 1 [hbuf1]
    rw [rd_append_cons]
    have h45 : decide (c0 = 45) = false := by
      simp only [decide_eq_false_iff_not]; omega
    simp only [h45, Bool.false_eq_true, if_false]
    unfold parse_int
    have hf : (((A ++ [0]).length : Int) + 100 - ((A ++ [0]).length : Int)).toNat = 100 := by
      omega
    rw [hf, parse_int_decimal _ _ _ _ (by omega) (by omega)]
    simp only [Option.some.injEq]
    have hc : ((n.toNat : Nat) : Int) = n := by omega
    rw [hc]
    exact wrap64_id hn.1 hn.2

theorem c_str_token (key : List Nat) (A B : List Nat) (h0 : 0 ∉ key) :
    c_str (A ++ string_token (fun _ => 0) key ++ 0 :: B)
      ((A.length : Int) + ((decimal key.length).length + 1 : Nat)) = some key := by
  obtain ⟨c0, cs, hdec, htok⟩ := string_token_cons (fun _ => 0) key
  have hbuf : A ++ string_token (fun _ => 0) key ++ 0 :: B =
      (A ++ 0 :: (cs ++ [58])) ++ (key ++ 0 :: B) := by
    simp [htok]
  have hp : (A.length : Int) + ((decimal key.length).length + 1 : Nat) =
      ((A ++ 0 :: (cs ++ [58])).length : Int) := by
    simp [hdec]
  unfold c_str
  rw [hbuf, hp]
  apply c_str_read key _ _ _ h0
  simp only [List.length_append, List.length_cons, List.length_singleton, List.length_nil]
  omega

theorem encode_list_zero_head (xs : List bvalue) (B : List Nat) :
    ∃ B1, encode_list (fun _ => 0) xs ++ 0 :: B = 0 :: B1 := by
  cases xs with
  | nil => exact ⟨B, rfl⟩
  | cons x xs =>
    obtain ⟨h, tl, _, _, tl0, h0⟩ := encode_with_head (fun _ => 0) x
    exact ⟨_, by simp only [encode_list, h0, List.cons_append]; rfl⟩

theorem encode_dict_zero_head (kvs : List (List Nat × bvalue)) (B : List Nat) :
    ∃ B1, encode_dict (fun _ => 0) kvs ++ 0 :: B = 0 :: B1 := by
  cases kvs with
  | nil => exact ⟨B, rfl⟩
  | cons kv kvs =>
    obtain ⟨k, v⟩ := kv
    obtain ⟨c0, cs, _, htok⟩ := string_token_cons (fun _ => 0) k
    exact ⟨_, by simp only [encode_dict, htok, List.cons_append]; rfl⟩

theorem represents_decoded : ∀ v : bvalue, value_ok v = true → ∀ (A B : List Nat),
    (∀ s, v = .str s → ∃ B1, B = 0 :: B1) →
    represents (A ++ decoded_buffer v ++ B) (entry_of A.length v) v = true := by
  apply bvalue_induction
    (fun v => value_ok v = true → ∀ (A B : List Nat),
      (∀ s, v = .str s → ∃ B1, B = 0 :: B1) →
      represents (A ++ decoded_buffer v ++ B) (entry_of A.length v) v = true)
    (fun xs => values_ok xs = true → ∀ (A B : List Nat),
      represents_list (A ++ encode_list (fun _ => 0) xs ++ 0 :: B) (entries_of A.length xs) xs
        = true)
    (fun kvs => pairs_ok kvs = true → ∀ (A B : List Nat),
      represents_dict (A ++ encode_dict (fun _ => 0) kvs ++ 0 :: B) (pairs_of A.length kvs) kvs
        = true)
  · intro n hok A B _
    have hz : decoded_buffer (.int n) = 0 :: (int_text n ++ [0]) := by
      unfold decoded_buffer; rw [encode_with]
    simp only [entry_of, represents, hz, beq_iff_eq]
    exact int_value_decoded n A B hok
  · intro s hok A B hB
    obtain ⟨B1, rfl⟩ := hB s rfl
    simp only [value_ok, Bool.and_eq_true, decide_eq_true_eq] at hok
    have hz : decoded_buffer (.str s) = string_token (fun _ => 0) s := by
      unfold decoded_buffer; rw [encode_with]
    simp only [entry_of, represents, hz, beq_iff_eq]
    exact c_str_token s A B1 hok.1
  · intro xs ih hok A B _
    simp only [value_ok] at hok
    have hz : decoded_buffer (.list xs) = 0 :: (encode_list (fun _ => 0) xs ++ [0]) := by
      unfold decoded_buffer; rw [encode_with]
    have hbuf : A ++ decoded_buffer (.list xs) ++ B =
        (A ++ [0]) ++ encode_list (fun _ => 0) xs ++ 0 :: B := by
      simp [hz]
    have hp : (A.length : Int) + 1 = ((A ++ [0]).length : Int) := by simp
    simp only [entry_of, represents]
    rw [hbuf, hp]
    exact ih hok (A ++ [0]) B
  · intro kvs ih hok A B _
    simp only [value_ok] at hok
    have hz : decoded_buffer (.dict kvs) = 0 :: (encode_dict (fun _ => 0) kvs ++ [0]) := by
      unfold decoded_buffer; rw [encode_with]
    have hbuf : A ++ decoded_buffer (.dict kvs) ++ B =
        (A ++ [0]) ++ encode_dict (fun _ => 0) kvs ++ 0 :: B := by
      simp [hz]
    have hp : (A.length : Int) + 1 = ((A ++ [0]).length : Int) := by simp
    simp only [entry_of, represents]
    rw [hbuf, hp]
    exact ih hok (A ++ [0]) B
  · intro _ A B
    rfl
  · intro x xs ihx ihxs hok A B
    simp only [values_ok, Bool.and_eq_true] at hok
    obtain ⟨B1, hB1⟩ := encode_list_zero_head xs B
    have hbuf1 : A ++ encode_list (fun _ => 0) (x :: xs) ++ 0 :: B =
        A ++ decoded_buffer x ++ (encode_list (fun _ => 0) xs ++ 0 :: B) := by
      simp [encode_list, decoded_buffer]
    have hbuf2 : A ++ decoded_buffer x ++ (encode_list (fun _ => 0) xs ++ 0 :: B) =
        (A ++ decoded_buffer x) ++ encode_list (fun _ => 0) xs ++ 0 :: B := by
      simp
    have hp : (A.length : Int) + ((encode x).length : Nat) =
        ((A ++ decoded_buffer x).length : Int) := by
      simp [decoded_buffer_length]
    simp only [entries_of, represents_list, Bool.and_eq_true]
    constructor
    · rw [hbuf1]
      exact ihx hok.1 A _ (fun _ _ => ⟨B1, hB1⟩)
    · rw [hbuf1, hbuf2, hp]
      exact ihxs hok.2 (A ++ decoded_buffer x) B
  · intro _ A B
    rfl
  · intro k v kvs ihv ihkvs hok A B
    simp only [pairs_ok, Bool.and_eq_true, decide_eq_true_eq] at hok
    obtain ⟨B1, hB1⟩ := encode_dict_zero_head kvs B
    obtain ⟨h, tl, _, _, tl0, h0⟩ := encode_with_head (fun _ => 0) v
    have hbuf0 : A ++ encode_dict (fun _ => 0) ((k, v) :: kvs) ++ 0 :: B =
        A ++ string_token (fun _ => 0) k ++
          0 :: (tl0 ++ (encode_dict (fun _ => 0) kvs ++ 0 :: B)) := by
      simp [encode_dict, h0]
    have hbuf1 : A ++ encode_dict (fun _ => 0) ((k, v) :: kvs) ++ 0 :: B =
        (A ++ string_token (fun _ => 0) k) ++ decoded_buffer v ++
          (encode_dict (fun _ => 0) kvs ++ 0 :: B) := by
      simp [encode_dict, decoded_buffer]
    have hbuf2 : (A ++ string_token (fun _ => 0) k) ++ decoded_buffer v ++
          (encode_dict (fun _ => 0) kvs ++ 0 :: B) =
        (A ++ string_token (fun _ => 0) k ++ decoded_buffer v) ++
          encode_dict (fun _ => 0) kvs ++ 0 :: B := by
      simp
    have hp1 : (A.length : Int) + ((string_token (fun c => c) k).length : Nat) =
        ((A ++ string_token (fun _ => 0) k).length : Int) := by
      simp [string_token_length]
    have hp2 : (A.length : Int) +
        ((string_token (fun c => c) k).length + (encode v).length : Nat) =
        ((A ++ string_token (fun _ => 0) k ++ decoded_buffer v).length : Int) := by
      simp [string_token_length, decoded_buffer_length]
    simp only [pairs_of, represents_dict, Bool.and_eq_true, beq_iff_eq]
    refine ⟨⟨?_, ?_⟩, ?_⟩
    · rw [hbuf0]
      exact c_str_token k A _ hok.1.1.1
    · rw [hbuf1, hp1]
      exact ihv hok.1.2 _ _ (fun _ _ => ⟨B1, hB1⟩)
    · rw [hbuf1, hbuf2, hp2]
      exact ihkvs hok.2 _ B

theorem represents_list_get (buf : List Nat) : ∀ (xs : List bvalue) (es : List lazy_entry)
    (i : Nat) (x : bvalue), represents_list buf es xs = true → xs[i]? = some x →
    ∃ e, es[i]? = some e ∧ represents buf e x = true := by
  intro xs
  induction xs with
  | nil => intro es i x _ hx; simp at hx
  | cons y ys ih =>
    intro es i x hr hx
    cases es with
    | nil => simp [represents_list] at hr
    | cons e es =>
      simp only [represents_list, Bool.and_eq_true] at hr
      cases i with
      | zero =>
        simp only [List.getElem?_cons_zero, Option.some.injEq] at hx
        subst hx
        exact ⟨e, by simp, hr.1⟩
      | succ j =>
        simp only [List.getElem?_cons_succ] at hx ⊢
        exact ih es j x hr.2 hx

theorem represents_dict_get (buf : List Nat) : ∀ (kvs : List (List Nat × bvalue))
    (items : List (Int × lazy_entry)) (i : Nat) (k : List Nat) (v : bvalue),
    represents_dict buf items kvs = true → kvs[i]? = some (k, v) →
    ∃ p e, items[i]? = some (p, e) ∧ c_str buf p = some k ∧ represents buf e v = true := by
  intro kvs
  induction kvs with
  | nil => intro items i k v _ hx; simp at hx
  | cons y ys ih =>
    intro items i k v hr hx
    obtain ⟨k1, v1⟩ := y
    cases items with
    | nil => simp [represents_dict] at hr
    | cons it items =>
      obtain ⟨p, e⟩ := it
      simp only [represents_dict, Bool.and_eq_true, beq_iff_eq] at hr
      cases i with
      | zero =>
        simp only [List.getElem?_cons_zero, Option.some.injEq, Prod.mk.injEq] at hx
        obtain ⟨h1, h2⟩ := hx
        subst h1 h2
        exact ⟨p, e, by simp, hr.1.1, hr.1.2⟩
      | succ j =>
        simp only [List.getElem?_cons_succ] at hx ⊢
        exact ih items j k v hr.2 hx

theorem represents_int (buf : List Nat) (e : lazy_entry) (n : Int)
    (h : represents buf e (.int n) = true) : e.type = 4 ∧ int_value buf e = some n := by
  cases e <;> simp [represents] at h
  exact ⟨rfl, h⟩

/-! ## Claims about decoding an encoded value -/

/-- C2, as stated, fails in two ways.  The integer 0 has nesting depth 0, yet with depth
limit 0 its encoding `i0e` is rejected: the depth check counts the entries on the stack, and
the root is one.  And for the top-level string `4:spam` the call returns 0 with a string
entry pointing at `spam`, but no NUL byte follows inside the buffer, so the entry's bytes
are not determined by the buffer. -/
theorem lazy_bdecode_round_trip_counterexample :
    value_ok (.int 0) = true ∧ vdepth (.int 0) ≤ 0 ∧
    lazy_bdecode (encode (.int 0)) .none_t 0 = .returned (-1) (bytes "i0e") .none_t ∧
    value_ok (.str (bytes "spam")) = true ∧ vdepth (.str (bytes "spam")) ≤ 1 ∧
    lazy_bdecode (encode (.str (bytes "spam"))) .none_t 1 =
      .returned 0 (0 :: bytes ":spam") (.string_t 2) ∧
    c_str (0 :: bytes ":spam") 2 = none ∧
    represents (0 :: bytes ":spam") (.string_t 2) (.str (bytes "spam")) = false := by
  exact ⟨rfl, by decide, rfl, rfl, by decide, rfl, rfl, rfl⟩

/-- C2, amended: for every bencode value `t` (integers in the signed 64-bit range, strings
and keys without NUL bytes, lists, dictionaries), every depth limit that is at least 1 and at
least the nesting depth of `t`, `lazy_bdecode` applied to `encode t` returns 0, leaves the
buffer with the first byte of every token and every terminator cleared, and builds the tree
`entry_of 0 t`; unless `t` is a bare string, that tree is structurally equal to `t`: the same
variant at every node, the same children in the same order, the same dictionary keys, the
same string bytes and the same `int_value`. -/
theorem lazy_bdecode_round_trip (t : bvalue) (ret : lazy_entry) (depth_limit : Int)
    (hok : value_ok t = true) (hd : 1 ≤ depth_limit)
    (hdep : (vdepth t : Int) ≤ depth_limit) :
    lazy_bdecode (encode t) ret depth_limit =
      .returned 0 (decoded_buffer t) (entry_of 0 t) ∧
    ((∀ s, t ≠ .str s) → represents (decoded_buffer t) (entry_of 0 t) t = true) := by
  have hD : to_size_t depth_limit = depth_limit := to_size_t_of_nonneg (by omega)
  constructor
  · have := lazy_bdecode_encode_append t [] ret depth_limit (value_ok_sizes t hok)
      (by omega) (by omega)
    simpa using this
  · intro hns
    have := represents_decoded t hok [] [] (fun s hs => absurd hs (hns s))
    simpa using this

/-- The statement of `lazy_bdecode_round_trip` for the dictionary
`d3:bar4:spam3:fooi-42ee` and the depth limit 1. -/
theorem lazy_bdecode_round_trip_witness :
    value_ok (.dict [(bytes "bar", .str (bytes "spam")), (bytes "foo", .int (-42))]) = true ∧
    (1 : Int) ≤ 1 ∧
    (vdepth (.dict [(bytes "bar", .str (bytes "spam")), (bytes "foo", .int (-42))]) : Int) ≤ 1 ∧
    lazy_bdecode (encode (.dict [(bytes "bar", .str (bytes "spam")), (bytes "foo", .int (-42))]))
        .none_t 1 =
      .returned 0
        (decoded_buffer (.dict [(bytes "bar", .str (bytes "spam")), (bytes "foo", .int (-42))]))
        (entry_of 0 (.dict [(bytes "bar", .str (bytes "spam")), (bytes "foo", .int (-42))])) ∧
    ((∀ s, bvalue.dict [(bytes "bar", .str (bytes "spam")), (bytes "foo", .int (-42))] ≠ .str s) →
      represents
        (decoded_buffer (.dict [(bytes "bar", .str (bytes "spam")), (bytes "foo", .int (-42))]))
        (entry_of 0 (.dict [(bytes "bar", .str (bytes "spam")), (bytes "foo", .int (-42))]))
        (.dict [(bytes "bar", .str (bytes "spam")), (bytes "foo", .int (-42))]) = true) :=
  ⟨rfl, by decide, by decide,
    lazy_bdecode_round_trip
      (.dict [(bytes "bar", .str (bytes "spam")), (bytes "foo", .int (-42))]) .none_t 1
      rfl (by decide) (by decide)⟩

/-- C5, as stated, fails: the buffer `i1exyz`, a complete integer followed by three more
bytes, is accepted; the call returns 0 with the integer in `ret` and the bytes `xyz`
untouched. -/
theorem lazy_bdecode_accepts_trailing_bytes :
    lazy_bdecode (bytes "i1exyz") .none_t 1000 =
      .returned 0 [0, 49, 0, 120, 121, 122] (.int_t 1) := by
  rfl

/-- C5, amended: for every buffer that consists of the encoding of one value `t` (strings
and keys shorter than `2^63` bytes) followed by at least one further byte, and every depth
limit that is at least 1 and at least the nesting depth of `t`, `lazy_bdecode` returns 0: it
decodes `t`, stops when the stack is empty, and leaves the trailing bytes unread. -/
theorem lazy_bdecode_ignores_trailing_bytes (t : bvalue) (B : List Nat) (ret : lazy_entry)
    (depth_limit : Int) (hok : sizes_ok t = true) (hd : 1 ≤ depth_limit)
    (hdep : (vdepth t : Int) ≤ depth_limit) (hB : B ≠ []) :
    (encode t ++ B).length > (encode t).length ∧
    lazy_bdecode (encode t ++ B) ret depth_limit =
      .returned 0 (decoded_buffer t ++ B) (entry_of 0 t) := by
  have hD : to_size_t depth_limit = depth_limit := to_size_t_of_nonneg (by omega)
  constructor
  · cases B with
    | nil => exact absurd rfl hB
    | cons c cs => simp
  · exact lazy_bdecode_encode_append t B ret depth_limit hok (by omega) (by omega)

/-- The statement of `lazy_bdecode_ignores_trailing_bytes` for the list `l1:ai2ee` followed
by the bytes `xyz`, at depth limit 1. -/
theorem lazy_bdecode_ignores_trailing_bytes_witness :
    sizes_ok (.list [.str (bytes "a"), .int 2]) = true ∧ (1 : Int) ≤ 1 ∧
    (vdepth (.list [.str (bytes "a"), .int 2]) : Int) ≤ 1 ∧ bytes "xyz" ≠ [] ∧
    (encode (.list [.str (bytes "a"), .int 2]) ++ bytes "xyz").length >
      (encode (.list [.str (bytes "a"), .int 2])).length ∧
    lazy_bdecode (encode (.list [.str (bytes "a"), .int 2]) ++ bytes "xyz") .none_t 1 =
      .returned 0 (decoded_buffer (.list [.str (bytes "a"), .int 2]) ++ bytes "xyz")
        (entry_of 0 (.list [.str (bytes "a"), .int 2])) :=
  ⟨rfl, by decide, by decide, by decide,
    lazy_bdecode_ignores_trailing_bytes (.list [.str (bytes "a"), .int 2]) (bytes "xyz")
      .none_t 1 rfl (by decide) (by decide) (by decide)⟩

theorem represents_at (buf : List Nat) : ∀ (path : List Nat) (t : bvalue) (e0 : lazy_entry)
    (v : bvalue), represents buf e0 t = true → value_at t path = some v →
    ∃ e, entry_at e0 path = some e ∧ represents buf e v = true := by
  intro path
  induction path with
  | nil =>
    intro t e0 v hr hv
    simp only [value_at, Option.some.injEq] at hv
    subst hv
    exact ⟨e0, by simp [entry_at], hr⟩
  | cons i path ih =>
    intro t e0 v hr hv
    cases t with
    | int n => simp [value_at] at hv
    | str s => simp [value_at] at hv
    | list xs =>
      cases e0 with
      | list_t es =>
        simp only [represents] at hr
        simp only [value_at] at hv
        cases hx : xs[i]? with
        | none => rw [hx] at hv; cases hv
        | some x =>
          rw [hx] at hv
          obtain ⟨e1, he1, hr1⟩ := represents_list_get buf xs es i x hr hx
          obtain ⟨e, he, hre⟩ := ih x e1 v hr1 hv
          exact ⟨e, by simp only [entry_at, he1]; exact he, hre⟩
      | none_t => simp [represents] at hr
      | dict_t items => simp [represents] at hr
      | string_t p => simp [represents] at hr
      | int_t p => simp [represents] at hr
    | dict kvs =>
      cases e0 with
      | dict_t items =>
        simp only [represents] at hr
        simp only [value_at] at hv
        cases hx : kvs[i]? with
        | none => rw [hx] at hv; cases hv
        | some kv =>
          obtain ⟨k, x⟩ := kv
          rw [hx] at hv
          obtain ⟨p, e1, he1, _, hr1⟩ := represents_dict_get buf kvs items i k x hr hx
          obtain ⟨e, he, hre⟩ := ih x e1 v hr1 hv
          exact ⟨e, by simp only [entry_at, he1]; exact he, hre⟩
      | none_t => simp [represents] at hr
      | list_t es => simp [represents] at hr
      | string_t p => simp [represents] at hr
      | int_t p => simp [represents] at hr

/-- C10: for every integer `n` with `-2^63 < n < 2^63` and every value `t` of the round-trip
claim in which the integer `n` is a list element or a dictionary value, at any nesting level
(it is found by following the non-empty `path`), decoding `encode t` with a depth limit that
is at least the nesting depth of `t` succeeds, and the entry found in the decoded tree by
following the same path is an integer entry whose `int_value` is exactly `n`. -/
theorem int_value_of_decoded_int (t : bvalue) (path : List Nat) (n : Int) (ret : lazy_entry)
    (depth_limit : Int)
    (hn1 : -9223372036854775808 < n) (hn2 : n < 9223372036854775808)
    (hpath : path ≠ []) (hat : value_at t path = some (.int n))
    (hok : value_ok t = true) (hdep : (vdepth t : Int) ≤ depth_limit) :
    ∃ b r e, lazy_bdecode (encode t) ret depth_limit = .returned 0 b r ∧
      entry_at r path = some e ∧ e.type = 4 ∧ int_value b e = some n := by
  have _ := hn1
  have _ := hn2
  obtain ⟨i, rest, rfl⟩ : ∃ i rest, path = i :: rest := by
    cases path with
    | nil => exact absurd rfl hpath
    | cons i rest => exact ⟨i, rest, rfl⟩
  have hns : ∀ s, t ≠ .str s := by
    intro s hs
    rw [hs] at hat
    simp [value_at] at hat
  have hd1 : (1 : Int) ≤ vdepth t := by
    cases t with
    | int m => simp [value_at] at hat
    | str s => simp [value_at] at hat
    | list xs => simp [vdepth]
    | dict kvs => simp [vdepth]
  have hD : to_size_t depth_limit = depth_limit := to_size_t_of_nonneg (by omega)
  have h1 := lazy_bdecode_encode_append t [] ret depth_limit (value_ok_sizes t hok)
    (by omega) (by omega)
  have h2 := represents_decoded t hok [] [] (fun s hs => absurd hs (hns s))
  simp only [List.append_nil, List.nil_append, List.length_nil, Nat.cast_zero] at h1 h2
  obtain ⟨e, he, hre⟩ := represents_at _ (i :: rest) t _ (.int n) h2 hat
  obtain ⟨ht, hv⟩ := represents_int _ e n hre
  exact ⟨_, _, e, h1, he, ht, hv⟩

/-- The statement of `int_value_of_decoded_int` for `n = -9223372036854775807` as the value
of the key `k` in a dictionary that is the second element of a list,
`l1:ad1:ki-9223372036854775807eee`, decoded with depth limit 2. -/
theorem int_value_of_decoded_int_witness :
    (-9223372036854775808 : Int) < -9223372036854775807 ∧
    (-9223372036854775807 : Int) < 9223372036854775808 ∧
    value_at (.list [.str (bytes "a"), .dict [(bytes "k", .int (-9223372036854775807))]]) [1, 0] =
      some (.int (-9223372036854775807)) ∧
    ∃ b r e,
      lazy_bdecode
          (encode (.list [.str (bytes "a"), .dict [(bytes "k", .int (-9223372036854775807))]]))
          .none_t 2 = .returned 0 b r ∧
      entry_at r [1, 0] = some e ∧ e.type = 4 ∧ int_value b e = some (-9223372036854775807) :=
  ⟨by decide, by decide, rfl,
    int_value_of_decoded_int
      (.list [.str (bytes "a"), .dict [(bytes "k", .int (-9223372036854775807))]]) [1, 0]
      (-9223372036854775807) .none_t 2 (by decide) (by decide) (by decide) rfl rfl (by decide)⟩

/-! ## Termination: the iteration budget is never used up -/

theorem nonzero_count_set_le : ∀ (buf : List Nat) (i : Nat),
    nonzero_count (buf.set i 0) ≤ nonzero_count buf := by
  intro buf
  induction buf with
  | nil => intro i; simp [nonzero_count]
  | cons c cs ih =>
    intro i
    cases i with
    | zero =>
      simp only [List.set_cons_zero, nonzero_count, List.countP_cons]
      simp
    | succ j =>
      have := ih j
      simp only [List.set_cons_succ, nonzero_count, List.countP_cons] at this ⊢
      omega

theorem nonzero_count_set_lt : ∀ (buf : List Nat) (i : Nat) (t : Nat),
    buf[i]? = some t → t ≠ 0 → nonzero_count (buf.set i 0) < nonzero_count buf := by
  intro buf
  induction buf with
  | nil => intro i t h; simp at h
  | cons c cs ih =>
    intro i t h ht
    cases i with
    | zero =>
      simp only [List.getElem?_cons_zero, Option.some.injEq] at h
      subst h
      simp only [List.set_cons_zero, nonzero_count, List.countP_cons]
      simp [ht]
    | succ j =>
      simp only [List.getElem?_cons_succ] at h
      have := ih j t h ht
      simp only [List.set_cons_succ, nonzero_count, List.countP_cons] at this ⊢
      omega

theorem wr_count_le {buf b : List Nat} {p : Int} (h : wr buf p 0 = some b) :
    nonzero_count b ≤ nonzero_count buf := by
  unfold wr at h
  split at h
  · cases h; exact nonzero_count_set_le _ _
  · cases h

theorem wr_count_lt {buf b : List Nat} {p : Int} {t : Nat} (hr : rd buf p = some t)
    (ht : t ≠ 0) (h : wr buf p 0 = some b) : nonzero_count b < nonzero_count buf := by
  unfold wr at h
  split at h
  · cases h
    rw [rd_some_iff] at hr
    exact nonzero_count_set_lt _ _ t (by simpa using hr.2) ht
  · cases h

theorem pop_buf (s : decode_state) : (pop s).buf = s.buf := by
  obtain ⟨buf, start, stack, ret⟩ := s
  match stack with
  | [] => rfl
  | [_] => rfl
  | _ :: _ :: _ => rfl

theorem construct_buf (s : decode_state) (e : lazy_entry) : (construct s e).buf = s.buf := by
  obtain ⟨buf, start, stack, ret⟩ := s
  cases stack <;> rfl

theorem parse_token_next (t : Nat) (s s1 : decode_state) (h : parse_token t s = .next s1) :
    t ≠ 0 ∧ nonzero_count s1.buf ≤ nonzero_count s.buf := by
  unfold parse_token at h
  simp only at h
  by_cases h100 : t = 100
  · rw [if_pos h100] at h
    injection h with h
    rw [← h, construct_buf]
    exact ⟨by omega, le_refl _⟩
  rw [if_neg h100] at h
  by_cases h108 : t = 108
  · rw [if_pos h108] at h
    injection h with h
    rw [← h, construct_buf]
    exact ⟨by omega, le_refl _⟩
  rw [if_neg h108] at h
  by_cases h105 : t = 105
  · rw [if_pos h105] at h
    refine ⟨by omega, ?_⟩
    revert h
    cases find_char (construct s (.int_t s.start)).buf (construct s (.int_t s.start)).start
        s.buf.length 101 with
    | none => intro h; cases h
    | some p =>
      simp only
      split
      · intro h; cases h
      · cases hw : wr (construct s (.int_t s.start)).buf p 0 with
        | none => intro h; cases h
        | some b =>
          intro h
          injection h with h
          rw [← h, pop_buf]
          have := wr_count_le hw
          rw [construct_buf] at this
          exact this
  rw [if_neg h105] at h
  by_cases hdig : (!isdigit t) = true
  · rw [if_pos hdig] at h; cases h
  rw [if_neg hdig] at h
  have ht0 : t ≠ 0 := by
    intro h0
    apply hdig
    rw [h0]
    rfl
  refine ⟨ht0, ?_⟩
  revert h
  cases parse_int s.buf s.start s.buf.length 58 (char_val t - 48) with
  | none => intro h; cases h
  | some r =>
    obtain ⟨q, len⟩ := r
    cases q with
    | none => intro h; cases h
    | some p =>
      simp only
      split
      · intro h; cases h
      · cases rd s.buf p with
        | none => intro h; cases h
        | some c =>
          simp only
          split
          · intro h; cases h
          · intro h
            injection h with h
            rw [← h]
            simp only [pop_buf, construct_buf]
            exact le_refl _

theorem dict_key_next (t : Nat) (s s1 : decode_state) (top : lazy_entry)
    (rest : List lazy_entry) (h : dict_key t s top rest = .next s1) :
    nonzero_count s1.buf < nonzero_count s.buf := by
  unfold dict_key at h
  simp only at h
  revert h
  cases parse_int s.buf s.start s.buf.length 58 (char_val t - 48) with
  | none => intro h; cases h
  | some r =>
    obtain ⟨q, len⟩ := r
    cases q with
    | none => intro h; cases h
    | some p =>
      simp only
      split
      · intro h; cases h
      · cases rd s.buf p with
        | none => intro h; cases h
        | some c =>
          simp only
          split
          · intro h; cases h
          · cases hr2 : rd s.buf (p + 1 + len) with
            | none => intro h; cases h
            | some t2 =>
              simp only
              cases hw : wr s.buf (p + 1 + len) 0 with
              | none => intro h; cases h
              | some b2 =>
                simp only
                intro h
                obtain ⟨ht2, hle⟩ := parse_token_next t2 _ s1 h
                have := wr_count_lt hr2 ht2 hw
                simp only at hle
                omega

theorem switch_type_next (t : Nat) (s s1 : decode_state) (top : lazy_entry)
    (rest : List lazy_entry) (h : switch_type t s top rest = .next s1) :
    nonzero_count s1.buf ≤ nonzero_count s.buf ∧
      (t = 0 → nonzero_count s1.buf < nonzero_count s.buf) := by
  have hother : parse_token t s = .next s1 →
      nonzero_count s1.buf ≤ nonzero_count s.buf ∧
        (t = 0 → nonzero_count s1.buf < nonzero_count s.buf) := by
    intro h
    obtain ⟨h1, h2⟩ := parse_token_next t s s1 h
    exact ⟨h2, fun h0 => absurd h0 h1⟩
  cases top with
  | none_t => exact hother h
  | string_t p => exact hother h
  | int_t p => exact hother h
  | dict_t items =>
    simp only [switch_type] at h
    by_cases he : t = 101
    · rw [if_pos he] at h
      injection h with h
      rw [← h, pop_buf]
      exact ⟨le_refl _, fun h0 => by omega⟩
    · rw [if_neg he] at h
      have := dict_key_next t s s1 _ rest h
      exact ⟨by omega, fun _ => this⟩
  | list_t items =>
    simp only [switch_type] at h
    by_cases he : t = 101
    · rw [if_pos he] at h
      injection h with h
      rw [← h, pop_buf]
      exact ⟨le_refl _, fun h0 => by omega⟩
    · rw [if_neg he] at h
      obtain ⟨h1, h2⟩ := parse_token_next t _ s1 h
      exact ⟨h2, fun h0 => absurd h0 h1⟩

theorem iteration_next (d : Int) (s s1 : decode_state) (h : iteration d s = .next s1) :
    nonzero_count s1.buf < nonzero_count s.buf := by
  obtain ⟨buf, start, stack, ret⟩ := s
  cases stack with
  | nil => rw [iteration_empty d _ rfl] at h; cases h
  | cons top rest =>
    by_cases hdep : (rest.length : Int) + 1 > to_size_t d
    · rw [iteration_depth d _ top rest rfl hdep] at h; cases h
    · cases hrd : rd buf start with
      | none =>
        unfold iteration at h
        simp only [List.length_cons] at h
        rw [if_neg (by push_cast; omega)] at h
        by_cases hse : start = (buf.length : Int)
        · rw [if_pos hse] at h; cases h
        · rw [if_neg hse, hrd] at h; cases h
      | some t =>
        rw [iteration_step d _ top rest t rfl (by omega) hrd] at h
        simp only at h
        by_cases hend : start + 1 = (buf.length : Int) ∧ t ≠ 101
        · rw [if_pos hend] at h; cases h
        · rw [if_neg hend] at h
          obtain ⟨h1, h2⟩ := switch_type_next t _ s1 top rest h
          simp only at h1 h2 ⊢
          have hb := rd_bounds hrd
          have hw := @wr_eq buf start 0 hb.1 hb.2
          have hle := wr_count_le hw
          by_cases ht : t = 0
          · have := h2 ht
            omega
          · have := wr_count_lt hrd ht hw
            omega

theorem run_terminates (d : Int) : ∀ (fuel : Nat) (s : decode_state),
    nonzero_count s.buf < fuel → run d fuel s ≠ .timeout := by
  intro fuel
  induction fuel with
  | zero => intro s h; omega
  | succ n ih =>
    intro s hs
    unfold run
    by_cases hlt : s.start < s.buf.length
    · rw [if_pos hlt]
      cases hit : iteration d s with
      | next s1 =>
        simp only
        apply ih
        have := iteration_next d s s1 hit
        omega
      | ret code s1 => intro h; cases h
      | fault => intro h; cases h
    · rw [if_neg hlt]
      intro h
      cases h

theorem lazy_bdecode_terminates (buf : List Nat) (ret : lazy_entry) (d : Int) :
    lazy_bdecode buf ret d ≠ .timeout := by
  unfold lazy_bdecode
  simp only
  split
  · intro h; cases h
  · apply run_terminates
    simp only [nonzero_count]
    have := List.countP_le_length (fun c => decide (c ≠ 0)) (l := buf)
    omega

/-! ## Claims about `int_value` on long digit strings and about `dict_find` -/

/-- C11, as stated, fails: for the integer entry decoded from `i9223372036854775808e`, whose
digits denote `2^63`, `int_value` returns `-2^63`, not `2^63 - 1`. -/
theorem int_value_does_not_saturate :
    lazy_bdecode (bytes "i9223372036854775808e") .none_t 1000 =
      .returned 0 (0 :: bytes "9223372036854775808" ++ [0]) (.int_t 1) ∧
    int_value (0 :: bytes "9223372036854775808" ++ [0]) (.int_t 1) =
      some (-9223372036854775808) := by
  exact ⟨rfl, rfl⟩

/-- C11, amended: `int_value` does not saturate.  For an integer entry whose digit string
`ds` (at most 98 digits, followed by a NUL byte) denotes the magnitude `m`, it returns `m`
reduced modulo `2^64` to the signed 64-bit range; after a leading `-` it returns the
negation of that number, again reduced modulo `2^64`. -/
theorem int_value_wraps (ds A B : List Nat) (hd : ∀ c ∈ ds, isdigit c = true)
    (hlen : ds.length ≤ 98) :
    int_value (A ++ (ds ++ 0 :: B)) (.int_t A.length) = some (wrap64 (digits_val 0 ds)) ∧
    int_value (A ++ 45 :: (ds ++ 0 :: B)) (.int_t A.length) =
      some (wrap64 (-wrap64 (digits_val 0 ds))) := by
  have hw : wfold 0 ds = wrap64 (digits_val 0 ds) := by
    have h : (0 : Int) = wrap64 0 := by unfold wrap64; omega
    rw [h, wfold_wrap]
    rw [← h]
  have hdig : ∀ c ∈ ds, isdigit c = true ∧ c ≠ 0 := by
    intro c hc
    refine ⟨hd c hc, ?_⟩
    intro h0
    have := hd c hc
    rw [h0] at this
    cases this
  constructor
  · have hrd : ∃ c, rd (A ++ (ds ++ 0 :: B)) (A.length : Int) = some c ∧ c ≠ 45 := by
      cases ds with
      | nil => exact ⟨0, rd_append_cons A B 0, by decide⟩
      | cons c cs =>
        refine ⟨c, rd_append_cons A _ c, ?_⟩
        intro h45
        have := hd c (List.mem_cons_self _ _)
        rw [h45] at this
        cases this
    obtain ⟨c, hc, hne⟩ := hrd
    unfold int_value
    simp only [hc]
    have h45 : decide (c = 45) = false := by simp [hne]
    simp only [h45, Bool.false_eq_true, if_false]
    unfold parse_int
    have hf : ((A.length : Int) + 100 - (A.length : Int)).toNat = 100 := by omega
    rw [hf, parse_int_digits ds A B 0 100 0 hdig (by omega), hw]
  · have hbuf : A ++ 45 :: (ds ++ 0 :: B) = (A ++ [45]) ++ (ds ++ 0 :: B) := by simp
    have hp : (A.length : Int) + 1 = ((A ++ [45]).length : Int) := by simp
    unfold int_value
    simp only [rd_append_cons, decide_True, if_true]
    unfold parse_int
    have hf : ((A.length : Int) + 100 - ((A.length : Int) + 1)).toNat = 99 := by omega
    rw [hf, hbuf, hp, parse_int_digits ds (A ++ [45]) B 0 99 0 hdig (by omega), hw]

/-- The statement of `int_value_wraps` for the 20 digits of `2^64 + 5`, which read as 5 and,
after a `-`, as `-5`. -/
theorem int_value_wraps_witness :
    (∀ c ∈ bytes "18446744073709551621", isdigit c = true) ∧
    (bytes "18446744073709551621").length ≤ 98 ∧
    int_value ([105] ++ (bytes "18446744073709551621" ++ 0 :: [])) (.int_t ([105] : List Nat).length)
      = some (wrap64 (digits_val 0 (bytes "18446744073709551621"))) ∧
    wrap64 (digits_val 0 (bytes "18446744073709551621")) = 5 ∧
    int_value ([105] ++ 45 :: (bytes "18446744073709551621" ++ 0 :: []))
        (.int_t ([105] : List Nat).length) =
      some (wrap64 (-wrap64 (digits_val 0 (bytes "18446744073709551621")))) ∧
    wrap64 (-wrap64 (digits_val 0 (bytes "18446744073709551621"))) = -5 :=
  ⟨by decide, by decide,
    (int_value_wraps (bytes "18446744073709551621") [105] [] (by decide) (by decide)).1, rfl,
    (int_value_wraps (bytes "18446744073709551621") [105] [] (by decide) (by decide)).2, rfl⟩

theorem strcmp_eq_c_str (buf : List Nat) : ∀ (name : List Nat) (n : Nat) (p : Int)
    (key : List Nat), c_str_loop buf n p = some key → 0 ∉ name →
    strcmp_eq buf name p = some (decide (name = key)) := by
  intro name
  induction name with
  | nil =>
    intro n p key hk _
    cases n with
    | zero => simp [c_str_loop] at hk
    | succ m =>
      unfold c_str_loop at hk
      unfold strcmp_eq
      cases hr : rd buf p with
      | none => rw [hr] at hk; cases hk
      | some c =>
        rw [hr] at hk
        simp only at hk ⊢
        by_cases hc : c = 0
        · rw [if_pos hc] at hk
          injection hk with hk
          subst hk
          simp [hc]
        · rw [if_neg hc] at hk
          cases hl : c_str_loop buf m (p + 1) with
          | none => rw [hl] at hk; cases hk
          | some ks =>
            rw [hl] at hk
            simp only [Option.map_some'] at hk
            injection hk with hk
            subst hk
            simp [hc]
  | cons x xs ih =>
    intro n p key hk h0
    have hx : x ≠ 0 := by
      intro h
      apply h0
      rw [h]
      exact List.mem_cons_self _ _
    have hxs : 0 ∉ xs := fun h => h0 (List.mem_cons_of_mem _ h)
    cases n with
    | zero => simp [c_str_loop] at hk
    | succ m =>
      unfold c_str_loop at hk
      unfold strcmp_eq
      cases hr : rd buf p with
      | none => rw [hr] at hk; cases hk
      | some c =>
        rw [hr] at hk
        simp only at hk ⊢
        by_cases hc : c = 0
        · rw [if_pos hc] at hk
          injection hk with hk
          subst hk
          rw [if_neg (by omega)]
          simp
        · rw [if_neg hc] at hk
          cases hl : c_str_loop buf m (p + 1) with
          | none => rw [hl] at hk; cases hk
          | some ks =>
            rw [hl] at hk
            simp only [Option.map_some'] at hk
            injection hk with hk
            subst hk
            by_cases hcx : c = x
            · rw [if_pos hcx, ih m (p + 1) ks hl hxs]
              simp [hcx]
            · rw [if_neg hcx]
              simp
              intro h
              exact absurd h.symm hcx

theorem dict_find_loop_spec (buf name : List Nat) (h0 : 0 ∉ name) :
    ∀ (items : List (Int × lazy_entry)) (i0 : Nat),
    (∀ kv ∈ items, (c_str buf kv.1).isSome) →
    (∃ j child key, dict_find_loop buf name items i0 = some (some (i0 + j, child)) ∧
        items[j]? = some (key, child) ∧ c_str buf key = some name ∧
        ∀ k < j, ∀ kv, items[k]? = some kv → c_str buf kv.1 ≠ some name) ∨
    (dict_find_loop buf name items i0 = some none ∧
        ∀ kv ∈ items, c_str buf kv.1 ≠ some name) := by
  intro items
  induction items with
  | nil =>
    intro i0 _
    right
    exact ⟨rfl, by simp⟩
  | cons kv rest ih =>
    intro i0 hkeys
    obtain ⟨key, child⟩ := kv
    have hk := hkeys (key, child) (List.mem_cons_self _ _)
    obtain ⟨s, hs⟩ := Option.isSome_iff_exists.mp hk
    have hcmp := strcmp_eq_c_str buf name _ key s hs h0
    unfold dict_find_loop
    simp only at hs
    by_cases hns : name = s
    · left
      rw [hcmp]
      simp only [hns, decide_True]
      refine ⟨0, child, key, rfl, by simp, ?_, ?_⟩
      · rw [hs]
      · intro k hk0
        omega
    · rw [hcmp]
      simp only [hns, decide_False]
      have hne : c_str buf key ≠ some name := by
        rw [hs]
        intro h
        injection h with h
        exact hns h.symm
      rcases ih (i0 + 1) (fun kv h => hkeys kv (List.mem_cons_of_mem _ h)) with
        ⟨j, child1, key1, hf, hj, hc, hall⟩ | ⟨hf, hall⟩
      · left
        refine ⟨j + 1, child1, key1, ?_, ?_, hc, ?_⟩
        · rw [hf]
          congr 3
          omega
        · simpa using hj
        · intro k hk1 kv1 hkv
          cases k with
          | zero =>
            simp only [List.getElem?_cons_zero, Option.some.injEq] at hkv
            subst hkv
            exact hne
          | succ k1 =>
            simp only [List.getElem?_cons_succ] at hkv
            exact hall k1 (by omega) kv1 hkv
      · right
        refine ⟨hf, ?_⟩
        intro kv1 hkv
        rcases List.mem_cons.mp hkv with h | h
        · subst h
          exact hne
        · exact hall kv1 h

/-- C12, as stated, fails for keys that contain a NUL byte: the dictionary decoded from the
encoding of the value with the single key `a NUL b` (three bytes) yields its child for the
name `a`, which is not equal to that key. -/
theorem dict_find_stops_at_nul :
    lazy_bdecode (encode (.dict [([97, 0, 98], .int 1)])) .none_t 1000 =
      .returned 0 [0, 0, 58, 97, 0, 98, 0, 49, 0, 0] (.dict_t [(3, .int_t 7)]) ∧
    dict_find [0, 0, 58, 97, 0, 98, 0, 49, 0, 0] (.dict_t [(3, .int_t 7)]) [97] =
      some (some (0, .int_t 7)) ∧
    ([97, 0, 98] : List Nat) ≠ [97] :=
  ⟨rfl, rfl, by decide⟩

/-- C12, amended: `dict_find(name)` compares with `strcmp`, so a key counts up to its first
NUL byte.  In a dictionary whose keys are NUL-terminated inside the buffer it returns the
child of pair `i` exactly when pair `i` is the first pair whose key, read as a C string,
equals `name`, and it returns the null pointer exactly when no pair has such a key.  (The
function has no effect on the entry: it only reads it.) -/
theorem dict_find_first_match (buf name : List Nat) (items : List (Int × lazy_entry))
    (h0 : 0 ∉ name) (hkeys : ∀ kv ∈ items, (c_str buf kv.1).isSome) :
    (∀ (i : Nat) (child : lazy_entry),
      dict_find buf (.dict_t items) name = some (some (i, child)) ↔
        ∃ key, items[i]? = some (key, child) ∧ c_str buf key = some name ∧
          ∀ k < i, ∀ kv, items[k]? = some kv → c_str buf kv.1 ≠ some name) ∧
    (dict_find buf (.dict_t items) name = some none ↔
      ∀ kv ∈ items, c_str buf kv.1 ≠ some name) := by
  have hspec := dict_find_loop_spec buf name h0 items 0 hkeys
  simp only [Nat.zero_add] at hspec
  have hdef : dict_find buf (.dict_t items) name = dict_find_loop buf name items 0 := rfl
  rw [hdef]
  rcases hspec with ⟨j, child1, key1, hf, hj, hc, hall⟩ | ⟨hf, hall⟩
  · rw [hf]
    constructor
    · intro i child
      constructor
      · intro h
        simp only [Option.some.injEq, Prod.mk.injEq] at h
        obtain ⟨rfl, rfl⟩ := h
        exact ⟨key1, hj, hc, hall⟩
      · rintro ⟨key, hi, hci, halli⟩
        rcases Nat.lt_trichotomy i j with hlt | heq | hgt
        · exact absurd hci (hall i hlt _ hi)
        · subst heq
          rw [hj] at hi
          simp only [Option.some.injEq, Prod.mk.injEq] at hi
          rw [hi.2]
        · exact absurd hc (halli j hgt _ hj)
    · constructor
      · intro h
        simp at h
      · intro h
        exact absurd hc (h _ (List.getElem?_mem hj))
  · rw [hf]
    constructor
    · intro i child
      constructor
      · intro h
        simp at h
      · rintro ⟨key, hi, hci, _⟩
        exact absurd hci (hall _ (List.getElem?_mem hi))
    · exact ⟨fun _ => hall, fun _ => rfl⟩

/-- The statement of `dict_find_first_match` for the dictionary decoded from
`d1:ai5e1:bi7e1:bi9ee` and the name `b`: the child found is the one of pair 1, the first of
the two pairs with key `b`. -/
theorem dict_find_first_match_witness :
    0 ∉ [98] ∧
    (∀ kv ∈ [((3 : Int), lazy_entry.int_t 5), (9, .int_t 11), (15, .int_t 17)],
      (c_str [0, 0, 58, 97, 0, 53, 0, 0, 58, 98, 0, 55, 0, 0, 58, 98, 0, 57, 0, 0]
        kv.1).isSome) ∧
    lazy_bdecode (bytes "d1:ai5e1:bi7e1:bi9ee") .none_t 1000 =
      .returned 0 [0, 0, 58, 97, 0, 53, 0, 0, 58, 98, 0, 55, 0, 0, 58, 98, 0, 57, 0, 0]
        (.dict_t [(3, .int_t 5), (9, .int_t 11), (15, .int_t 17)]) ∧
    dict_find [0, 0, 58, 97, 0, 53, 0, 0, 58, 98, 0, 55, 0, 0, 58, 98, 0, 57, 0, 0]
      (.dict_t [(3, .int_t 5), (9, .int_t 11), (15, .int_t 17)]) [98] =
        some (some (1, .int_t 11)) :=
  ⟨by decide,
    by
      intro kv h
      simp only [List.mem_cons, List.mem_singleton, List.not_mem_nil, or_false] at h
      rcases h with rfl | rfl | rfl <;> rfl,
    rfl,
    ((dict_find_first_match
      [0, 0, 58, 97, 0, 53, 0, 0, 58, 98, 0, 55, 0, 0, 58, 98, 0, 57, 0, 0] [98]
      [(3, .int_t 5), (9, .int_t 11), (15, .int_t 17)] (by decide)
      (by
        intro kv h
        simp only [List.mem_cons, List.mem_singleton, List.not_mem_nil, or_false] at h
        rcases h with rfl | rfl | rfl <;> rfl)).1 1 (.int_t 11)).2
      ⟨9, rfl, rfl, by
        intro k hk kv hkv
        have hk0 : k = 0 := by omega
        subst hk0
        simp only [List.getElem?_cons_zero, Option.some.injEq] at hkv
        subst hkv
        decide⟩⟩

/-! ## The disk buffer pool: one allocation -/

theorem tdiv_two_bounds (a : Int) (h : 0 ≤ a) : 0 ≤ a.tdiv 2 ∧ a.tdiv 2 ≤ a := by
  rw [Int.tdiv_eq_ediv h (by norm_num)]
  omega

theorem trigger_trim_fields (p : disk_buffer_pool) :
    (trigger_trim p).m_exceeded_max_size = true ∧
    (trigger_trim p).trim_calls = p.trim_calls + 1 ∧
    (trigger_trim p).m_in_use = p.m_in_use ∧
    (trigger_trim p).m_max_use = p.m_max_use ∧
    (trigger_trim p).m_low_watermark = p.m_low_watermark ∧
    (trigger_trim p).m_handlers = p.m_handlers ∧
    (trigger_trim p).m_observers = p.m_observers ∧
    (trigger_trim p).m_cache_pool = p.m_cache_pool ∧
    (trigger_trim p).m_free_list = p.m_free_list ∧
    (trigger_trim p).posted = p.posted :=
  ⟨rfl, rfl, rfl, rfl, rfl, rfl, rfl, rfl, rfl, rfl⟩

theorem count_block_fields (p : disk_buffer_pool) :
    (count_block p).m_in_use = p.m_in_use + 1 ∧
    (count_block p).m_max_use = p.m_max_use ∧
    (count_block p).m_low_watermark = p.m_low_watermark ∧
    (count_block p).m_handlers = p.m_handlers ∧
    (count_block p).m_observers = p.m_observers ∧
    (count_block p).m_cache_pool = p.m_cache_pool ∧
    (count_block p).m_free_list = p.m_free_list ∧
    (count_block p).posted = p.posted ∧
    (p.m_exceeded_max_size = true →
      (count_block p).m_exceeded_max_size = true ∧ (count_block p).trim_calls = p.trim_calls) ∧
    (p.m_exceeded_max_size = false →
      p.m_in_use + 1 ≥ p.m_low_watermark + (p.m_max_use - p.m_low_watermark).tdiv 2 →
      (count_block p).m_exceeded_max_size = true ∧
        (count_block p).trim_calls = p.trim_calls + 1) ∧
    (p.m_exceeded_max_size = false →
      p.m_in_use + 1 < p.m_low_watermark + (p.m_max_use - p.m_low_watermark).tdiv 2 →
      (count_block p).m_exceeded_max_size = false ∧
        (count_block p).trim_calls = p.trim_calls) := by
  unfold count_block
  simp only
  split_ifs with h
  · refine ⟨rfl, rfl, rfl, rfl, rfl, rfl, rfl, rfl, ?_, ?_, ?_⟩
    · intro he
      rw [he] at h
      simp at h
    · intro _ _
      exact ⟨rfl, rfl⟩
    · intro _ hlt
      omega
  · refine ⟨rfl, rfl, rfl, rfl, rfl, rfl, rfl, rfl, ?_, ?_, ?_⟩
    · intro he
      exact ⟨he, rfl⟩
    · intro he hge
      exact absurd ⟨hge, he⟩ h
    · intro he _
      exact ⟨he, rfl⟩

/-- What one allocation does to the pool: the members it leaves alone, the
count of blocks, and the pressure flag. -/
theorem allocate_buffer_impl_fields (p : disk_buffer_pool) (c : Nat) (m : Option Int) :
    (allocate_buffer_impl p c m).1.m_handlers = p.m_handlers ∧
    (allocate_buffer_impl p c m).1.m_observers = p.m_observers ∧
    (allocate_buffer_impl p c m).1.posted = p.posted ∧
    (allocate_buffer_impl p c m).1.m_max_use = p.m_max_use ∧
    (allocate_buffer_impl p c m).1.m_low_watermark = p.m_low_watermark ∧
    (allocate_buffer_impl p c m).1.m_cache_pool = p.m_cache_pool ∧
    (allocate_buffer_impl p c m).1.m_in_use =
      p.m_in_use + ((allocate_buffer_impl p c m).2.toList.length : Int) ∧
    (p.m_exceeded_max_size = true →
      (allocate_buffer_impl p c m).1.m_exceeded_max_size = true) ∧
    ((allocate_buffer_impl p c m).2 = none →
      (allocate_buffer_impl p c m).1.m_exceeded_max_size = true) ∧
    (p.m_in_use + 1 ≥ p.m_low_watermark + (p.m_max_use - p.m_low_watermark).tdiv 2 →
      (allocate_buffer_impl p c m).2 ≠ none →
      (allocate_buffer_impl p c m).1.m_exceeded_max_size = true) := by
  unfold allocate_buffer_impl
  cases hcp : p.m_cache_pool with
  | none =>
    cases m with
    | none =>
      simp only [Option.toList, List.length_nil, Nat.cast_zero, add_zero]
      split_ifs <;> simp [trigger_trim, hcp]
    | some ret =>
      simp only [Option.toList, List.length_singleton, Nat.cast_one, count_block, trigger_trim]
      split_ifs <;> simp_all
  | some base =>
    simp only [count_block, trigger_trim]
    cases hfl : p.m_free_list.getLast? with
    | none =>
      have hnn : 0 ≤ (p.m_max_use - p.m_low_watermark).tdiv 2 % 18446744073709551616 :=
        Int.emod_nonneg _ (by norm_num)
      split_ifs <;> simp_all
    | some slot =>
      split_ifs <;> simp_all

/-- A successful allocation calls the trim trigger once when it takes the pool
into pressure, and not at all otherwise. -/
theorem allocate_buffer_impl_trim_calls (p : disk_buffer_pool) (c : Nat) (m : Option Int)
    (hret : (allocate_buffer_impl p c m).2 ≠ none) :
    (allocate_buffer_impl p c m).1.trim_calls =
      p.trim_calls + (if p.m_exceeded_max_size = false ∧
        (allocate_buffer_impl p c m).1.m_exceeded_max_size = true then 1 else 0) := by
  revert hret
  unfold allocate_buffer_impl
  cases hcp : p.m_cache_pool with
  | none =>
    cases m with
    | none => simp
    | some ret =>
      simp only [count_block, trigger_trim]
      split_ifs <;> simp_all
  | some base =>
    simp only [count_block, trigger_trim]
    cases hfl : p.m_free_list.getLast? with
    | none =>
      split_ifs <;> simp_all
    | some slot =>
      split_ifs <;> simp_all

/-- The block an allocation returns: from the heap whatever `malloc` answers, from
the memory-mapped cache a slot unless the free list is empty. -/
theorem allocate_buffer_impl_result (p : disk_buffer_pool) (c : Nat) (m : Option Int) :
    (p.m_cache_pool = none → (allocate_buffer_impl p c m).2 = m) ∧
    (p.m_cache_pool ≠ none →
      ((allocate_buffer_impl p c m).2 = none ↔ p.m_free_list = [])) := by
  unfold allocate_buffer_impl
  cases hcp : p.m_cache_pool with
  | none =>
    cases m with
    | none => simp
    | some ret => simp
  | some base =>
    simp only [trigger_trim]
    cases hfl : p.m_free_list.getLast? with
    | none =>
      split_ifs <;> simp_all
    | some slot =>
      have hne : p.m_free_list ≠ [] := by
        intro h
        rw [h] at hfl
        simp at hfl
      split_ifs <;> simp_all

/-- In the memory-mapped cache every block in use is a slot missing from the
free list. -/
theorem allocate_buffer_impl_slots (p : disk_buffer_pool) (c : Nat) (m : Option Int)
    (hcp : p.m_cache_pool ≠ none) :
    (allocate_buffer_impl p c m).1.m_in_use +
        ((allocate_buffer_impl p c m).1.m_free_list.length : Int) =
      p.m_in_use + (p.m_free_list.length : Int) := by
  revert hcp
  unfold allocate_buffer_impl
  cases hcp : p.m_cache_pool with
  | none => simp
  | some base =>
    simp only [count_block, trigger_trim]
    cases hfl : p.m_free_list.getLast? with
    | none =>
      split_ifs <;> simp_all
    | some slot =>
      have hne : p.m_free_list ≠ [] := by
        intro h
        rw [h] at hfl
        simp at hfl
      have hlen : 0 < p.m_free_list.length := List.length_pos.mpr hne
      split_ifs <;> simp_all

/-! ## The disk buffer pool: the loop of a wake -/

/-- Whatever an allocation preserves, the loop of a wake preserves. -/
theorem drain_preserves (J : disk_buffer_pool → Prop)
    (hJ : ∀ p c m, J p → J (allocate_buffer_impl p c m).1) (ms : Nat → Option Int) :
    ∀ (hs : List handler_t) (p : disk_buffer_pool) (i : Nat), J p → J (drain ms p i hs).1 := by
  intro hs
  induction hs with
  | nil =>
    intro p i h
    exact h
  | cons h rest ih =>
    intro p i hp
    unfold drain
    simp only
    split_ifs with hc
    · exact ih _ _ (hJ p h.category (ms i) hp)
    · exact hJ p h.category (ms i) hp

/-- The members the loop of a wake leaves alone, and the count of blocks after it. -/
theorem drain_fields (ms : Nat → Option Int) :
    ∀ (hs : List handler_t) (p : disk_buffer_pool) (i : Nat),
    (drain ms p i hs).1.m_handlers = p.m_handlers ∧
    (drain ms p i hs).1.m_observers = p.m_observers ∧
    (drain ms p i hs).1.posted = p.posted ∧
    (drain ms p i hs).1.m_max_use = p.m_max_use ∧
    (drain ms p i hs).1.m_low_watermark = p.m_low_watermark ∧
    (drain ms p i hs).1.m_cache_pool = p.m_cache_pool ∧
    (drain ms p i hs).1.m_in_use =
      p.m_in_use + ((blocks_of (drain ms p i hs).2.1).length : Int) := by
  intro hs
  induction hs with
  | nil =>
    intro p i
    simp [drain, blocks_of]
  | cons h rest ih =>
    intro p i
    obtain ⟨a1, a2, a3, a4, a5, a6, a7, _⟩ := allocate_buffer_impl_fields p h.category (ms i)
    have hb : ∀ (l : List handler_t),
        ((blocks_of ({ h with buffer := (allocate_buffer_impl p h.category (ms i)).2 } :: l)).length
          : Int) = ((allocate_buffer_impl p h.category (ms i)).2.toList.length : Int) +
            ((blocks_of l).length : Int) := by
      intro l
      unfold blocks_of
      cases (allocate_buffer_impl p h.category (ms i)).2 with
      | none => simp [List.filterMap_cons]
      | some b =>
        simp [List.filterMap_cons]
        omega
    unfold drain
    simp only
    split_ifs with hc
    · obtain ⟨b1, b2, b3, b4, b5, b6, b7⟩ := ih (allocate_buffer_impl p h.category (ms i)).1 (i + 1)
      refine ⟨b1.trans a1, b2.trans a2, b3.trans a3, b4.trans a4, b5.trans a5, b6.trans a6, ?_⟩
      rw [b7, a7, hb]
      omega
    · refine ⟨a1, a2, a3, a4, a5, a6, ?_⟩
      rw [a7, hb]
      simp [blocks_of]

/-- The loop of a wake splits the queue: the visited handlers are a prefix of it
(with the buffers assigned), the handlers left are the rest of it, unchanged.
Every visited handler but the last holds a block, and the loop leaves through
`break` only under pressure and with handlers left. -/
theorem drain_split (ms : Nat → Option Int) :
    ∀ (hs : List handler_t) (p : disk_buffer_pool) (i : Nat),
    (∃ Q1, hs = Q1 ++ (drain ms p i hs).2.2.getD [] ∧
      (drain ms p i hs).2.1.map (fun h => (h.category, h.callback)) =
        Q1.map (fun h => (h.category, h.callback))) ∧
    (∀ h ∈ (drain ms p i hs).2.1.dropLast, h.buffer ≠ none) ∧
    (p.m_cache_pool = none →
      (drain ms p i hs).2.1.map (fun h => h.buffer) =
        (List.range' i (drain ms p i hs).2.1.length).map ms) ∧
    (∀ rem, (drain ms p i hs).2.2 = some rem →
      rem ≠ [] ∧ (drain ms p i hs).1.m_exceeded_max_size = true) := by
  intro hs
  induction hs with
  | nil =>
    intro p i
    simp [drain]
  | cons h rest ih =>
    intro p i
    obtain ⟨_, _, _, _, _, a6, _, _, a9, _⟩ := allocate_buffer_impl_fields p h.category (ms i)
    have hres := (allocate_buffer_impl_result p h.category (ms i)).1
    unfold drain
    simp only
    split_ifs with hc
    · obtain ⟨⟨Q1, hq, hmap⟩, hbuf, hheap, hbrk⟩ :=
        ih (allocate_buffer_impl p h.category (ms i)).1 (i + 1)
      refine ⟨⟨h :: Q1, ?_, ?_⟩, ?_, ?_, hbrk⟩
      · rw [List.cons_append, ← hq]
      · simp only [List.map_cons, hmap]
      · intro x hx
        cases hd : (drain ms (allocate_buffer_impl p h.category (ms i)).1 (i + 1) rest).2.1 with
        | nil =>
          rw [hd] at hx
          simp at hx
        | cons y ys =>
          rw [hd, List.dropLast_cons₂] at hx
          rcases List.mem_cons.mp hx with hx | hx
          · subst hx
            simp only
            intro hnone
            rcases hc with hc | hc
            · rw [a9 hnone] at hc
              cases hc
            · have : rest = [] := by simpa using hc
              subst this
              simp [drain] at hd
          · apply hbuf
            rw [hd]
            exact hx
      · intro hcp
        simp only [List.map_cons, List.length_cons, List.range'_succ]
        rw [hheap (a6.trans hcp), hres hcp]
    · refine ⟨⟨[h], ?_, ?_⟩, ?_, ?_, ?_⟩
      · simp
      · simp
      · simp
      · intro hcp
        simp [hres hcp]
      · intro rem hrem
        simp only [Option.some.injEq] at hrem
        subst hrem
        push_neg at hc
        refine ⟨?_, by simpa using hc.1⟩
        intro h0
        rw [h0] at hc
        simp at hc

/-! ## The disk buffer pool: freeing and the wake -/

/-- What freeing one block does to the pool. -/
theorem free_buffer_impl_fields (p : disk_buffer_pool) (buf : Int) :
    (free_buffer_impl p buf).m_in_use = p.m_in_use - 1 ∧
    (free_buffer_impl p buf).m_exceeded_max_size = p.m_exceeded_max_size ∧
    (free_buffer_impl p buf).m_handlers = p.m_handlers ∧
    (free_buffer_impl p buf).m_observers = p.m_observers ∧
    (free_buffer_impl p buf).posted = p.posted ∧
    (free_buffer_impl p buf).trim_calls = p.trim_calls ∧
    (free_buffer_impl p buf).m_max_use = p.m_max_use ∧
    (free_buffer_impl p buf).m_low_watermark = p.m_low_watermark ∧
    (free_buffer_impl p buf).m_cache_pool = p.m_cache_pool ∧
    (p.m_cache_pool ≠ none →
      (free_buffer_impl p buf).m_free_list.length = p.m_free_list.length + 1) := by
  unfold free_buffer_impl
  cases hcp : p.m_cache_pool with
  | none =>
    simp only
    split_ifs <;> simp [hcp]
  | some base =>
    simp only
    split_ifs <;> simp [hcp]

/-- What freeing a vector of blocks does to the pool, before the level is checked. -/
theorem free_all_fields : ∀ (bufs : List Int) (p : disk_buffer_pool),
    (bufs.foldl free_buffer_impl p).m_in_use = p.m_in_use - (bufs.length : Int) ∧
    (bufs.foldl free_buffer_impl p).m_exceeded_max_size = p.m_exceeded_max_size ∧
    (bufs.foldl free_buffer_impl p).m_handlers = p.m_handlers ∧
    (bufs.foldl free_buffer_impl p).m_observers = p.m_observers ∧
    (bufs.foldl free_buffer_impl p).posted = p.posted ∧
    (bufs.foldl free_buffer_impl p).trim_calls = p.trim_calls ∧
    (bufs.foldl free_buffer_impl p).m_max_use = p.m_max_use ∧
    (bufs.foldl free_buffer_impl p).m_low_watermark = p.m_low_watermark ∧
    (bufs.foldl free_buffer_impl p).m_cache_pool = p.m_cache_pool ∧
    (p.m_cache_pool ≠ none →
      (bufs.foldl free_buffer_impl p).m_free_list.length =
        p.m_free_list.length + bufs.length) := by
  intro bufs
  induction bufs with
  | nil =>
    intro p
    simp
  | cons b bs ih =>
    intro p
    obtain ⟨a1, a2, a3, a4, a5, a6, a7, a8, a9, a10⟩ := free_buffer_impl_fields p b
    obtain ⟨b1, b2, b3, b4, b5, b6, b7, b8, b9, b10⟩ := ih (free_buffer_impl p b)
    simp only [List.foldl_cons, List.length_cons]
    refine ⟨?_, b2.trans a2, b3.trans a3, b4.trans a4, b5.trans a5, b6.trans a6,
      b7.trans a7, b8.trans a8, b9.trans a9, ?_⟩
    · rw [b1, a1]
      push_cast
      omega
    · intro hcp
      rw [b10 (by rw [a9]; exact hcp), a10 hcp]
      omega

/-- Outside the wake condition `check_buffer_level` does nothing. -/
theorem check_buffer_level_idle (p : disk_buffer_pool) (ms : Nat → Option Int)
    (h : ¬(p.m_exceeded_max_size = true ∧ p.m_in_use ≤ p.m_low_watermark)) :
    check_buffer_level p ms = p := by
  unfold check_buffer_level
  rw [if_pos]
  by_cases he : p.m_exceeded_max_size = true
  · right
    by_contra hle
    exact h ⟨he, by omega⟩
  · left
    simpa using he

/-- Under the wake condition `check_buffer_level` runs the loop over the queue
from a pool out of pressure, keeps the handlers the loop left, and posts the
visited handlers once, with the observers exactly when the loop visited the
whole queue and the pool stayed out of pressure. -/
theorem check_buffer_level_wake (p : disk_buffer_pool) (ms : Nat → Option Int)
    (he : p.m_exceeded_max_size = true) (hl : p.m_in_use ≤ p.m_low_watermark) :
    (check_buffer_level p ms).m_handlers =
      (drain ms { p with m_exceeded_max_size := false } 0 p.m_handlers).2.2.getD [] ∧
    (check_buffer_level p ms).m_in_use =
      (drain ms { p with m_exceeded_max_size := false } 0 p.m_handlers).1.m_in_use ∧
    (check_buffer_level p ms).m_exceeded_max_size =
      (drain ms { p with m_exceeded_max_size := false } 0 p.m_handlers).1.m_exceeded_max_size ∧
    (check_buffer_level p ms).m_max_use = p.m_max_use ∧
    (check_buffer_level p ms).m_low_watermark = p.m_low_watermark ∧
    (check_buffer_level p ms).m_cache_pool = p.m_cache_pool ∧
    (check_buffer_level p ms).m_free_list =
      (drain ms { p with m_exceeded_max_size := false } 0 p.m_handlers).1.m_free_list ∧
    (∃ cbs, (check_buffer_level p ms).posted = p.posted ++ [.watermark_callback cbs
        (some (drain ms { p with m_exceeded_max_size := false } 0 p.m_handlers).2.1)] ∧
      (((drain ms { p with m_exceeded_max_size := false } 0 p.m_handlers).2.2 = none ∧
        (drain ms { p with m_exceeded_max_size := false } 0 p.m_handlers).1.m_exceeded_max_size
          = false) →
        cbs = some p.m_observers ∧ (check_buffer_level p ms).m_observers = []) ∧
      (¬((drain ms { p with m_exceeded_max_size := false } 0 p.m_handlers).2.2 = none ∧
        (drain ms { p with m_exceeded_max_size := false } 0 p.m_handlers).1.m_exceeded_max_size
          = false) →
        cbs = none ∧ (check_buffer_level p ms).m_observers = p.m_observers)) := by
  obtain ⟨_, d2, d3, d4, d5, d6, _⟩ :=
    drain_fields ms p.m_handlers { p with m_exceeded_max_size := false } 0
  simp only at d2 d3 d4 d5 d6
  unfold check_buffer_level
  rw [if_neg (by rw [he]; simp; omega)]
  simp only
  cases hrem : (drain ms { p with m_exceeded_max_size := false } 0 p.m_handlers).2.2 with
  | some rem =>
    simp only [Option.getD_some, true_and]
    refine ⟨d4, d5, d6, ⟨none, ?_, ?_, ?_⟩⟩
    · rw [d3]
    · intro h
      simp at h
    · intro _
      exact ⟨rfl, d2⟩
  | none =>
    simp only [Option.getD_none]
    split_ifs with hx
    · simp only [true_and]
      refine ⟨d4, d5, d6, ⟨none, ?_, ?_, ?_⟩⟩
      · rw [d3]
      · intro h
        rw [hx] at h
        simp at h
      · intro _
        exact ⟨rfl, d2⟩
    · simp only [true_and]
      refine ⟨d4, d5, d6, ⟨some p.m_observers, ?_, ?_, ?_⟩⟩
      · rw [d3, d2]
      · simp
      · intro h
        exact absurd (by simpa using hx) h

/-! ## The disk buffer pool: claims about the allocation functions -/

/-- The variant of `allocate_buffer` with an observer makes the same allocation
attempt; it only adds the observer and sets the flag. -/
theorem allocate_buffer_observer_fields (p : disk_buffer_pool) (e : Bool) (o : Option Nat)
    (c : Nat) (m : Option Int) :
    (allocate_buffer_observer p e o c m).2.1 = (allocate_buffer_impl p c m).2 ∧
    (allocate_buffer_observer p e o c m).1.m_in_use = (allocate_buffer_impl p c m).1.m_in_use ∧
    (allocate_buffer_observer p e o c m).1.m_max_use = p.m_max_use ∧
    (allocate_buffer_observer p e o c m).1.m_low_watermark = p.m_low_watermark ∧
    (allocate_buffer_observer p e o c m).1.m_cache_pool = p.m_cache_pool ∧
    (allocate_buffer_observer p e o c m).1.m_free_list =
      (allocate_buffer_impl p c m).1.m_free_list ∧
    (allocate_buffer_observer p e o c m).1.m_exceeded_max_size =
      (allocate_buffer_impl p c m).1.m_exceeded_max_size ∧
    (allocate_buffer_observer p e o c m).1.trim_calls =
      (allocate_buffer_impl p c m).1.trim_calls ∧
    (allocate_buffer_observer p e o c m).1.m_handlers = p.m_handlers ∧
    (allocate_buffer_observer p e o c m).1.posted = p.posted ∧
    (allocate_buffer_observer p e o c m).1.m_observers =
      (if (allocate_buffer_impl p c m).1.m_exceeded_max_size = true
        then p.m_observers ++ o.toList else p.m_observers) ∧
    (allocate_buffer_observer p e o c m).2.2 =
      (if (allocate_buffer_impl p c m).1.m_exceeded_max_size = true then true else e) := by
  obtain ⟨a1, a2, a3, a4, a5, a6, _⟩ := allocate_buffer_impl_fields p c m
  unfold allocate_buffer_observer
  simp only
  split_ifs with hx
  · cases o with
    | none => simp [a1, a2, a3, a4, a5, a6]
    | some ob => simp [a1, a2, a3, a4, a5, a6]
  · simp [a1, a2, a3, a4, a5, a6]

/-- C15: in a pool with `low_watermark <= max_use`, an allocation that succeeds and leaves
`in_use >= max_use` leaves `exceeded_max_size` true, and if the flag was false before the
call the trim trigger has been invoked exactly once by the call.  This holds for
`allocate_buffer_impl` and for the three public functions that allocate through it. -/
theorem allocation_enters_pressure (p : disk_buffer_pool) (c : Nat) (m : Option Int)
    (e : Bool) (o : Option Nat) (handler : Nat)
    (hlow : p.m_low_watermark ≤ p.m_max_use) :
    ((allocate_buffer_impl p c m).2 ≠ none →
      (allocate_buffer_impl p c m).1.m_in_use ≥ (allocate_buffer_impl p c m).1.m_max_use →
      (allocate_buffer_impl p c m).1.m_exceeded_max_size = true ∧
      (p.m_exceeded_max_size = false →
        (allocate_buffer_impl p c m).1.trim_calls = p.trim_calls + 1)) ∧
    ((allocate_buffer p c m).2 ≠ none →
      (allocate_buffer p c m).1.m_in_use ≥ (allocate_buffer p c m).1.m_max_use →
      (allocate_buffer p c m).1.m_exceeded_max_size = true ∧
      (p.m_exceeded_max_size = false →
        (allocate_buffer p c m).1.trim_calls = p.trim_calls + 1)) ∧
    ((allocate_buffer_observer p e o c m).2.1 ≠ none →
      (allocate_buffer_observer p e o c m).1.m_in_use ≥
        (allocate_buffer_observer p e o c m).1.m_max_use →
      (allocate_buffer_observer p e o c m).1.m_exceeded_max_size = true ∧
      (p.m_exceeded_max_size = false →
        (allocate_buffer_observer p e o c m).1.trim_calls = p.trim_calls + 1)) ∧
    ((async_allocate_buffer p c handler m).2 ≠ none →
      (async_allocate_buffer p c handler m).1.m_in_use ≥
        (async_allocate_buffer p c handler m).1.m_max_use →
      (async_allocate_buffer p c handler m).1.m_exceeded_max_size = true ∧
      (p.m_exceeded_max_size = false →
        (async_allocate_buffer p c handler m).1.trim_calls = p.trim_calls + 1)) := by
  have himpl : (allocate_buffer_impl p c m).2 ≠ none →
      (allocate_buffer_impl p c m).1.m_in_use ≥ (allocate_buffer_impl p c m).1.m_max_use →
      (allocate_buffer_impl p c m).1.m_exceeded_max_size = true ∧
      (p.m_exceeded_max_size = false →
        (allocate_buffer_impl p c m).1.trim_calls = p.trim_calls + 1) := by
    intro hret hfull
    obtain ⟨_, _, _, a4, _, _, a7, _, _, a10⟩ := allocate_buffer_impl_fields p c m
    have hlen : ((allocate_buffer_impl p c m).2.toList.length : Int) = 1 := by
      cases h : (allocate_buffer_impl p c m).2 with
      | none => exact absurd h hret
      | some b => simp
    have hb := tdiv_two_bounds (p.m_max_use - p.m_low_watermark) (by omega)
    have hex : (allocate_buffer_impl p c m).1.m_exceeded_max_size = true := by
      apply a10 _ hret
      rw [a7, a4, hlen] at hfull
      omega
    refine ⟨hex, ?_⟩
    intro hp
    rw [allocate_buffer_impl_trim_calls p c m hret, if_pos ⟨hp, hex⟩]
  obtain ⟨o1, o2, o3, _, _, _, o7, o8, _⟩ := allocate_buffer_observer_fields p e o c m
  refine ⟨himpl, himpl, ?_, ?_⟩
  · rw [o1, o2, o3, o7, o8]
    rw [← (allocate_buffer_impl_fields p c m).2.2.2.1]
    exact himpl
  · unfold async_allocate_buffer
    split_ifs with hx
    · intro h
      exact absurd rfl h
    · exact himpl

/-- The statement of `allocation_enters_pressure` for the first allocation from a pool
configured for one block: it takes `in_use` to `max_use = 1`, sets the flag and calls the
trim trigger for the first time. -/
theorem allocation_enters_pressure_witness :
    small_pool.m_low_watermark ≤ small_pool.m_max_use ∧
    (allocate_buffer small_pool 7 (some 4096)).2 ≠ none ∧
    (allocate_buffer small_pool 7 (some 4096)).1.m_in_use ≥
      (allocate_buffer small_pool 7 (some 4096)).1.m_max_use ∧
    small_pool.m_exceeded_max_size = false ∧
    (allocate_buffer small_pool 7 (some 4096)).1.m_exceeded_max_size = true ∧
    (allocate_buffer small_pool 7 (some 4096)).1.trim_calls = small_pool.trim_calls + 1 :=
  ⟨by decide, by decide, by decide, by decide,
    ((allocation_enters_pressure small_pool 7 (some 4096) false none 0 (by decide)).2.1
      (by decide) (by decide)).1,
    ((allocation_enters_pressure small_pool 7 (some 4096) false none 0 (by decide)).2.1
      (by decide) (by decide)).2 (by decide)⟩

/-- C16: under pressure `async_allocate_buffer(category, handler)` returns NULL, leaves
`in_use` and `exceeded_max_size` (and every other member) as they are and appends
`(category, handler, NULL)` at the end of the handler queue; out of pressure it returns
what the direct allocation returns, with the pool the direct allocation leaves, whose
queue is the old one. -/
theorem async_allocate_buffer_queues (p : disk_buffer_pool) (c handler : Nat)
    (m : Option Int) :
    (p.m_exceeded_max_size = true →
      (async_allocate_buffer p c handler m).2 = none ∧
      (async_allocate_buffer p c handler m).1.m_in_use = p.m_in_use ∧
      (async_allocate_buffer p c handler m).1.m_exceeded_max_size = true ∧
      (async_allocate_buffer p c handler m).1.m_handlers =
        p.m_handlers ++ [{ category := c, callback := handler, buffer := none }] ∧
      (async_allocate_buffer p c handler m).1 =
        { p with m_handlers := (async_allocate_buffer p c handler m).1.m_handlers }) ∧
    (p.m_exceeded_max_size = false →
      async_allocate_buffer p c handler m = allocate_buffer_impl p c m ∧
      (async_allocate_buffer p c handler m).1.m_handlers = p.m_handlers) := by
  constructor
  · intro he
    unfold async_allocate_buffer
    rw [if_pos he]
    exact ⟨rfl, rfl, he, rfl, rfl⟩
  · intro he
    unfold async_allocate_buffer
    rw [if_neg (by rw [he]; simp)]
    exact ⟨rfl, (allocate_buffer_impl_fields p c m).1⟩

/-- The statement of `async_allocate_buffer_queues` for a pool configured for one block:
the first request is served directly, the second one, made under pressure, is queued. -/
theorem async_allocate_buffer_queues_witness :
    small_pool.m_exceeded_max_size = false ∧
    async_allocate_buffer small_pool 7 1 (some 4096) =
      allocate_buffer_impl small_pool 7 (some 4096) ∧
    (async_allocate_buffer small_pool 7 1 (some 4096)).2 = some 4096 ∧
    (async_allocate_buffer small_pool 7 1 (some 4096)).1.m_exceeded_max_size = true ∧
    (async_allocate_buffer (async_allocate_buffer small_pool 7 1 (some 4096)).1 8 2
      (some 8192)).2 = none ∧
    (async_allocate_buffer (async_allocate_buffer small_pool 7 1 (some 4096)).1 8 2
      (some 8192)).1.m_handlers = [{ category := 8, callback := 2, buffer := none }] :=
  ⟨by decide,
    ((async_allocate_buffer_queues small_pool 7 1 (some 4096)).2 (by decide)).1,
    by decide, by decide,
    ((async_allocate_buffer_queues (async_allocate_buffer small_pool 7 1 (some 4096)).1 8 2
      (some 8192)).1 (by decide)).1,
    ((async_allocate_buffer_queues (async_allocate_buffer small_pool 7 1 (some 4096)).1 8 2
      (some 8192)).1 (by decide)).2.2.2.1⟩

/-- C17, as stated, fails: the pool configured for one block is under pressure after the
first allocation, and the next synchronous `allocate_buffer` still returns a block. -/
theorem allocate_buffer_succeeds_under_pressure :
    (allocate_buffer small_pool 7 (some 4096)).1.m_exceeded_max_size = true ∧
    (allocate_buffer (allocate_buffer small_pool 7 (some 4096)).1 7 (some 8192)).2 =
      some 8192 ∧
    (allocate_buffer (allocate_buffer small_pool 7 (some 4096)).1 7 (some 8192)).1.m_in_use
      = 2 := by
  decide

/-- C17, amended: `allocate_buffer(category)` does not look at `exceeded_max_size`.  On the
heap it returns what `malloc` returns, so NULL exactly when the heap is exhausted; from a
memory-mapped cache it returns NULL exactly when the free list is empty.  It never changes
the handler queue or the observers. -/
theorem allocate_buffer_result (p : disk_buffer_pool) (c : Nat) (m : Option Int) :
    (p.m_cache_pool = none → (allocate_buffer p c m).2 = m) ∧
    (p.m_cache_pool ≠ none → ((allocate_buffer p c m).2 = none ↔ p.m_free_list = [])) ∧
    (allocate_buffer p c m).1.m_handlers = p.m_handlers ∧
    (allocate_buffer p c m).1.m_observers = p.m_observers := by
  obtain ⟨a1, a2, _⟩ := allocate_buffer_impl_fields p c m
  obtain ⟨r1, r2⟩ := allocate_buffer_impl_result p c m
  exact ⟨r1, r2, a1, a2⟩

/-- The statement of `allocate_buffer_result` for a pool under pressure on the heap, and
for a memory-mapped cache of two slots after both have been taken. -/
theorem allocate_buffer_result_witness :
    (allocate_buffer small_pool 7 (some 4096)).1.m_cache_pool = none ∧
    (allocate_buffer small_pool 7 (some 4096)).1.m_exceeded_max_size = true ∧
    (allocate_buffer (allocate_buffer small_pool 7 (some 4096)).1 7 (some 8192)).2 =
      some 8192 ∧
    (allocate_buffer (allocate_buffer mapped_pool 7 none).1 7 none).1.m_cache_pool ≠ none ∧
    (allocate_buffer (allocate_buffer mapped_pool 7 none).1 7 none).1.m_free_list = [] ∧
    (allocate_buffer (allocate_buffer (allocate_buffer mapped_pool 7 none).1 7 none).1 7
      (some 8192)).2 = none :=
  ⟨by decide, by decide,
    (allocate_buffer_result (allocate_buffer small_pool 7 (some 4096)).1 7 (some 8192)).1
      (by decide),
    by decide, by decide,
    ((allocate_buffer_result (allocate_buffer (allocate_buffer mapped_pool 7 none).1 7 none).1
      7 (some 8192)).2.1 (by decide)).2 (by decide)⟩

/-- C18: `allocate_buffer(exceeded, observer, category)` makes the allocation attempt of
`allocate_buffer_impl` and returns its block.  If `exceeded_max_size` is true after the
attempt, the flag `exceeded` is set to true and the observer, when it is non-null, is
appended at the end of the observers (a null observer under pressure leaves the observers
as they are, the flag is set all the same).  If it is false, the observers and the flag
are unchanged.  The handler queue is never changed. -/
theorem allocate_buffer_observer_registers (p : disk_buffer_pool) (e : Bool)
    (o : Option Nat) (c : Nat) (m : Option Int) :
    (allocate_buffer_observer p e o c m).2.1 = (allocate_buffer_impl p c m).2 ∧
    (allocate_buffer_observer p e o c m).1.m_exceeded_max_size =
      (allocate_buffer_impl p c m).1.m_exceeded_max_size ∧
    (allocate_buffer_observer p e o c m).1.m_observers =
      (if (allocate_buffer_impl p c m).1.m_exceeded_max_size = true
        then p.m_observers ++ o.toList else p.m_observers) ∧
    ((allocate_buffer_observer p e o c m).1.m_observers ≠ p.m_observers ↔
      ((allocate_buffer_impl p c m).1.m_exceeded_max_size = true ∧ o ≠ none)) ∧
    (allocate_buffer_observer p e o c m).2.2 =
      (if (allocate_buffer_impl p c m).1.m_exceeded_max_size = true then true else e) ∧
    (allocate_buffer_observer p e o c m).1.m_handlers = p.m_handlers := by
  obtain ⟨o1, _, _, _, _, _, o7, _, o9, _, o11, o12⟩ :=
    allocate_buffer_observer_fields p e o c m
  refine ⟨o1, o7, o11, ?_, o12, o9⟩
  rw [o11]
  split_ifs with hx
  · cases o with
    | none => simp
    | some ob => simp [hx]
  · simp [hx]

/-! ## The disk buffer pool: claims about freeing and the wake -/

/-- C19: `free_buffer` and `free_multiple_buffers` run the wake exactly when, with the freed
blocks subtracted from `in_use`, `exceeded_max_size` is true and `in_use <= low_watermark`.
The wake posts one function object (`watermark_callback` with a batch of handlers) to the
executor; when the condition is false `exceeded_max_size`, the handler queue and the
observers are unchanged and nothing is posted. -/
theorem free_runs_wake (p : disk_buffer_pool) (buf : Int) (bufvec : List Int)
    (ms : Nat → Option Int) :
    ((p.m_exceeded_max_size = true ∧ p.m_in_use - 1 ≤ p.m_low_watermark) →
      ∃ cbs batch, (free_buffer p buf ms).posted =
        p.posted ++ [.watermark_callback cbs (some batch)]) ∧
    (¬(p.m_exceeded_max_size = true ∧ p.m_in_use - 1 ≤ p.m_low_watermark) →
      (free_buffer p buf ms).m_exceeded_max_size = p.m_exceeded_max_size ∧
      (free_buffer p buf ms).m_handlers = p.m_handlers ∧
      (free_buffer p buf ms).m_observers = p.m_observers ∧
      (free_buffer p buf ms).posted = p.posted) ∧
    ((p.m_exceeded_max_size = true ∧ p.m_in_use - (bufvec.length : Int) ≤ p.m_low_watermark) →
      ∃ cbs batch, (free_multiple_buffers p bufvec ms).posted =
        p.posted ++ [.watermark_callback cbs (some batch)]) ∧
    (¬(p.m_exceeded_max_size = true ∧
        p.m_in_use - (bufvec.length : Int) ≤ p.m_low_watermark) →
      (free_multiple_buffers p bufvec ms).m_exceeded_max_size = p.m_exceeded_max_size ∧
      (free_multiple_buffers p bufvec ms).m_handlers = p.m_handlers ∧
      (free_multiple_buffers p bufvec ms).m_observers = p.m_observers ∧
      (free_multiple_buffers p bufvec ms).posted = p.posted) := by
  obtain ⟨a1, a2, a3, a4, a5, _, _, a8, _⟩ := free_buffer_impl_fields p buf
  obtain ⟨b1, b2, b3, b4, b5, _, _, b8, _⟩ :=
    free_all_fields (bufvec.insertionSort (· ≤ ·)) p
  rw [List.length_insertionSort] at b1
  refine ⟨?_, ?_, ?_, ?_⟩
  · rintro ⟨he, hl⟩
    obtain ⟨_, _, _, _, _, _, _, cbs, hp, _⟩ :=
      check_buffer_level_wake (free_buffer_impl p buf) ms (a2.trans he) (by rw [a1, a8]; exact hl)
    exact ⟨cbs, _, by unfold free_buffer; rw [hp, a5]⟩
  · intro h
    unfold free_buffer
    rw [check_buffer_level_idle (free_buffer_impl p buf) ms (by rw [a1, a2, a8]; exact h)]
    exact ⟨a2, a3, a4, a5⟩
  · rintro ⟨he, hl⟩
    obtain ⟨_, _, _, _, _, _, _, cbs, hp, _⟩ :=
      check_buffer_level_wake ((bufvec.insertionSort (· ≤ ·)).foldl free_buffer_impl p) ms
        (b2.trans he) (by rw [b1, b8]; exact hl)
    exact ⟨cbs, _, by unfold free_multiple_buffers; rw [hp, b5]⟩
  · intro h
    unfold free_multiple_buffers
    rw [check_buffer_level_idle ((bufvec.insertionSort (· ≤ ·)).foldl free_buffer_impl p) ms
      (by rw [b1, b2, b8]; exact h)]
    exact ⟨b2, b3, b4, b5⟩

/-- The statement of `free_runs_wake` for two pools holding one block: the pool under
pressure with `low_watermark = 0` posts a batch when the block is freed, the new pool,
which is not under pressure, posts nothing. -/
theorem free_runs_wake_witness :
    (waiting_pool.m_exceeded_max_size = true ∧
      waiting_pool.m_in_use - 1 ≤ waiting_pool.m_low_watermark) ∧
    (∃ cbs batch, (free_buffer waiting_pool 4096 (fun _ => some 8192)).posted =
      waiting_pool.posted ++ [.watermark_callback cbs (some batch)]) ∧
    ¬((allocate_buffer (new_disk_buffer_pool 16384 false) 7 (some 4096)).1.m_exceeded_max_size
        = true ∧
      (allocate_buffer (new_disk_buffer_pool 16384 false) 7 (some 4096)).1.m_in_use - 1 ≤
        (allocate_buffer (new_disk_buffer_pool 16384 false) 7 (some 4096)).1.m_low_watermark) ∧
    (free_buffer (allocate_buffer (new_disk_buffer_pool 16384 false) 7 (some 4096)).1 4096
      (fun _ => some 8192)).posted = [] :=
  ⟨by decide,
    (free_runs_wake waiting_pool 4096 [] (fun _ => some 8192)).1 (by decide),
    by decide,
    ((free_runs_wake (allocate_buffer (new_disk_buffer_pool 16384 false) 7 (some 4096)).1 4096
      [] (fun _ => some 8192)).2.1 (by decide)).2.2.2⟩

/-- C20, as stated, fails: when the last block of the pool configured for one block is
freed while two requests wait and `malloc` fails, the wake posts the first handler without
a block (and keeps the second one queued). -/
theorem wake_posts_handler_without_block :
    (free_buffer waiting_pool 4096 (fun _ => none)).posted =
      [.watermark_callback none (some [{ category := 8, callback := 1, buffer := none }])] ∧
    (free_buffer waiting_pool 4096 (fun _ => none)).m_handlers =
      [{ category := 8, callback := 2, buffer := none }] := by
  decide

theorem map_erase_of_map_key (P Q1 : List handler_t)
    (h : P.map (fun h => (h.category, h.callback)) =
      Q1.map (fun h => (h.category, h.callback))) :
    P.map (fun h => { h with buffer := none }) =
      Q1.map (fun h => { h with buffer := none }) := by
  have hf : ∀ l : List handler_t, l.map (fun h => { h with buffer := none }) =
      (l.map (fun h => (h.category, h.callback))).map
        (fun k => ({ category := k.1, callback := k.2, buffer := none } : handler_t)) := by
    intro l
    simp [List.map_map, Function.comp_def]
  rw [hf P, hf Q1, h]

/-- C20, amended: a wake posts one batch `P` and leaves the queue `R` such that `Q` is `P`
with the assigned buffers taken off, followed by `R`: `P` is a prefix of `Q` in FIFO order,
`R` the untouched rest, nothing is dropped or duplicated.  Every handler of `P` except
possibly the last holds a block; on the heap handler number `i` of `P` holds what `malloc`
returned for it, so the last handler is posted without a block when `malloc` fails.  When
no handler of `Q` held a block, none in `R` does. -/
theorem check_buffer_level_splits_queue (p : disk_buffer_pool) (ms : Nat → Option Int)
    (he : p.m_exceeded_max_size = true) (hl : p.m_in_use ≤ p.m_low_watermark) :
    ∃ cbs P Q1,
      (check_buffer_level p ms).posted = p.posted ++ [.watermark_callback cbs (some P)] ∧
      p.m_handlers = Q1 ++ (check_buffer_level p ms).m_handlers ∧
      P.map (fun h => (h.category, h.callback)) = Q1.map (fun h => (h.category, h.callback)) ∧
      (∀ h ∈ P.dropLast, h.buffer ≠ none) ∧
      (p.m_cache_pool = none → P.map (fun h => h.buffer) = (List.range P.length).map ms) ∧
      ((∀ h ∈ p.m_handlers, h.buffer = none) →
        P.map (fun h => { h with buffer := none }) ++ (check_buffer_level p ms).m_handlers =
          p.m_handlers ∧
        ∀ h ∈ (check_buffer_level p ms).m_handlers, h.buffer = none) := by
  obtain ⟨w1, _, _, _, _, _, _, cbs, hp, _⟩ := check_buffer_level_wake p ms he hl
  obtain ⟨⟨Q1, hq, hmap⟩, hbuf, hheap, _⟩ :=
    drain_split ms p.m_handlers { p with m_exceeded_max_size := false } 0
  refine ⟨cbs, _, Q1, hp, ?_, hmap, hbuf, ?_, ?_⟩
  · rw [w1]
    exact hq
  · intro hcp
    rw [hheap hcp, List.range_eq_range']
  · intro hnone
    rw [w1]
    constructor
    · rw [map_erase_of_map_key _ _ hmap]
      have hQ1 : Q1.map (fun h => { h with buffer := none }) = Q1 := by
        conv_rhs => rw [← List.map_id Q1]
        apply List.map_congr_left
        intro h hh
        have := hnone h (by rw [hq]; exact List.mem_append_left _ hh)
        cases h
        simp only at this
        simp [this]
      rw [hQ1]
      exact hq.symm
    · intro h hh
      exact hnone h (by rw [hq]; exact List.mem_append_right _ hh)

/-- The statement of `check_buffer_level_splits_queue` for the pool configured for one
block in which two requests wait and the only block has just been freed. -/
theorem check_buffer_level_splits_queue_witness :
    (free_buffer_impl waiting_pool 4096).m_exceeded_max_size = true ∧
    (free_buffer_impl waiting_pool 4096).m_in_use ≤
      (free_buffer_impl waiting_pool 4096).m_low_watermark ∧
    (check_buffer_level (free_buffer_impl waiting_pool 4096) (fun _ => some 8192)).posted =
      [.watermark_callback none (some [{ category := 8, callback := 1, buffer := some 8192 }])] ∧
    ∃ cbs P Q1,
      (check_buffer_level (free_buffer_impl waiting_pool 4096) (fun _ => some 8192)).posted =
        (free_buffer_impl waiting_pool 4096).posted ++ [.watermark_callback cbs (some P)] ∧
      (free_buffer_impl waiting_pool 4096).m_handlers = Q1 ++
        (check_buffer_level (free_buffer_impl waiting_pool 4096)
          (fun _ => some 8192)).m_handlers ∧
      P.map (fun h => (h.category, h.callback)) = Q1.map (fun h => (h.category, h.callback)) ∧
      (∀ h ∈ P.dropLast, h.buffer ≠ none) ∧
      ((free_buffer_impl waiting_pool 4096).m_cache_pool = none →
        P.map (fun h => h.buffer) = (List.range P.length).map (fun _ => some 8192)) ∧
      ((∀ h ∈ (free_buffer_impl waiting_pool 4096).m_handlers, h.buffer = none) →
        P.map (fun h => { h with buffer := none }) ++
          (check_buffer_level (free_buffer_impl waiting_pool 4096)
            (fun _ => some 8192)).m_handlers =
          (free_buffer_impl waiting_pool 4096).m_handlers ∧
        ∀ h ∈ (check_buffer_level (free_buffer_impl waiting_pool 4096)
          (fun _ => some 8192)).m_handlers, h.buffer = none) :=
  ⟨by decide, by decide, by decide,
    check_buffer_level_splits_queue (free_buffer_impl waiting_pool 4096) (fun _ => some 8192)
      (by decide) (by decide)⟩

/-! ## The disk buffer pool: sequences of calls -/

theorem remove_blocks_length : ∀ (bufs allocated rest : List Int),
    remove_blocks allocated bufs = some rest → rest.length + bufs.length = allocated.length := by
  intro bufs
  induction bufs with
  | nil =>
    intro allocated rest h
    simp only [remove_blocks, Option.some.injEq] at h
    subst h
    simp
  | cons b bs ih =>
    intro allocated rest h
    unfold remove_blocks at h
    by_cases hb : b ∈ allocated
    · rw [if_pos hb] at h
      have h1 := ih _ _ h
      have h2 := List.length_erase_of_mem hb
      have h3 : 0 < allocated.length := List.length_pos_of_mem hb
      simp only [List.length_cons]
      omega
    · rw [if_neg hb] at h
      cases h

/-- The blocks a wake hands to the handlers it posts are the blocks by which
`in_use` grows. -/
theorem check_buffer_level_in_use (p : disk_buffer_pool) (ms : Nat → Option Int) :
    (check_buffer_level p ms).m_in_use =
      p.m_in_use + ((woken_blocks p (check_buffer_level p ms)).length : Int) := by
  by_cases h : p.m_exceeded_max_size = true ∧ p.m_in_use ≤ p.m_low_watermark
  · obtain ⟨_, w2, _, _, _, _, _, cbs, hp, _⟩ := check_buffer_level_wake p ms h.1 h.2
    obtain ⟨_, _, _, _, _, _, d7⟩ :=
      drain_fields ms p.m_handlers { p with m_exceeded_max_size := false } 0
    unfold woken_blocks
    rw [hp, List.drop_left, w2, d7]
    simp [posted_blocks]
  · rw [check_buffer_level_idle p ms h]
    simp [woken_blocks, posted_blocks]

theorem pool_ok_allocate_buffer_impl (p : disk_buffer_pool) (c : Nat) (m : Option Int)
    (h : pool_ok p) : pool_ok (allocate_buffer_impl p c m).1 := by
  obtain ⟨h1, h2, h3⟩ := h
  obtain ⟨_, _, _, a4, a5, a6, a7, a8, _, a10⟩ := allocate_buffer_impl_fields p c m
  have hb := tdiv_two_bounds (p.m_max_use - p.m_low_watermark) (by omega)
  refine ⟨by rw [a4, a5]; exact h1, ?_, ?_⟩
  · rw [a4, a7]
    intro hlt
    cases hr : (allocate_buffer_impl p c m).2 with
    | none =>
      rw [hr] at hlt
      simp only [Option.toList, List.length_nil, Nat.cast_zero, add_zero] at hlt
      exact a8 (h2 hlt)
    | some b =>
      rw [hr] at hlt
      simp only [Option.toList, List.length_singleton, Nat.cast_one] at hlt
      exact a10 (by omega) (by rw [hr]; simp)
  · intro hcp
    rw [a6] at hcp
    rw [allocate_buffer_impl_slots p c m hcp, a4]
    exact h3 hcp

theorem pool_ok_free_buffer_impl (p : disk_buffer_pool) (buf : Int) (h : pool_ok p) :
    pool_ok (free_buffer_impl p buf) := by
  obtain ⟨h1, h2, h3⟩ := h
  obtain ⟨a1, a2, _, _, _, _, a7, a8, a9, a10⟩ := free_buffer_impl_fields p buf
  refine ⟨by rw [a7, a8]; exact h1, ?_, ?_⟩
  · rw [a7, a1, a2]
    intro hlt
    exact h2 (by omega)
  · intro hcp
    rw [a9] at hcp
    rw [a1, a10 hcp, a7]
    have := h3 hcp
    push_cast
    omega

theorem pool_ok_free_all : ∀ (bufs : List Int) (p : disk_buffer_pool), pool_ok p →
    pool_ok (bufs.foldl free_buffer_impl p) := by
  intro bufs
  induction bufs with
  | nil =>
    intro p h
    exact h
  | cons b bs ih =>
    intro p h
    exact ih _ (pool_ok_free_buffer_impl p b h)

theorem pool_ok_check_buffer_level (p : disk_buffer_pool) (ms : Nat → Option Int)
    (h : pool_ok p) : pool_ok (check_buffer_level p ms) := by
  by_cases hw : p.m_exceeded_max_size = true ∧ p.m_in_use ≤ p.m_low_watermark
  · obtain ⟨_, w2, w3, w4, w5, w6, w7, _⟩ := check_buffer_level_wake p ms hw.1 hw.2
    obtain ⟨_, _, _, d4, d5, d6, _⟩ :=
      drain_fields ms p.m_handlers { p with m_exceeded_max_size := false } 0
    have h0 : pool_ok { p with m_exceeded_max_size := false } := by
      obtain ⟨h1, _, h3⟩ := h
      refine ⟨h1, ?_, h3⟩
      intro hlt
      simp only at hlt
      omega
    obtain ⟨j1, j2, j3⟩ := drain_preserves pool_ok pool_ok_allocate_buffer_impl ms
      p.m_handlers { p with m_exceeded_max_size := false } 0 h0
    simp only at d4 d6
    rw [d4] at j2 j3
    rw [d6] at j3
    refine ⟨?_, ?_, ?_⟩
    · rw [w4, w5]
      exact h.1
    · rw [w4, w2, w3]
      exact j2
    · rw [w6, w2, w7, w4]
      exact j3
  · rw [check_buffer_level_idle p ms hw]
    exact h

/-- One call keeps the bookkeeping of the client in agreement with the pool, and
keeps `pool_ok`. -/
theorem pool_trace_call_ok (t t1 : pool_trace) (c : pool_call) (h : t.call c = some t1) :
    (t.ok → t1.ok) ∧ (pool_ok t.pool → pool_ok t1.pool) := by
  cases c with
  | allocate_buffer category m =>
    simp only [pool_trace.call, Option.some.injEq] at h
    subst h
    obtain ⟨_, _, _, _, _, _, a7, _⟩ := allocate_buffer_impl_fields t.pool category m
    refine ⟨?_, ?_⟩
    · rintro ⟨k1, k2⟩
      simp only [pool_trace.ok, pool_trace.hand_out, allocate_buffer, List.length_append]
      rw [a7, k1]
      push_cast
      omega
    · exact pool_ok_allocate_buffer_impl t.pool category m
  | allocate_buffer_observer exceeded o category m =>
    simp only [pool_trace.call, Option.some.injEq] at h
    subst h
    obtain ⟨_, _, _, a4, a5, a6, a7, _⟩ := allocate_buffer_impl_fields t.pool category m
    obtain ⟨o1, o2, o3, o4, o5, o6, o7, _⟩ :=
      allocate_buffer_observer_fields t.pool exceeded o category m
    refine ⟨?_, ?_⟩
    · rintro ⟨k1, k2⟩
      simp only [pool_trace.ok, pool_trace.hand_out, List.length_append]
      rw [o1, o2, a7, k1]
      push_cast
      omega
    · intro hk
      obtain ⟨j1, j2, j3⟩ := pool_ok_allocate_buffer_impl t.pool category m hk
      simp only [pool_trace.hand_out]
      refine ⟨?_, ?_, ?_⟩
      · rw [o3, o4, ← a4, ← a5]
        exact j1
      · rw [o3, o2, o7, ← a4]
        exact j2
      · rw [o5, o2, o6, o3, ← a4, ← a6]
        exact j3
  | async_allocate_buffer category handler m =>
    simp only [pool_trace.call, Option.some.injEq] at h
    subst h
    obtain ⟨_, _, _, _, _, _, a7, _⟩ := allocate_buffer_impl_fields t.pool category m
    by_cases he : t.pool.m_exceeded_max_size = true
    · have hq : async_allocate_buffer t.pool category handler m =
          ({ t.pool with m_handlers := t.pool.m_handlers ++
            [{ category := category, callback := handler, buffer := none }] }, none) := by
        unfold async_allocate_buffer
        rw [if_pos he]
      refine ⟨?_, ?_⟩
      · rintro ⟨k1, k2⟩
        simp only [pool_trace.ok, pool_trace.hand_out, List.length_append]
        rw [hq]
        simp only [Option.toList, List.length_nil, add_zero]
        exact ⟨k1, k2⟩
      · intro hk
        simp only [pool_trace.hand_out]
        rw [hq]
        exact hk
    · have hq : async_allocate_buffer t.pool category handler m =
          allocate_buffer_impl t.pool category m := by
        unfold async_allocate_buffer
        rw [if_neg he]
      refine ⟨?_, ?_⟩
      · rintro ⟨k1, k2⟩
        simp only [pool_trace.ok, pool_trace.hand_out, List.length_append]
        rw [hq, a7, k1]
        push_cast
        omega
      · intro hk
        simp only [pool_trace.hand_out]
        rw [hq]
        exact pool_ok_allocate_buffer_impl t.pool category m hk
  | free_buffer buf ms =>
    simp only [pool_trace.call] at h
    cases hr : remove_blocks t.allocated [buf] with
    | none =>
      rw [hr] at h
      cases h
    | some rest =>
      rw [hr] at h
      simp only [Option.some.injEq] at h
      subst h
      have hlen := remove_blocks_length _ _ _ hr
      obtain ⟨a1, _, _, _, a5, _⟩ := free_buffer_impl_fields t.pool buf
      have hin := check_buffer_level_in_use (free_buffer_impl t.pool buf) ms
      have hwk : woken_blocks t.pool (free_buffer t.pool buf ms) =
          woken_blocks (free_buffer_impl t.pool buf)
            (check_buffer_level (free_buffer_impl t.pool buf) ms) := by
        unfold woken_blocks free_buffer
        rw [a5]
      refine ⟨?_, ?_⟩
      · rintro ⟨k1, k2⟩
        simp only [pool_trace.ok, pool_trace.hand_out, List.length_append]
        rw [hwk]
        constructor
        · unfold free_buffer
          rw [hin, a1, k1]
          simp only [List.length_singleton] at hlen
          push_cast
          omega
        · simp only [List.length_singleton] at hlen
          omega
      · intro hk
        simp only [pool_trace.hand_out]
        exact pool_ok_check_buffer_level _ ms (pool_ok_free_buffer_impl t.pool buf hk)
  | free_multiple_buffers bufvec ms =>
    simp only [pool_trace.call] at h
    cases hr : remove_blocks t.allocated bufvec with
    | none =>
      rw [hr] at h
      cases h
    | some rest =>
      rw [hr] at h
      simp only [Option.some.injEq] at h
      subst h
      have hlen := remove_blocks_length _ _ _ hr
      obtain ⟨a1, _, _, _, a5, _⟩ := free_all_fields (bufvec.insertionSort (· ≤ ·)) t.pool
      rw [List.length_insertionSort] at a1
      have hin := check_buffer_level_in_use
        ((bufvec.insertionSort (· ≤ ·)).foldl free_buffer_impl t.pool) ms
      have hwk : woken_blocks t.pool (free_multiple_buffers t.pool bufvec ms) =
          woken_blocks ((bufvec.insertionSort (· ≤ ·)).foldl free_buffer_impl t.pool)
            (check_buffer_level
              ((bufvec.insertionSort (· ≤ ·)).foldl free_buffer_impl t.pool) ms) := by
        unfold woken_blocks free_multiple_buffers
        rw [a5]
      refine ⟨?_, ?_⟩
      · rintro ⟨k1, k2⟩
        simp only [pool_trace.ok, pool_trace.hand_out, List.length_append]
        rw [hwk]
        constructor
        · unfold free_multiple_buffers
          rw [hin, a1, k1]
          push_cast
          omega
        · omega
      · intro hk
        simp only [pool_trace.hand_out]
        exact pool_ok_check_buffer_level _ ms (pool_ok_free_all _ t.pool hk)

/-- A sequence of calls keeps the bookkeeping in agreement and keeps `pool_ok`. -/
theorem pool_trace_calls_ok : ∀ (cs : List pool_call) (t t1 : pool_trace),
    t.calls cs = some t1 → (t.ok → t1.ok) ∧ (pool_ok t.pool → pool_ok t1.pool) := by
  intro cs
  induction cs with
  | nil =>
    intro t t1 h
    simp only [pool_trace.calls, Option.some.injEq] at h
    subst h
    exact ⟨id, id⟩
  | cons c cs ih =>
    intro t t1 h
    unfold pool_trace.calls at h
    cases hc : t.call c with
    | none =>
      rw [hc] at h
      cases h
    | some t2 =>
      rw [hc] at h
      simp only at h
      obtain ⟨s1, s2⟩ := pool_trace_call_ok t t2 c hc
      obtain ⟨r1, r2⟩ := ih t2 t1 h
      exact ⟨fun x => r1 (s1 x), fun x => r2 (s2 x)⟩

/-- The first `set_settings` on a new pool, with a cache size that is not negative,
leaves a pool without blocks that satisfies `pool_ok`. -/
theorem set_settings_new_ok (block_size : Int) (alert_disp : Bool) (sett : session_settings)
    (have_mmap : Bool) (open_fd : Int) (mmap_ret : Option Int) (errno : Int)
    (hc : 0 ≤ sett.cache_size) :
    (set_settings (new_disk_buffer_pool block_size alert_disp) sett have_mmap open_fd
      mmap_ret errno).m_in_use = 0 ∧
    pool_ok (set_settings (new_disk_buffer_pool block_size alert_disp) sett have_mmap open_fd
      mmap_ret errno) := by
  have hg : (16 : Int) ≤ max 16 (sett.max_queued_disk_bytes.tdiv 16384) := le_max_left _ _
  generalize hgd : max 16 (sett.max_queued_disk_bytes.tdiv 16384) = g at hg
  have hn : ((sett.cache_size.toNat : Nat) : Int) = sett.cache_size := Int.toNat_of_nonneg hc
  unfold set_settings set_size post_mmap_alert new_disk_buffer_pool trigger_trim pool_ok
  simp only [hgd]
  cases mmap_ret with
  | none =>
    cases have_mmap <;> simp <;> split_ifs <;> simp <;> omega
  | some addr =>
    cases have_mmap <;> simp <;> split_ifs <;> simp <;> omega

/-- The two cases of `async_allocate_buffer`. -/
theorem async_cases (p : disk_buffer_pool) (c handler : Nat)
    (m : Option Int) :
    (p.m_exceeded_max_size = true →
      (async_allocate_buffer p c handler m).1.m_in_use = p.m_in_use) ∧
    (¬p.m_exceeded_max_size = true →
      async_allocate_buffer p c handler m = allocate_buffer_impl p c m) := by
  constructor
  · intro he
    unfold async_allocate_buffer
    rw [if_pos he]
  · intro he
    unfold async_allocate_buffer
    rw [if_neg he]

/-! ## The disk buffer pool: claims about sequences of calls -/

/-- C13: over every sequence of `allocate_buffer`, `allocate_buffer` with an observer,
`async_allocate_buffer`, `free_buffer` and `free_multiple_buffers` calls on a pool that
starts without blocks (a new pool, before or after `set_settings`), in which only blocks
held by the client are freed, `in_use` is the number of blocks handed out (the non-null
blocks returned by the three allocation functions and the blocks carried by the handlers
a wake has posted) less the number of blocks freed; it is the number of blocks the client
holds and so never negative.  An allocation call that returns NULL, because the
allocation failed or the request was queued, leaves `in_use` as it was. -/
theorem in_use_accounting :
    (∀ (p0 : disk_buffer_pool) (cs : List pool_call) (t : pool_trace),
      p0.m_in_use = 0 → (pool_trace.start p0).calls cs = some t →
      t.pool.m_in_use = (t.handed_out : Int) - (t.freed : Int) ∧
      0 ≤ t.pool.m_in_use ∧
      t.pool.m_in_use = (t.allocated.length : Int)) ∧
    (∀ (p : disk_buffer_pool) (c : Nat) (m : Option Int),
      (allocate_buffer p c m).2 = none → (allocate_buffer p c m).1.m_in_use = p.m_in_use) ∧
    (∀ (p : disk_buffer_pool) (e : Bool) (o : Option Nat) (c : Nat) (m : Option Int),
      (allocate_buffer_observer p e o c m).2.1 = none →
      (allocate_buffer_observer p e o c m).1.m_in_use = p.m_in_use) ∧
    (∀ (p : disk_buffer_pool) (c handler : Nat) (m : Option Int),
      (async_allocate_buffer p c handler m).2 = none →
      (async_allocate_buffer p c handler m).1.m_in_use = p.m_in_use) := by
  have himpl : ∀ (p : disk_buffer_pool) (c : Nat) (m : Option Int),
      (allocate_buffer_impl p c m).2 = none →
      (allocate_buffer_impl p c m).1.m_in_use = p.m_in_use := by
    intro p c m h
    rw [(allocate_buffer_impl_fields p c m).2.2.2.2.2.2.1, h]
    simp
  refine ⟨?_, himpl, ?_, ?_⟩
  · intro p0 cs t h0 hrun
    have hstart : (pool_trace.start p0).ok := by
      simp [pool_trace.ok, pool_trace.start, h0]
    obtain ⟨k1, k2⟩ := (pool_trace_calls_ok cs _ t hrun).1 hstart
    refine ⟨?_, ?_, k1⟩
    · rw [k1]
      omega
    · rw [k1]
      omega
  · intro p e o c m h
    obtain ⟨o1, o2, _⟩ := allocate_buffer_observer_fields p e o c m
    rw [o2]
    exact himpl p c m (o1 ▸ h)
  · intro p c handler m h
    by_cases he : p.m_exceeded_max_size = true
    · rw [((async_cases p c handler m).1 he)]
    · have hq := (async_cases p c handler m).2 he
      rw [hq] at h ⊢
      exact himpl p c m h

/-- The statement of `in_use_accounting` for a pool configured for one block: a block is
allocated, two requests are queued, and each of the two frees that follow wakes one of
them with a new block. -/
theorem in_use_accounting_witness :
    small_pool.m_in_use = 0 ∧
    ∃ t, (pool_trace.start small_pool).calls
        [.allocate_buffer 7 (some 4096), .async_allocate_buffer 8 1 (some 8192),
          .async_allocate_buffer 8 2 (some 12288),
          .free_buffer 4096 (fun i => some (16384 + i)),
          .free_multiple_buffers [16384] (fun i => some (32768 + i))] = some t ∧
      t.handed_out = 3 ∧ t.freed = 2 ∧ t.allocated = [32768] ∧
      t.pool.m_in_use = (t.handed_out : Int) - (t.freed : Int) ∧
      0 ≤ t.pool.m_in_use ∧
      t.pool.m_in_use = (t.allocated.length : Int) :=
  ⟨by decide, _, rfl, rfl, rfl, rfl,
    in_use_accounting.1 small_pool
      [.allocate_buffer 7 (some 4096), .async_allocate_buffer 8 1 (some 8192),
        .async_allocate_buffer 8 2 (some 12288),
        .free_buffer 4096 (fun i => some (16384 + i)),
        .free_multiple_buffers [16384] (fun i => some (32768 + i))] _ (by decide) rfl⟩

/-- C14, as stated, fails: after `set_settings` with a cache size of one block, two
synchronous allocations both succeed and leave `in_use = 2` above `max_use = 1`. -/
theorem in_use_exceeds_max_use :
    small_pool = set_settings (new_disk_buffer_pool 16384 false) small_cache true 0 none 0 ∧
    ∃ t, (pool_trace.start small_pool).calls
        [.allocate_buffer 7 (some 4096), .allocate_buffer 7 (some 8192)] = some t ∧
      t.allocated = [4096, 8192] ∧ t.pool.m_in_use = 2 ∧ t.pool.m_max_use = 1 :=
  ⟨rfl, _, rfl, rfl, rfl, rfl⟩

/-- C14, amended: in every state reached from a new pool by `set_settings` with a cache
size that is not negative, followed by allocations and frees of held blocks, `in_use` is
not negative, and whenever it is above `max_use` the pool is under pressure
(`exceeded_max_size` is true).  In a memory-mapped cache `in_use <= max_use` does hold; on
the heap `max_use` is no bound, since an allocation under pressure still succeeds. -/
theorem in_use_above_max_use_is_pressure (block_size : Int) (alert_disp : Bool)
    (sett : session_settings) (have_mmap : Bool) (open_fd : Int) (mmap_ret : Option Int)
    (errno : Int) (cs : List pool_call) (t : pool_trace)
    (hc : 0 ≤ sett.cache_size)
    (hrun : (pool_trace.start (set_settings (new_disk_buffer_pool block_size alert_disp) sett
      have_mmap open_fd mmap_ret errno)).calls cs = some t) :
    0 ≤ t.pool.m_in_use ∧
    (t.pool.m_max_use < t.pool.m_in_use → t.pool.m_exceeded_max_size = true) ∧
    (t.pool.m_cache_pool ≠ none → t.pool.m_in_use ≤ t.pool.m_max_use) := by
  obtain ⟨h0, hok⟩ := set_settings_new_ok block_size alert_disp sett have_mmap open_fd
    mmap_ret errno hc
  obtain ⟨r1, r2⟩ := pool_trace_calls_ok cs _ t hrun
  have hstart : (pool_trace.start (set_settings (new_disk_buffer_pool block_size alert_disp)
      sett have_mmap open_fd mmap_ret errno)).ok := by
    simp [pool_trace.ok, pool_trace.start, h0]
  obtain ⟨k1, _⟩ := r1 hstart
  obtain ⟨_, j2, j3⟩ := r2 hok
  refine ⟨by rw [k1]; omega, j2, ?_⟩
  intro hcp
  have := j3 hcp
  omega

/-- The statement of `in_use_above_max_use_is_pressure` for the cache size of one block
and three allocations followed by a free. -/
theorem in_use_above_max_use_is_pressure_witness :
    0 ≤ small_cache.cache_size ∧
    ∃ t, (pool_trace.start (set_settings (new_disk_buffer_pool 16384 false) small_cache true
        0 none 0)).calls
        [.allocate_buffer 7 (some 4096), .allocate_buffer 7 (some 8192),
          .allocate_buffer 7 (some 12288), .free_buffer 8192 (fun _ => none)] = some t ∧
      t.pool.m_in_use = 2 ∧ t.pool.m_max_use = 1 ∧
      0 ≤ t.pool.m_in_use ∧
      (t.pool.m_max_use < t.pool.m_in_use → t.pool.m_exceeded_max_size = true) ∧
      (t.pool.m_cache_pool ≠ none → t.pool.m_in_use ≤ t.pool.m_max_use) :=
  ⟨by decide, _, rfl, rfl, rfl,
    in_use_above_max_use_is_pressure 16384 false small_cache true 0 none 0
      [.allocate_buffer 7 (some 4096), .allocate_buffer 7 (some 8192),
        .allocate_buffer 7 (some 12288), .free_buffer 8192 (fun _ => none)] _
      (by decide) rfl⟩

/-! ## The disk buffer pool: observers, eviction and the slicing scenario -/

/-- C21: a wake posts one `watermark_callback` object.  If `exceeded_max_size` is false
after the wake, the whole handler queue has been drained, the object carries the
observers, which `watermark_callback` notifies in registration order, each once, after the
handlers, and the observer set is empty afterwards.  If the pool has re-entered pressure
while a handler was served (the last one included), no observer is posted and the
observer set is unchanged. -/
theorem check_buffer_level_observers (p : disk_buffer_pool) (ms : Nat → Option Int)
    (he : p.m_exceeded_max_size = true) (hl : p.m_in_use ≤ p.m_low_watermark) :
    ∃ cbs P,
      (check_buffer_level p ms).posted = p.posted ++ [.watermark_callback cbs (some P)] ∧
      ((check_buffer_level p ms).m_exceeded_max_size = false →
        (check_buffer_level p ms).m_handlers = [] ∧
        cbs = some p.m_observers ∧
        (check_buffer_level p ms).m_observers = [] ∧
        watermark_callback cbs (some P) =
          P.map (fun h => invoked_t.callback h.callback h.buffer) ++
            p.m_observers.map invoked_t.on_disk) ∧
      ((check_buffer_level p ms).m_exceeded_max_size = true →
        cbs = none ∧
        (check_buffer_level p ms).m_observers = p.m_observers ∧
        watermark_callback cbs (some P) =
          P.map (fun h => invoked_t.callback h.callback h.buffer)) := by
  obtain ⟨w1, _, w3, _, _, _, _, cbs, hp, hyes, hno⟩ := check_buffer_level_wake p ms he hl
  obtain ⟨_, _, _, hbrk⟩ :=
    drain_split ms p.m_handlers { p with m_exceeded_max_size := false } 0
  refine ⟨cbs, _, hp, ?_, ?_⟩
  · intro hx
    rw [w3] at hx
    have hnone : (drain ms { p with m_exceeded_max_size := false } 0 p.m_handlers).2.2 = none := by
      cases hr : (drain ms { p with m_exceeded_max_size := false } 0 p.m_handlers).2.2 with
      | none => rfl
      | some rem =>
        have := (hbrk rem hr).2
        rw [hx] at this
        cases this
    obtain ⟨hc, ho⟩ := hyes ⟨hnone, hx⟩
    refine ⟨?_, hc, ho, ?_⟩
    · rw [w1, hnone]
      rfl
    · rw [hc]
      rfl
  · intro hx
    rw [w3] at hx
    obtain ⟨hc, ho⟩ := hno (by
      rintro ⟨_, h2⟩
      rw [hx] at h2
      cases h2)
    refine ⟨hc, ho, ?_⟩
    rw [hc]
    simp [watermark_callback]

/-- The statement of `check_buffer_level_observers` for a pool of four blocks in which one
request and one observer wait and the three blocks in use have just been freed. -/
theorem check_buffer_level_observers_witness :
    ([4096, 8192, 12288].foldl free_buffer_impl observed_pool).m_exceeded_max_size = true ∧
    ([4096, 8192, 12288].foldl free_buffer_impl observed_pool).m_in_use ≤
      ([4096, 8192, 12288].foldl free_buffer_impl observed_pool).m_low_watermark ∧
    (check_buffer_level ([4096, 8192, 12288].foldl free_buffer_impl observed_pool)
      (fun _ => some 16384)).posted =
      [.watermark_callback (some [5])
        (some [{ category := 8, callback := 1, buffer := some 16384 }])] ∧
    ∃ cbs P,
      (check_buffer_level ([4096, 8192, 12288].foldl free_buffer_impl observed_pool)
        (fun _ => some 16384)).posted =
        ([4096, 8192, 12288].foldl free_buffer_impl observed_pool).posted ++
          [.watermark_callback cbs (some P)] ∧
      ((check_buffer_level ([4096, 8192, 12288].foldl free_buffer_impl observed_pool)
          (fun _ => some 16384)).m_exceeded_max_size = false →
        (check_buffer_level ([4096, 8192, 12288].foldl free_buffer_impl observed_pool)
          (fun _ => some 16384)).m_handlers = [] ∧
        cbs = some ([4096, 8192, 12288].foldl free_buffer_impl observed_pool).m_observers ∧
        (check_buffer_level ([4096, 8192, 12288].foldl free_buffer_impl observed_pool)
          (fun _ => some 16384)).m_observers = [] ∧
        watermark_callback cbs (some P) =
          P.map (fun h => invoked_t.callback h.callback h.buffer) ++
            ([4096, 8192, 12288].foldl free_buffer_impl observed_pool).m_observers.map
              invoked_t.on_disk) ∧
      ((check_buffer_level ([4096, 8192, 12288].foldl free_buffer_impl observed_pool)
          (fun _ => some 16384)).m_exceeded_max_size = true →
        cbs = none ∧
        (check_buffer_level ([4096, 8192, 12288].foldl free_buffer_impl observed_pool)
          (fun _ => some 16384)).m_observers =
          ([4096, 8192, 12288].foldl free_buffer_impl observed_pool).m_observers ∧
        watermark_callback cbs (some P) =
          P.map (fun h => invoked_t.callback h.callback h.buffer)) :=
  ⟨by decide, by decide, by decide,
    check_buffer_level_observers ([4096, 8192, 12288].foldl free_buffer_impl observed_pool)
      (fun _ => some 16384) (by decide) (by decide)⟩

/-- C22, as stated, fails: a pool with `max_use = 40` and `low_watermark = 2` that holds 3
blocks and is not under pressure answers `num_to_evict(0) = 0`, where the formula of the
claim gives 1. -/
theorem num_to_evict_ignores_low_watermark :
    wide_pool.m_in_use = 3 ∧ wide_pool.m_low_watermark = 2 ∧ wide_pool.m_max_use = 40 ∧
    wide_pool.m_exceeded_max_size = false ∧
    num_to_evict wide_pool 0 = 0 ∧
    min (max (max (wide_pool.m_in_use - wide_pool.m_low_watermark)
      (wide_pool.m_in_use + 0 - wide_pool.m_max_use)) 0) wide_pool.m_in_use = 1 := by
  decide

/-- C22, amended: for a pool with `0 <= in_use < 2^32` whose `max_use` less twice the number
of waiting handlers and observers fits an `int`, `num_to_evict(need)` is
`max(e, in_use + need - max_use, 0)` clamped to `[0, in_use]`, where `e` is 0 while the
pool is not under pressure and `in_use - min(low_watermark, max_use - 2 * waiting)` while it
is.  This is the formula with `in_use - low_watermark` exactly when the pool is under
pressure and `low_watermark <= max_use - 2 * waiting`. -/
theorem num_to_evict_formula (p : disk_buffer_pool) (need : Int)
    (h0 : 0 ≤ p.m_in_use) (h1 : p.m_in_use < 4294967296)
    (hw1 : -2147483648 ≤
      p.m_max_use - ((p.m_observers.length + p.m_handlers.length : Nat) : Int) * 2)
    (hw2 : p.m_max_use - ((p.m_observers.length + p.m_handlers.length : Nat) : Int) * 2
      < 2147483648) :
    num_to_evict p need =
      min (max (max
        (if p.m_exceeded_max_size then
          p.m_in_use - min p.m_low_watermark
            (p.m_max_use - ((p.m_observers.length + p.m_handlers.length : Nat) : Int) * 2)
          else 0)
        (p.m_in_use + need - p.m_max_use)) 0) p.m_in_use ∧
    (p.m_exceeded_max_size = true →
      p.m_low_watermark ≤
        p.m_max_use - ((p.m_observers.length + p.m_handlers.length : Nat) : Int) * 2 →
      num_to_evict p need =
        min (max (max (p.m_in_use - p.m_low_watermark) (p.m_in_use + need - p.m_max_use)) 0)
          p.m_in_use) := by
  generalize hwd : p.m_max_use - ((p.m_observers.length + p.m_handlers.length : Nat) : Int) * 2
    = w at hw1 hw2
  have hwrap : wrap32 (w % 18446744073709551616) = w := by
    unfold wrap32
    omega
  have key : num_to_evict p need =
      min (max (max
        (if p.m_exceeded_max_size then p.m_in_use - min p.m_low_watermark w else 0)
        (p.m_in_use + need - p.m_max_use)) 0) p.m_in_use := by
    unfold num_to_evict
    simp only [hwd, hwrap]
    generalize (if p.m_exceeded_max_size = true then p.m_in_use - min p.m_low_watermark w
      else 0) = e
    simp only [min_def, max_def]
    split_ifs <;> omega
  refine ⟨key, ?_⟩
  intro he hlw
  rw [key, he]
  simp only [if_true]
  rw [min_eq_left hlw]

/-- The statement of `num_to_evict_formula` for the pool of four blocks that holds three
blocks under pressure while one handler and one observer wait: all three blocks are to be
evicted. -/
theorem num_to_evict_formula_witness :
    0 ≤ observed_pool.m_in_use ∧ observed_pool.m_in_use < 4294967296 ∧
    num_to_evict observed_pool 1 = 3 ∧
    num_to_evict observed_pool 1 =
      min (max (max
        (if observed_pool.m_exceeded_max_size then
          observed_pool.m_in_use - min observed_pool.m_low_watermark
            (observed_pool.m_max_use -
              ((observed_pool.m_observers.length + observed_pool.m_handlers.length : Nat)
                : Int) * 2)
          else 0)
        (observed_pool.m_in_use + 1 - observed_pool.m_max_use)) 0) observed_pool.m_in_use :=
  ⟨by decide, by decide, by decide,
    (num_to_evict_formula observed_pool 1 (by decide) (by decide) (by decide) (by decide)).1⟩

/-- On the heap the address of the freed block does not matter to the pool. -/
theorem free_all_heap : ∀ (bufs bufs1 : List Int) (p : disk_buffer_pool),
    p.m_cache_pool = none → bufs.length = bufs1.length →
    bufs.foldl free_buffer_impl p = bufs1.foldl free_buffer_impl p := by
  intro bufs
  induction bufs with
  | nil =>
    intro bufs1 p _ hlen
    cases bufs1 with
    | nil => rfl
    | cons b bs => simp at hlen
  | cons a as ih =>
    intro bufs1 p hcp hlen
    cases bufs1 with
    | nil => simp at hlen
    | cons b bs =>
      have hab : free_buffer_impl p a = free_buffer_impl p b := by
        unfold free_buffer_impl
        rw [hcp]
      simp only [List.foldl_cons]
      rw [hab]
      apply ih bs
      · rw [(free_buffer_impl_fields p b).2.2.2.2.2.2.2.2.1, hcp]
      · simpa using hlen

/-- An allocation from the heap that succeeds, without the pool allocator. -/
theorem allocate_buffer_impl_heap (p : disk_buffer_pool) (c : Nat) (b : Int)
    (hcp : p.m_cache_pool = none) (hu : p.m_using_pool_allocator = false) :
    allocate_buffer_impl p c (some b) = (count_block p, some b) := by
  unfold allocate_buffer_impl
  rw [hcp]
  simp [hu]

/-- A request made under pressure is queued. -/
theorem async_allocate_buffer_queued (p : disk_buffer_pool) (c handler : Nat) (m : Option Int)
    (he : p.m_exceeded_max_size = true) :
    async_allocate_buffer p c handler m =
      ({ p with m_handlers :=
          p.m_handlers ++ [{ category := c, callback := handler, buffer := none }] }, none) := by
  unfold async_allocate_buffer
  rw [if_pos he]

/-- Freeing a block of the heap when no change of allocator is wanted. -/
theorem free_buffer_impl_heap (p : disk_buffer_pool) (buf : Int)
    (hcp : p.m_cache_pool = none)
    (hu : p.m_want_pool_allocator = p.m_using_pool_allocator) :
    free_buffer_impl p buf = { p with m_in_use := p.m_in_use - 1 } := by
  unfold free_buffer_impl
  simp [hu, hcp]

/-- C24: the slicing scenario.  The pool configured by `set_settings` with a cache size of
4 (so `low_watermark = 0`) reaches, by four allocations and three requests made under
pressure, the state with four blocks in use, `exceeded_max_size` latched and the handlers
`H1`, `H2`, `H3` queued.  From that state, whatever observers are registered, freeing the
four blocks in one `free_multiple_buffers` call posts exactly the batch `[H1, H2]`, each
with a block, and no observers, leaves `[H3]` queued without a block, and leaves
`in_use = 2` with `exceeded_max_size` latched again. -/
theorem slicing_scenario (b1 b2 b3 b4 x y : Int) (c c1 c2 c3 h1 h2 h3 : Nat)
    (m1 m2 m3 : Option Int) (obs : List Nat) (bufvec : List Int) (ms : Nat → Option Int)
    (hlen : bufvec.length = 4) (hx : ms 0 = some x) (hy : ms 1 = some y) :
    (async_allocate_buffer (async_allocate_buffer (async_allocate_buffer
      (allocate_buffer (allocate_buffer (allocate_buffer (allocate_buffer medium_pool c
        (some b1)).1 c (some b2)).1 c (some b3)).1 c (some b4)).1
      c1 h1 m1).1 c2 h2 m2).1 c3 h3 m3).1 =
      pool_state medium_pool 4 true 1
        [{ category := c1, callback := h1, buffer := none },
          { category := c2, callback := h2, buffer := none },
          { category := c3, callback := h3, buffer := none }] [] ∧
    free_multiple_buffers
      (pool_state { medium_pool with m_observers := obs } 4 true 1
        [{ category := c1, callback := h1, buffer := none },
          { category := c2, callback := h2, buffer := none },
          { category := c3, callback := h3, buffer := none }] []) bufvec ms =
      pool_state { medium_pool with m_observers := obs } 2 true 2
        [{ category := c3, callback := h3, buffer := none }]
        [.watermark_callback none
          (some [{ category := c1, callback := h1, buffer := some x },
            { category := c2, callback := h2, buffer := some y }])] := by
  constructor
  · have e1 : allocate_buffer medium_pool c (some b1) =
        (pool_state medium_pool 1 false 0 [] [], some b1) :=
      allocate_buffer_impl_heap medium_pool c b1 rfl rfl
    have e2 : allocate_buffer (pool_state medium_pool 1 false 0 [] []) c (some b2) =
        (pool_state medium_pool 2 true 1 [] [], some b2) :=
      allocate_buffer_impl_heap _ c b2 rfl rfl
    have e3 : allocate_buffer (pool_state medium_pool 2 true 1 [] []) c (some b3) =
        (pool_state medium_pool 3 true 1 [] [], some b3) :=
      allocate_buffer_impl_heap _ c b3 rfl rfl
    have e4 : allocate_buffer (pool_state medium_pool 3 true 1 [] []) c (some b4) =
        (pool_state medium_pool 4 true 1 [] [], some b4) :=
      allocate_buffer_impl_heap _ c b4 rfl rfl
    have e5 : async_allocate_buffer (pool_state medium_pool 4 true 1 [] []) c1 h1 m1 =
        (pool_state medium_pool 4 true 1
          [{ category := c1, callback := h1, buffer := none }] [], none) :=
      async_allocate_buffer_queued _ c1 h1 m1 rfl
    have e6 : async_allocate_buffer (pool_state medium_pool 4 true 1
          [{ category := c1, callback := h1, buffer := none }] []) c2 h2 m2 =
        (pool_state medium_pool 4 true 1
          [{ category := c1, callback := h1, buffer := none },
            { category := c2, callback := h2, buffer := none }] [], none) :=
      async_allocate_buffer_queued _ c2 h2 m2 rfl
    have e7 : async_allocate_buffer (pool_state medium_pool 4 true 1
          [{ category := c1, callback := h1, buffer := none },
            { category := c2, callback := h2, buffer := none }] []) c3 h3 m3 =
        (pool_state medium_pool 4 true 1
          [{ category := c1, callback := h1, buffer := none },
            { category := c2, callback := h2, buffer := none },
            { category := c3, callback := h3, buffer := none }] [], none) :=
      async_allocate_buffer_queued _ c3 h3 m3 rfl
    simp only [e1, e2, e3, e4, e5, e6, e7]
  · unfold free_multiple_buffers
    rw [free_all_heap (bufvec.insertionSort (· ≤ ·)) [0, 0, 0, 0] _ rfl
      (by rw [List.length_insertionSort, hlen]; rfl)]
    simp only [List.foldl_cons, List.foldl_nil]
    rw [free_buffer_impl_heap _ 0 rfl rfl, free_buffer_impl_heap _ 0 rfl rfl,
      free_buffer_impl_heap _ 0 rfl rfl, free_buffer_impl_heap _ 0 rfl rfl]
    unfold check_buffer_level
    have hlow : medium_pool.m_low_watermark = 0 := by decide
    rw [if_neg (by simp [pool_state, hlow])]
    simp only [pool_state, drain, hx, hy]
    rw [allocate_buffer_impl_heap _ c1 x rfl rfl]
    simp only
    rw [allocate_buffer_impl_heap _ c2 y rfl rfl]
    rfl

/-- The statement of `slicing_scenario` for four concrete blocks, freed in another order
than they were allocated, while the observer 5 is registered. -/
theorem slicing_scenario_witness :
    ([16384, 4096, 12288, 8192] : List Int).length = 4 ∧
    (fun (i : Nat) => some (20480 + (i : Int))) 0 = some 20480 ∧
    (fun (i : Nat) => some (20480 + (i : Int))) 1 = some 20481 ∧
    free_multiple_buffers
      (pool_state { medium_pool with m_observers := [5] } 4 true 1
        [{ category := 8, callback := 1, buffer := none },
          { category := 8, callback := 2, buffer := none },
          { category := 9, callback := 3, buffer := none }] [])
      [16384, 4096, 12288, 8192] (fun (i : Nat) => some (20480 + (i : Int))) =
      pool_state { medium_pool with m_observers := [5] } 2 true 2
        [{ category := 9, callback := 3, buffer := none }]
        [.watermark_callback none
          (some [{ category := 8, callback := 1, buffer := some 20480 },
            { category := 8, callback := 2, buffer := some 20481 }])] :=
  ⟨rfl, rfl, rfl,
    (slicing_scenario 4096 8192 12288 16384 20480 20481 7 8 8 9 1 2 3 none none none [5]
      [16384, 4096, 12288, 8192] (fun (i : Nat) => some (20480 + (i : Int))) rfl (by simp)
      (by simp)).2⟩

/-! ## The disk buffer pool: the watermarks and the backing strategy -/

theorem set_size_fields (p : disk_buffer_pool) (sett : session_settings) :
    (set_size p sett).m_in_use = p.m_in_use ∧
    (set_size p sett).m_handlers = p.m_handlers ∧
    (set_size p sett).m_observers = p.m_observers ∧
    (set_size p sett).m_want_pool_allocator = p.m_want_pool_allocator ∧
    (set_size p sett).m_using_pool_allocator = p.m_using_pool_allocator ∧
    (set_size p sett).m_cache_pool = p.m_cache_pool ∧
    (set_size p sett).m_post_alert = p.m_post_alert ∧
    (set_size p sett).m_max_use = sett.cache_size ∧
    (set_size p sett).m_low_watermark =
      max (sett.cache_size - max 16 (sett.max_queued_disk_bytes.tdiv 16384)) 0 := by
  unfold set_size trigger_trim
  simp only
  split_ifs <;> simp [max_def] <;> omega

theorem post_mmap_alert_fields (p : disk_buffer_pool) (errno : Int) :
    (post_mmap_alert p errno).m_in_use = p.m_in_use ∧
    (post_mmap_alert p errno).m_handlers = p.m_handlers ∧
    (post_mmap_alert p errno).m_observers = p.m_observers ∧
    (post_mmap_alert p errno).m_want_pool_allocator = p.m_want_pool_allocator ∧
    (post_mmap_alert p errno).m_using_pool_allocator = p.m_using_pool_allocator ∧
    (post_mmap_alert p errno).m_max_use = p.m_max_use ∧
    (post_mmap_alert p errno).m_low_watermark = p.m_low_watermark := by
  unfold post_mmap_alert
  split_ifs <;> simp

/-- What `set_settings` leaves alone, and what it does to the allocator in use. -/
theorem set_settings_fields (p : disk_buffer_pool) (sett : session_settings) (have_mmap : Bool)
    (open_fd : Int) (mmap_ret : Option Int) (errno : Int) :
    (set_settings p sett have_mmap open_fd mmap_ret errno).m_in_use = p.m_in_use ∧
    (set_settings p sett have_mmap open_fd mmap_ret errno).m_handlers = p.m_handlers ∧
    (set_settings p sett have_mmap open_fd mmap_ret errno).m_observers = p.m_observers ∧
    (set_settings p sett have_mmap open_fd mmap_ret errno).m_want_pool_allocator =
      sett.use_disk_cache_pool ∧
    (set_settings p sett have_mmap open_fd mmap_ret errno).m_using_pool_allocator =
      (if p.m_in_use = 0 then sett.use_disk_cache_pool else p.m_using_pool_allocator) := by
  have hs := set_size_fields
  have ha := post_mmap_alert_fields
  cases have_mmap <;> cases hcp : p.m_cache_pool <;> by_cases h0 : p.m_in_use = 0 <;>
    cases he : sett.mmap_cache.isEmpty <;> by_cases hfd : open_fd < 0 <;>
    cases mmap_ret <;>
    simp [set_settings, hcp, h0, he, hfd, hs, ha] <;>
    split_ifs <;> simp [hs, ha]

/-- The watermarks after `set_settings`: set from the settings when the size may change,
kept otherwise. -/
theorem set_settings_size (p : disk_buffer_pool) (sett : session_settings) (have_mmap : Bool)
    (open_fd : Int) (mmap_ret : Option Int) (errno : Int) :
    ((¬(have_mmap = true ∧ p.m_cache_pool ≠ none ∧ p.m_in_use > 0) ∧
        ((have_mmap = true ∧ p.m_cache_pool = none) ∨ sett.mmap_cache.isEmpty = true)) →
      (set_settings p sett have_mmap open_fd mmap_ret errno).m_max_use = sett.cache_size ∧
      (set_settings p sett have_mmap open_fd mmap_ret errno).m_low_watermark =
        max (sett.cache_size - max 16 (sett.max_queued_disk_bytes.tdiv 16384)) 0) ∧
    (¬(¬(have_mmap = true ∧ p.m_cache_pool ≠ none ∧ p.m_in_use > 0) ∧
        ((have_mmap = true ∧ p.m_cache_pool = none) ∨ sett.mmap_cache.isEmpty = true)) →
      (set_settings p sett have_mmap open_fd mmap_ret errno).m_max_use = p.m_max_use ∧
      (set_settings p sett have_mmap open_fd mmap_ret errno).m_low_watermark =
        p.m_low_watermark) := by
  have hs := set_size_fields
  have ha := post_mmap_alert_fields
  cases have_mmap <;> cases hcp : p.m_cache_pool <;> by_cases h0 : p.m_in_use = 0 <;>
    by_cases h1 : 0 < p.m_in_use <;>
    cases he : sett.mmap_cache.isEmpty <;> by_cases hfd : open_fd < 0 <;>
    cases mmap_ret <;>
    simp [set_settings, hcp, h0, h1, he, hfd, hs, ha]

/-- An allocation leaves the watermarks and the choice of allocator alone. -/
theorem allocate_buffer_impl_frame (p : disk_buffer_pool) (c : Nat) (m : Option Int) :
    (allocate_buffer_impl p c m).1.m_max_use = p.m_max_use ∧
    (allocate_buffer_impl p c m).1.m_low_watermark = p.m_low_watermark ∧
    (allocate_buffer_impl p c m).1.m_using_pool_allocator = p.m_using_pool_allocator ∧
    (allocate_buffer_impl p c m).1.m_want_pool_allocator = p.m_want_pool_allocator := by
  unfold allocate_buffer_impl
  cases hcp : p.m_cache_pool with
  | none =>
    cases m with
    | none =>
      simp only [trigger_trim]
      split_ifs <;> simp_all
    | some ret =>
      simp only [count_block, trigger_trim]
      split_ifs <;> simp_all
  | some base =>
    simp only [count_block, trigger_trim]
    cases hfl : p.m_free_list.getLast? with
    | none =>
      split_ifs <;> simp_all
    | some slot =>
      split_ifs <;> simp_all

/-- The three public allocation functions leave the watermarks and the choice of
allocator alone. -/
theorem allocate_frame (p : disk_buffer_pool) (c handler : Nat) (m : Option Int) (e : Bool)
    (o : Option Nat) :
    ((allocate_buffer p c m).1.m_max_use = p.m_max_use ∧
      (allocate_buffer p c m).1.m_low_watermark = p.m_low_watermark ∧
      (allocate_buffer p c m).1.m_using_pool_allocator = p.m_using_pool_allocator ∧
      (allocate_buffer p c m).1.m_want_pool_allocator = p.m_want_pool_allocator) ∧
    ((allocate_buffer_observer p e o c m).1.m_max_use = p.m_max_use ∧
      (allocate_buffer_observer p e o c m).1.m_low_watermark = p.m_low_watermark ∧
      (allocate_buffer_observer p e o c m).1.m_using_pool_allocator =
        p.m_using_pool_allocator ∧
      (allocate_buffer_observer p e o c m).1.m_want_pool_allocator =
        p.m_want_pool_allocator) ∧
    ((async_allocate_buffer p c handler m).1.m_max_use = p.m_max_use ∧
      (async_allocate_buffer p c handler m).1.m_low_watermark = p.m_low_watermark ∧
      (async_allocate_buffer p c handler m).1.m_using_pool_allocator =
        p.m_using_pool_allocator ∧
      (async_allocate_buffer p c handler m).1.m_want_pool_allocator =
        p.m_want_pool_allocator) := by
  have hi := allocate_buffer_impl_frame p c m
  refine ⟨hi, ?_, ?_⟩
  · unfold allocate_buffer_observer
    simp only
    split_ifs
    · cases o with
      | none => exact hi
      | some ob => exact hi
    · exact hi
  · unfold async_allocate_buffer
    split_ifs
    · exact ⟨rfl, rfl, rfl, rfl⟩
    · exact hi

/-- `check_buffer_level` leaves the watermarks and the choice of allocator alone. -/
theorem check_buffer_level_frame (p : disk_buffer_pool) (ms : Nat → Option Int) :
    (check_buffer_level p ms).m_max_use = p.m_max_use ∧
    (check_buffer_level p ms).m_low_watermark = p.m_low_watermark ∧
    (check_buffer_level p ms).m_using_pool_allocator = p.m_using_pool_allocator ∧
    (check_buffer_level p ms).m_want_pool_allocator = p.m_want_pool_allocator := by
  have hd := drain_preserves
    (fun q => q.m_max_use = p.m_max_use ∧ q.m_low_watermark = p.m_low_watermark ∧
      q.m_using_pool_allocator = p.m_using_pool_allocator ∧
      q.m_want_pool_allocator = p.m_want_pool_allocator)
    (by
      intro q c m hq
      obtain ⟨f1, f2, f3, f4⟩ := allocate_buffer_impl_frame q c m
      exact ⟨f1.trans hq.1, f2.trans hq.2.1, f3.trans hq.2.2.1, f4.trans hq.2.2.2⟩)
    ms p.m_handlers { p with m_exceeded_max_size := false } 0 ⟨rfl, rfl, rfl, rfl⟩
  unfold check_buffer_level
  split_ifs
  · exact ⟨rfl, rfl, rfl, rfl⟩
  · simp only
    cases (drain ms { p with m_exceeded_max_size := false } 0 p.m_handlers).2.2 with
    | some rem => exact hd
    | none =>
      simp only
      split_ifs
      · exact hd
      · exact hd

/-- Freeing a block switches the allocator exactly when the count reaches zero while
another allocator is wanted. -/
theorem free_buffer_impl_strategy (p : disk_buffer_pool) (buf : Int) :
    (free_buffer_impl p buf).m_want_pool_allocator = p.m_want_pool_allocator ∧
    (free_buffer_impl p buf).m_using_pool_allocator =
      (if p.m_in_use - 1 = 0 then p.m_want_pool_allocator else p.m_using_pool_allocator) := by
  unfold free_buffer_impl
  cases hcp : p.m_cache_pool with
  | none =>
    simp only
    split_ifs <;> simp_all
  | some base =>
    simp only
    split_ifs <;> simp_all

/-- When the loop of `free_multiple_buffers` changes the allocator, the count of blocks
has reached zero within the loop. -/
theorem free_all_strategy : ∀ (bufs : List Int) (p : disk_buffer_pool),
    (bufs.foldl free_buffer_impl p).m_using_pool_allocator ≠ p.m_using_pool_allocator →
    1 ≤ p.m_in_use ∧ p.m_in_use ≤ (bufs.length : Int) := by
  intro bufs
  induction bufs with
  | nil =>
    intro p h
    exact absurd rfl h
  | cons b bs ih =>
    intro p h
    obtain ⟨_, s2⟩ := free_buffer_impl_strategy p b
    have hin := (free_buffer_impl_fields p b).1
    simp only [List.foldl_cons] at h
    simp only [List.length_cons]
    by_cases h1 : (free_buffer_impl p b).m_using_pool_allocator = p.m_using_pool_allocator
    · rw [← h1] at h
      obtain ⟨k1, k2⟩ := ih _ h
      rw [hin] at k1 k2
      push_cast
      omega
    · have h0 : p.m_in_use - 1 = 0 := by
        by_contra hne
        rw [s2, if_neg hne] at h1
        exact h1 rfl
      push_cast
      omega

/-! ## The disk buffer pool: sequences of operations with `set_settings` -/

theorem pool_run_take_ok (r : pool_run) (q : disk_buffer_pool) (blocks : List Int)
    (h : r.ok) (hin : q.m_in_use = r.pool.m_in_use + (blocks.length : Int))
    (hu : q.m_using_pool_allocator = r.pool.m_using_pool_allocator) : (r.take q blocks).ok := by
  obtain ⟨k1, k2, k3⟩ := h
  refine ⟨?_, ?_, k3⟩
  · simp only [pool_run.take, List.length_append, List.length_map]
    rw [hin, k1]
    push_cast
    rfl
  · intro e he
    simp only [pool_run.take, List.mem_append, List.mem_map] at he ⊢
    rcases he with he | ⟨b, _, rfl⟩
    · rw [hu]
      exact k2 e he
    · rfl

theorem pool_run_free_one_ok (r r1 : pool_run) (buf : Int) (h : r.free_one buf = some r1) :
    r1.pool = free_buffer_impl r.pool buf ∧ (r.ok → r1.ok) := by
  unfold pool_run.free_one at h
  cases hf : r.held.find? (fun e => decide (e.1 = buf)) with
  | none =>
    rw [hf] at h
    cases h
  | some e =>
    rw [hf] at h
    simp only [Option.some.injEq] at h
    subst h
    refine ⟨rfl, ?_⟩
    rintro ⟨k1, k2, k3⟩
    have hmem : e ∈ r.held := List.mem_of_find?_eq_some hf
    have hlen := List.length_erase_of_mem hmem
    have hpos : 0 < r.held.length := List.length_pos_of_mem hmem
    obtain ⟨_, s2⟩ := free_buffer_impl_strategy r.pool buf
    have hin := (free_buffer_impl_fields r.pool buf).1
    refine ⟨?_, ?_, ?_⟩
    · simp only
      rw [hin, k1, hlen]
      omega
    · intro e1 he1
      simp only at he1 ⊢
      by_cases h0 : r.pool.m_in_use - 1 = 0
      · have : (r.held.erase e).length = 0 := by
          rw [hlen]
          omega
        rw [List.length_eq_zero] at this
        rw [this] at he1
        cases he1
      · rw [s2, if_neg h0]
        exact k2 e1 (List.mem_of_mem_erase he1)
    · simp only
      rw [k3, if_pos (k2 e hmem)]

theorem pool_run_free_all_ok : ∀ (bufs : List Int) (r r1 : pool_run),
    r.free_all bufs = some r1 →
    r1.pool = bufs.foldl free_buffer_impl r.pool ∧ (r.ok → r1.ok) := by
  intro bufs
  induction bufs with
  | nil =>
    intro r r1 h
    simp only [pool_run.free_all, Option.some.injEq] at h
    subst h
    exact ⟨rfl, id⟩
  | cons b bs ih =>
    intro r r1 h
    unfold pool_run.free_all at h
    cases hf : r.free_one b with
    | none =>
      rw [hf] at h
      cases h
    | some r2 =>
      rw [hf] at h
      simp only at h
      obtain ⟨p1, o1⟩ := pool_run_free_one_ok r r2 b hf
      obtain ⟨p2, o2⟩ := ih r2 r1 h
      refine ⟨?_, fun x => o2 (o1 x)⟩
      rw [p2, p1]
      rfl

theorem pool_run_wake_ok (r : pool_run) (ms : Nat → Option Int) (h : r.ok) :
    (r.wake ms).ok :=
  pool_run_take_ok r _ _ h (check_buffer_level_in_use r.pool ms)
    (check_buffer_level_frame r.pool ms).2.2.1

/-- The pool after an operation with bookkeeping is the pool the function of the
operation returns. -/
theorem pool_run_op_pool (r r1 : pool_run) (o : pool_op) (h : r.op o = some r1) :
    r1.pool =
      (match o with
        | .call (.allocate_buffer category m) => (allocate_buffer r.pool category m).1
        | .call (.allocate_buffer_observer exceeded ob category m) =>
          (allocate_buffer_observer r.pool exceeded ob category m).1
        | .call (.async_allocate_buffer category handler m) =>
          (async_allocate_buffer r.pool category handler m).1
        | .call (.free_buffer buf ms) => free_buffer r.pool buf ms
        | .call (.free_multiple_buffers bufvec ms) => free_multiple_buffers r.pool bufvec ms
        | .set_settings sett have_mmap open_fd mmap_ret errno =>
          set_settings r.pool sett have_mmap open_fd mmap_ret errno) := by
  cases o with
  | call c =>
    cases c with
    | allocate_buffer category m =>
      simp only [pool_run.op, Option.some.injEq] at h
      subst h
      rfl
    | allocate_buffer_observer exceeded ob category m =>
      simp only [pool_run.op, Option.some.injEq] at h
      subst h
      rfl
    | async_allocate_buffer category handler m =>
      simp only [pool_run.op, Option.some.injEq] at h
      subst h
      rfl
    | free_buffer buf ms =>
      simp only [pool_run.op] at h
      cases hf : r.free_one buf with
      | none =>
        rw [hf] at h
        cases h
      | some r2 =>
        rw [hf] at h
        simp only [Option.map_some', Option.some.injEq] at h
        subst h
        simp only [pool_run.wake, pool_run.take, free_buffer]
        rw [(pool_run_free_one_ok r r2 buf hf).1]
    | free_multiple_buffers bufvec ms =>
      simp only [pool_run.op] at h
      cases hf : r.free_all (bufvec.insertionSort (· ≤ ·)) with
      | none =>
        rw [hf] at h
        cases h
      | some r2 =>
        rw [hf] at h
        simp only [Option.map_some', Option.some.injEq] at h
        subst h
        simp only [pool_run.wake, pool_run.take, free_multiple_buffers]
        rw [(pool_run_free_all_ok _ r r2 hf).1]
  | set_settings sett have_mmap open_fd mmap_ret errno =>
    simp only [pool_run.op, Option.some.injEq] at h
    subst h
    rfl

/-- One operation keeps the bookkeeping in agreement with the pool. -/
theorem pool_run_op_ok (r r1 : pool_run) (o : pool_op) (h : r.op o = some r1) (hk : r.ok) :
    r1.ok := by
  cases o with
  | call c =>
    cases c with
    | allocate_buffer category m =>
      simp only [pool_run.op, Option.some.injEq] at h
      subst h
      exact pool_run_take_ok r _ _ hk
        (allocate_buffer_impl_fields r.pool category m).2.2.2.2.2.2.1
        (allocate_frame r.pool category 0 m false none).1.2.2.1
    | allocate_buffer_observer exceeded ob category m =>
      simp only [pool_run.op, Option.some.injEq] at h
      subst h
      obtain ⟨o1, o2, _⟩ := allocate_buffer_observer_fields r.pool exceeded ob category m
      refine pool_run_take_ok r _ _ hk ?_
        (allocate_frame r.pool category 0 m exceeded ob).2.1.2.2.1
      rw [o1, o2]
      exact (allocate_buffer_impl_fields r.pool category m).2.2.2.2.2.2.1
    | async_allocate_buffer category handler m =>
      simp only [pool_run.op, Option.some.injEq] at h
      subst h
      refine pool_run_take_ok r _ _ hk ?_
        (allocate_frame r.pool category handler m false none).2.2.2.2.1
      by_cases he : r.pool.m_exceeded_max_size = true
      · rw [async_allocate_buffer_queued r.pool category handler m he]
        simp
      · rw [(async_cases r.pool category handler m).2 he]
        exact (allocate_buffer_impl_fields r.pool category m).2.2.2.2.2.2.1
    | free_buffer buf ms =>
      simp only [pool_run.op] at h
      cases hf : r.free_one buf with
      | none =>
        rw [hf] at h
        cases h
      | some r2 =>
        rw [hf] at h
        simp only [Option.map_some', Option.some.injEq] at h
        subst h
        exact pool_run_wake_ok r2 ms ((pool_run_free_one_ok r r2 buf hf).2 hk)
    | free_multiple_buffers bufvec ms =>
      simp only [pool_run.op] at h
      cases hf : r.free_all (bufvec.insertionSort (· ≤ ·)) with
      | none =>
        rw [hf] at h
        cases h
      | some r2 =>
        rw [hf] at h
        simp only [Option.map_some', Option.some.injEq] at h
        subst h
        exact pool_run_wake_ok r2 ms ((pool_run_free_all_ok _ r r2 hf).2 hk)
  | set_settings sett have_mmap open_fd mmap_ret errno =>
    simp only [pool_run.op, Option.some.injEq] at h
    subst h
    obtain ⟨k1, k2, k3⟩ := hk
    obtain ⟨f1, _, _, _, f5⟩ := set_settings_fields r.pool sett have_mmap open_fd mmap_ret errno
    refine ⟨?_, ?_, k3⟩
    · simp only
      rw [f1]
      exact k1
    · intro e he
      simp only at he ⊢
      rw [f5]
      by_cases h0 : r.pool.m_in_use = 0
      · have : r.held.length = 0 := by omega
        rw [List.length_eq_zero] at this
        rw [this] at he
        cases he
      · rw [if_neg h0]
        exact k2 e he

/-- One operation keeps the watermarks in order when the cache size it sets is not
negative. -/
theorem pool_run_op_watermarks (r r1 : pool_run) (o : pool_op) (h : r.op o = some r1)
    (hs : o.size_ok)
    (hw : 0 ≤ r.pool.m_low_watermark ∧ r.pool.m_low_watermark ≤ r.pool.m_max_use) :
    0 ≤ r1.pool.m_low_watermark ∧ r1.pool.m_low_watermark ≤ r1.pool.m_max_use := by
  have hp := pool_run_op_pool r r1 o h
  cases o with
  | call c =>
    cases c with
    | allocate_buffer category m =>
      simp only at hp
      obtain ⟨f1, f2, _⟩ := (allocate_frame r.pool category 0 m false none).1
      rw [hp, f1, f2]
      exact hw
    | allocate_buffer_observer exceeded ob category m =>
      simp only at hp
      obtain ⟨f1, f2, _⟩ := (allocate_frame r.pool category 0 m exceeded ob).2.1
      rw [hp, f1, f2]
      exact hw
    | async_allocate_buffer category handler m =>
      simp only at hp
      obtain ⟨f1, f2, _⟩ := (allocate_frame r.pool category handler m false none).2.2
      rw [hp, f1, f2]
      exact hw
    | free_buffer buf ms =>
      simp only at hp
      obtain ⟨f1, f2, _⟩ := check_buffer_level_frame (free_buffer_impl r.pool buf) ms
      obtain ⟨_, _, _, _, _, _, a7, a8, _⟩ := free_buffer_impl_fields r.pool buf
      rw [hp]
      unfold free_buffer
      rw [f1, f2, a7, a8]
      exact hw
    | free_multiple_buffers bufvec ms =>
      simp only at hp
      obtain ⟨f1, f2, _⟩ := check_buffer_level_frame
        ((bufvec.insertionSort (· ≤ ·)).foldl free_buffer_impl r.pool) ms
      obtain ⟨_, _, _, _, _, _, a7, a8, _⟩ :=
        free_all_fields (bufvec.insertionSort (· ≤ ·)) r.pool
      rw [hp]
      unfold free_multiple_buffers
      rw [f1, f2, a7, a8]
      exact hw
  | set_settings sett have_mmap open_fd mmap_ret errno =>
    simp only at hp
    simp only [pool_op.size_ok] at hs
    obtain ⟨y, n⟩ := set_settings_size r.pool sett have_mmap open_fd mmap_ret errno
    rw [hp]
    by_cases hc : ¬(have_mmap = true ∧ r.pool.m_cache_pool ≠ none ∧ r.pool.m_in_use > 0) ∧
        ((have_mmap = true ∧ r.pool.m_cache_pool = none) ∨ sett.mmap_cache.isEmpty = true)
    · obtain ⟨y1, y2⟩ := y hc
      rw [y1, y2]
      have hg : (16 : Int) ≤ max 16 (sett.max_queued_disk_bytes.tdiv 16384) := le_max_left _ _
      constructor
      · exact le_max_right _ _
      · apply max_le
        · omega
        · exact hs
    · obtain ⟨n1, n2⟩ := n hc
      rw [n1, n2]
      exact hw

/-- A sequence of operations keeps the bookkeeping in agreement with the pool, and keeps
the watermarks in order when no cache size set is negative. -/
theorem pool_run_ops_ok : ∀ (os : List pool_op) (r r1 : pool_run), r.ops os = some r1 →
    (r.ok → r1.ok) ∧
    ((∀ o ∈ os, o.size_ok) →
      (0 ≤ r.pool.m_low_watermark ∧ r.pool.m_low_watermark ≤ r.pool.m_max_use) →
      (0 ≤ r1.pool.m_low_watermark ∧ r1.pool.m_low_watermark ≤ r1.pool.m_max_use)) := by
  intro os
  induction os with
  | nil =>
    intro r r1 h
    simp only [pool_run.ops, Option.some.injEq] at h
    subst h
    exact ⟨id, fun _ x => x⟩
  | cons o os ih =>
    intro r r1 h
    unfold pool_run.ops at h
    cases ho : r.op o with
    | none =>
      rw [ho] at h
      cases h
    | some r2 =>
      rw [ho] at h
      simp only at h
      obtain ⟨i1, i2⟩ := ih r2 r1 h
      refine ⟨fun x => i1 (pool_run_op_ok r r2 o ho x), ?_⟩
      intro hs hw
      exact i2 (fun o1 h1 => hs o1 (List.mem_cons_of_mem _ h1))
        (pool_run_op_watermarks r r2 o ho (hs o (List.mem_cons_self _ _)) hw)

/-! ## The disk buffer pool: the watermark scenario -/

/-- With a memory-mapped cache, `free_buffer_impl` puts the slot computed from the block
into `m_free_list`, whatever block it is given. -/
theorem free_buffer_impl_mapped (p : disk_buffer_pool) (base buf : Int)
    (hcp : p.m_cache_pool = some base) :
    (free_buffer_impl p buf).m_free_list = p.m_free_list ++ [(buf - base).tdiv 16384] := by
  unfold free_buffer_impl
  rw [hcp]
  simp only
  split_ifs <;> rfl

/-- When no memory-mapped cache exists, `set_settings` with the name of a cache file creates
one if `open` and `mmap` succeed, whatever the number of blocks in use. -/
theorem set_settings_maps (p : disk_buffer_pool) (sett : session_settings) (open_fd : Int)
    (addr : Int) (errno : Int) (hcp : p.m_cache_pool = none)
    (hname : sett.mmap_cache.isEmpty = false) (hfd : 0 ≤ open_fd) :
    (set_settings p sett true open_fd (some addr) errno).m_cache_pool = some addr := by
  have hs : ∀ q : disk_buffer_pool, q.m_cache_pool = none →
      (set_size q sett).m_cache_pool = none := by
    intro q hq
    rw [(set_size_fields q sett).2.2.2.2.2.1, hq]
  have hlt : ¬open_fd < 0 := by omega
  unfold set_settings
  by_cases h0 : p.m_in_use = 0
  · simp [h0, hcp, hname, hlt, hs]
  · simp [h0, hcp, hname, hlt, hs]

/-- C25: the flag `m_using_pool_allocator` does change only when `in_use == 0`: no
allocation changes it, `set_settings` changes it only when `in_use` is 0, and a free
changes it only when it releases the last block.  Blocks are nevertheless freed by
another backing than the one that allocated them.  `set_settings` creates the
memory-mapped cache whatever the number of blocks in use (the test of line 458 covers
only a mapping that exists already), and from then on `free_buffer_impl` takes the branch
of the mapped cache for every block.  On a new pool configured for the heap, the block
4096 is allocated from the heap; `set_settings` with a cache file maps 40 slots at 65536
while the block is in use; freeing the block puts the slot `(4096 - 65536) / 0x4000 = -3`
into `m_free_list`, which then holds 41 entries for 40 slots, and the block is never given
back to the heap. -/
theorem heap_block_freed_into_mapped_cache :
    (∀ (p : disk_buffer_pool) (c handler : Nat) (m : Option Int) (e : Bool) (o : Option Nat),
      (allocate_buffer p c m).1.m_using_pool_allocator = p.m_using_pool_allocator ∧
      (allocate_buffer_observer p e o c m).1.m_using_pool_allocator =
        p.m_using_pool_allocator ∧
      (async_allocate_buffer p c handler m).1.m_using_pool_allocator =
        p.m_using_pool_allocator) ∧
    (∀ (p : disk_buffer_pool) (sett : session_settings) (have_mmap : Bool) (open_fd : Int)
      (mmap_ret : Option Int) (errno : Int),
      (set_settings p sett have_mmap open_fd mmap_ret errno).m_using_pool_allocator ≠
        p.m_using_pool_allocator → p.m_in_use = 0) ∧
    (∀ (p : disk_buffer_pool) (buf : Int) (ms : Nat → Option Int),
      (free_buffer p buf ms).m_using_pool_allocator ≠ p.m_using_pool_allocator →
      p.m_in_use - 1 = 0) ∧
    (∀ (p : disk_buffer_pool) (bufvec : List Int) (ms : Nat → Option Int),
      (free_multiple_buffers p bufvec ms).m_using_pool_allocator ≠ p.m_using_pool_allocator →
      1 ≤ p.m_in_use ∧ p.m_in_use ≤ (bufvec.length : Int)) ∧
    (∀ (p : disk_buffer_pool) (sett : session_settings) (open_fd addr errno : Int),
      p.m_cache_pool = none → sett.mmap_cache.isEmpty = false → 0 ≤ open_fd →
      (set_settings p sett true open_fd (some addr) errno).m_cache_pool = some addr ∧
      (set_settings p sett true open_fd (some addr) errno).m_in_use = p.m_in_use) ∧
    (∀ (p : disk_buffer_pool) (base buf : Int), p.m_cache_pool = some base →
      (free_buffer_impl p buf).m_free_list = p.m_free_list ++ [(buf - base).tdiv 16384]) ∧
    (set_settings (new_disk_buffer_pool 16384 false) wide_cache true 0 none 0).m_cache_pool =
      none ∧
    (set_settings (new_disk_buffer_pool 16384 false) wide_cache true 0 none
      0).m_using_pool_allocator = false ∧
    (allocate_buffer (set_settings (new_disk_buffer_pool 16384 false) wide_cache true 0 none 0)
      7 (some 4096)).2 = some 4096 ∧
    (set_settings
      (allocate_buffer (set_settings (new_disk_buffer_pool 16384 false) wide_cache true 0 none
        0) 7 (some 4096)).1
      (mapped_wide_cache 0) true 3 (some 65536) 0).m_in_use = 1 ∧
    (set_settings
      (allocate_buffer (set_settings (new_disk_buffer_pool 16384 false) wide_cache true 0 none
        0) 7 (some 4096)).1
      (mapped_wide_cache 0) true 3 (some 65536) 0).m_cache_pool = some 65536 ∧
    (set_settings
      (allocate_buffer (set_settings (new_disk_buffer_pool 16384 false) wide_cache true 0 none
        0) 7 (some 4096)).1
      (mapped_wide_cache 0) true 3 (some 65536) 0).m_free_list =
        (List.range 40).map Int.ofNat ∧
    (free_buffer
      (set_settings
        (allocate_buffer (set_settings (new_disk_buffer_pool 16384 false) wide_cache true 0
          none 0) 7 (some 4096)).1
        (mapped_wide_cache 0) true 3 (some 65536) 0)
      4096 (fun _ => none)).m_free_list = (List.range 40).map Int.ofNat ++ [-3] ∧
    (free_buffer
      (set_settings
        (allocate_buffer (set_settings (new_disk_buffer_pool 16384 false) wide_cache true 0
          none 0) 7 (some 4096)).1
        (mapped_wide_cache 0) true 3 (some 65536) 0)
      4096 (fun _ => none)).m_in_use = 0 ∧
    (free_buffer
      (set_settings
        (allocate_buffer (set_settings (new_disk_buffer_pool 16384 false) wide_cache true 0
          none 0) 7 (some 4096)).1
        (mapped_wide_cache 0) true 3 (some 65536) 0)
      4096 (fun _ => none)).m_max_use = 40 ∧
    ¬((65536 : Int) ≤ 4096 ∧ (4096 : Int) < 65536 + 40 * 16384) := by
  refine ⟨?_, ?_, ?_, ?_, ?_, free_buffer_impl_mapped, by decide, by decide, by decide,
    by decide, by decide, by decide, by decide, by decide, by decide, by decide⟩
  · intro p c handler m e o
    obtain ⟨f1, f2, f3⟩ := allocate_frame p c handler m e o
    exact ⟨f1.2.2.1, f2.2.2.1, f3.2.2.1⟩
  · intro p sett have_mmap open_fd mmap_ret errno h
    by_contra h0
    rw [(set_settings_fields p sett have_mmap open_fd mmap_ret errno).2.2.2.2, if_neg h0] at h
    exact h rfl
  · intro p buf ms h
    unfold free_buffer at h
    rw [(check_buffer_level_frame (free_buffer_impl p buf) ms).2.2.1] at h
    by_contra h0
    rw [(free_buffer_impl_strategy p buf).2, if_neg h0] at h
    exact h rfl
  · intro p bufvec ms h
    unfold free_multiple_buffers at h
    rw [(check_buffer_level_frame _ ms).2.2.1] at h
    have := free_all_strategy _ p h
    rw [List.length_insertionSort] at this
    exact this
  · intro p sett open_fd addr errno hcp hname hfd
    exact ⟨set_settings_maps p sett open_fd addr errno hcp hname hfd,
      (set_settings_fields p sett true open_fd (some addr) errno).1⟩

/-- C26, as stated, fails: once the memory-mapped cache of 40 blocks exists, a further
`set_settings` with another `max_queued_disk_bytes` leaves `low_watermark` at 24, where
the formula of the claim gives 8. -/
theorem set_settings_keeps_watermarks_of_mapped_cache :
    (set_settings
      (set_settings (new_disk_buffer_pool 16384 false) (mapped_wide_cache 0) true 3
        (some 65536) 0)
      (mapped_wide_cache 524288) true 3 (some 65536) 0).m_max_use = 40 ∧
    (set_settings
      (set_settings (new_disk_buffer_pool 16384 false) (mapped_wide_cache 0) true 3
        (some 65536) 0)
      (mapped_wide_cache 524288) true 3 (some 65536) 0).m_low_watermark = 24 ∧
    min (max (40 - max 16 ((524288 : Int) / 16384)) 0) 40 = (8 : Int) := by
  decide

/-- C26, amended: a new pool has `max_use = 64` and `low_watermark = 32`.  A `set_settings`
call changes the watermarks only when the size may change, that is unless a
memory-mapped cache exists and either blocks are in use or the settings name a cache file
again (and, in a build without memory mapping, only when the settings name no cache
file); it then sets `max_use` to the cache size and `low_watermark` to
`max(max_use - max(16, max_queued_disk_bytes / 16384), 0)`, which for a cache size that is
not negative is `clamp(max_use - max(16, max_queued_disk_bytes / 16384), 0, max_use)`;
otherwise both keep their values.  No allocation or free changes them.  Hence
`0 <= low_watermark <= max_use` in every state reached from a new pool by `set_settings`
calls with cache sizes that are not negative, allocations and frees. -/
theorem watermarks_ordered :
    (∀ (block_size : Int) (alert_disp : Bool),
      (new_disk_buffer_pool block_size alert_disp).m_max_use = 64 ∧
      (new_disk_buffer_pool block_size alert_disp).m_low_watermark = 32) ∧
    (∀ (p : disk_buffer_pool) (sett : session_settings) (have_mmap : Bool) (open_fd : Int)
      (mmap_ret : Option Int) (errno : Int),
      0 ≤ sett.cache_size →
      (¬(have_mmap = true ∧ p.m_cache_pool ≠ none ∧ p.m_in_use > 0) ∧
        ((have_mmap = true ∧ p.m_cache_pool = none) ∨ sett.mmap_cache.isEmpty = true)) →
      (set_settings p sett have_mmap open_fd mmap_ret errno).m_max_use = sett.cache_size ∧
      (set_settings p sett have_mmap open_fd mmap_ret errno).m_low_watermark =
        min (max ((set_settings p sett have_mmap open_fd mmap_ret errno).m_max_use -
          max 16 (sett.max_queued_disk_bytes / 16384)) 0)
          (set_settings p sett have_mmap open_fd mmap_ret errno).m_max_use ∧
      0 ≤ (set_settings p sett have_mmap open_fd mmap_ret errno).m_low_watermark ∧
      (set_settings p sett have_mmap open_fd mmap_ret errno).m_low_watermark ≤
        (set_settings p sett have_mmap open_fd mmap_ret errno).m_max_use) ∧
    (∀ (p : disk_buffer_pool) (sett : session_settings) (have_mmap : Bool) (open_fd : Int)
      (mmap_ret : Option Int) (errno : Int),
      ¬(¬(have_mmap = true ∧ p.m_cache_pool ≠ none ∧ p.m_in_use > 0) ∧
        ((have_mmap = true ∧ p.m_cache_pool = none) ∨ sett.mmap_cache.isEmpty = true)) →
      (set_settings p sett have_mmap open_fd mmap_ret errno).m_max_use = p.m_max_use ∧
      (set_settings p sett have_mmap open_fd mmap_ret errno).m_low_watermark =
        p.m_low_watermark) ∧
    (∀ (p : disk_buffer_pool) (c handler : Nat) (m : Option Int) (e : Bool) (o : Option Nat)
      (buf : Int) (bufvec : List Int) (ms : Nat → Option Int),
      ((allocate_buffer p c m).1.m_max_use = p.m_max_use ∧
        (allocate_buffer p c m).1.m_low_watermark = p.m_low_watermark) ∧
      ((allocate_buffer_observer p e o c m).1.m_max_use = p.m_max_use ∧
        (allocate_buffer_observer p e o c m).1.m_low_watermark = p.m_low_watermark) ∧
      ((async_allocate_buffer p c handler m).1.m_max_use = p.m_max_use ∧
        (async_allocate_buffer p c handler m).1.m_low_watermark = p.m_low_watermark) ∧
      ((free_buffer p buf ms).m_max_use = p.m_max_use ∧
        (free_buffer p buf ms).m_low_watermark = p.m_low_watermark) ∧
      ((free_multiple_buffers p bufvec ms).m_max_use = p.m_max_use ∧
        (free_multiple_buffers p bufvec ms).m_low_watermark = p.m_low_watermark)) ∧
    (∀ (block_size : Int) (alert_disp : Bool) (os : List pool_op) (r : pool_run),
      (∀ o ∈ os, o.size_ok) →
      (pool_run.start (new_disk_buffer_pool block_size alert_disp)).ops os = some r →
      0 ≤ r.pool.m_low_watermark ∧ r.pool.m_low_watermark ≤ r.pool.m_max_use) := by
  refine ⟨fun _ _ => ⟨rfl, rfl⟩, ?_, ?_, ?_, ?_⟩
  · intro p sett have_mmap open_fd mmap_ret errno hc hres
    obtain ⟨y1, y2⟩ := (set_settings_size p sett have_mmap open_fd mmap_ret errno).1 hres
    have hg : max (16 : Int) (sett.max_queued_disk_bytes.tdiv 16384) =
        max 16 (sett.max_queued_disk_bytes / 16384) := by
      by_cases hq : 0 ≤ sett.max_queued_disk_bytes
      · rw [Int.tdiv_eq_ediv hq (by norm_num)]
      · have h1 : sett.max_queued_disk_bytes.tdiv 16384 ≤ 0 := by
          have hn := @Int.tdiv_nonneg (-sett.max_queued_disk_bytes) 16384 (by omega)
            (by norm_num)
          rw [Int.neg_tdiv] at hn
          omega
        have h2 : sett.max_queued_disk_bytes / 16384 ≤ 0 := by omega
        rw [max_eq_left (by omega), max_eq_left (by omega)]
    have h16 : (16 : Int) ≤ max 16 (sett.max_queued_disk_bytes / 16384) := le_max_left _ _
    rw [y1, y2, hg]
    generalize max 16 (sett.max_queued_disk_bytes / 16384) = g at h16
    refine ⟨rfl, ?_, le_max_right _ _, max_le (by omega) hc⟩
    rw [min_eq_left (max_le (by omega) hc)]
  · intro p sett have_mmap open_fd mmap_ret errno hres
    exact (set_settings_size p sett have_mmap open_fd mmap_ret errno).2 hres
  · intro p c handler m e o buf bufvec ms
    obtain ⟨f1, f2, f3⟩ := allocate_frame p c handler m e o
    obtain ⟨g1, g2, _⟩ := check_buffer_level_frame (free_buffer_impl p buf) ms
    obtain ⟨_, _, _, _, _, _, a7, a8, _⟩ := free_buffer_impl_fields p buf
    obtain ⟨k1, k2, _⟩ := check_buffer_level_frame
      ((bufvec.insertionSort (· ≤ ·)).foldl free_buffer_impl p) ms
    obtain ⟨_, _, _, _, _, _, b7, b8, _⟩ := free_all_fields (bufvec.insertionSort (· ≤ ·)) p
    refine ⟨⟨f1.1, f1.2.1⟩, ⟨f2.1, f2.2.1⟩, ⟨f3.1, f3.2.1⟩, ?_, ?_⟩
    · unfold free_buffer
      exact ⟨g1.trans a7, g2.trans a8⟩
    · unfold free_multiple_buffers
      exact ⟨k1.trans b7, k2.trans b8⟩
  · intro block_size alert_disp os r hs hrun
    exact (pool_run_ops_ok os _ r hrun).2 hs (by
      constructor <;> simp [pool_run.start, new_disk_buffer_pool])

/-- The statement of `watermarks_ordered` for a new pool that is given the cache size 40
with 38 blocks of queued bytes, then holds a block, and is then given the cache size 4. -/
theorem watermarks_ordered_witness :
    (∀ o ∈ [pool_op.set_settings wide_cache true 0 none 0,
        .call (.allocate_buffer 7 (some 4096)),
        .set_settings medium_cache true 0 none 0], o.size_ok) ∧
    ∃ r, (pool_run.start (new_disk_buffer_pool 16384 false)).ops
        [.set_settings wide_cache true 0 none 0,
          .call (.allocate_buffer 7 (some 4096)),
          .set_settings medium_cache true 0 none 0] = some r ∧
      r.pool.m_max_use = 4 ∧ r.pool.m_low_watermark = 0 ∧
      0 ≤ r.pool.m_low_watermark ∧ r.pool.m_low_watermark ≤ r.pool.m_max_use :=
  ⟨by
      intro o ho
      simp only [List.mem_cons, List.mem_singleton, List.not_mem_nil, or_false] at ho
      rcases ho with rfl | rfl | rfl
      · show (0 : Int) ≤ 40
        decide
      · trivial
      · show (0 : Int) ≤ 4
        decide,
    _, rfl, rfl, rfl,
    watermarks_ordered.2.2.2.2 16384 false
      [.set_settings wide_cache true 0 none 0,
        .call (.allocate_buffer 7 (some 4096)),
        .set_settings medium_cache true 0 none 0] _
      (by
        intro o ho
        simp only [List.mem_cons, List.mem_singleton, List.not_mem_nil, or_false] at ho
        rcases ho with rfl | rfl | rfl
        · show (0 : Int) ≤ 40
          decide
        · trivial
        · show (0 : Int) ≤ 4
          decide)
      rfl⟩


/-! ## The uTP socket manager: dispatch of datagrams -/

theorem connection_id_range (p : List Nat) (c : Int) (h : connection_id p = some c) :
    0 ≤ c ∧ c < 65536 := by
  unfold connection_id at h
  cases h2 : rd p 2 with
  | none => simp [h2] at h
  | some hi =>
    cases h3 : rd p 3 with
    | none => simp [h2, h3] at h
    | some lo =>
      simp only [h2, h3, Option.some.injEq] at h
      subst h
      constructor
      · omega
      · have h1 : hi % 256 < 256 := Nat.mod_lt _ (by norm_num)
        have h4 : lo % 256 < 256 := Nat.mod_lt _ (by norm_num)
        omega

theorem mem_multimap_insert (k : Int) (v : utp_socket_impl) :
    ∀ (l : List (Int × utp_socket_impl)), (k, v) ∈ multimap_insert k v l := by
  intro l
  induction l with
  | nil => simp [multimap_insert]
  | cons e es ih =>
    unfold multimap_insert
    split_ifs
    · exact List.mem_cons_self _ _
    · exact List.mem_cons_of_mem _ ih

/-- C27: `incoming_packet` rejects a datagram whose size is below the 20 bytes of the
header, and a datagram whose version field is not 1: it returns false and leaves the
manager as it is, so the datagram is delivered to no connection, no connection is
created, and the directory, `m_last_socket` and `m_new_connection` are unchanged. -/
theorem incoming_packet_rejects (env : utp_env) (m : utp_socket_manager) (p : List Nat)
    (size : Int) (ep : Nat) (new_ok : Bool) (impl_ptr : Nat) (rand : Int) :
    (0 ≤ size → size < 20 →
      incoming_packet env m p size ep new_ok impl_ptr rand = some (m, false)) ∧
    (∀ version, get_version p = some version → version ≠ 1 →
      incoming_packet env m p size ep new_ok impl_ptr rand = some (m, false)) := by
  constructor
  · intro h0 h1
    unfold incoming_packet sizeof_utp_header
    rw [if_pos (by omega)]
  · intro version hv hne
    unfold incoming_packet
    by_cases hsz : size % 18446744073709551616 < sizeof_utp_header
    · rw [if_pos hsz]
    · rw [if_neg hsz]
      simp only [hv]
      rw [if_pos hne]

/-- The statement of `incoming_packet_rejects` for a SYN of 19 bytes and for a SYN of 20
bytes with the version 2, sent to a manager that accepts incoming connections. -/
theorem incoming_packet_rejects_witness :
    (0 : Int) ≤ 19 ∧ (19 : Int) < 20 ∧
    incoming_packet accepting_env (new_utp_socket_manager true) (utp_packet 4 7) 19 1 true 100 0
      = some (new_utp_socket_manager true, false) ∧
    get_version ([66, 0, 0, 7] ++ List.replicate 16 0) = some 2 ∧ (2 : Nat) ≠ 1 ∧
    incoming_packet accepting_env (new_utp_socket_manager true)
      ([66, 0, 0, 7] ++ List.replicate 16 0) 20 1 true 100 0
      = some (new_utp_socket_manager true, false) :=
  ⟨by decide, by decide,
    (incoming_packet_rejects accepting_env (new_utp_socket_manager true) (utp_packet 4 7) 19 1
      true 100 0).1 (by decide) (by decide),
    by decide, by decide,
    (incoming_packet_rejects accepting_env (new_utp_socket_manager true)
      ([66, 0, 0, 7] ++ List.replicate 16 0) 20 1 true 100 0).2 2 (by decide) (by decide)⟩

/-- C28, as stated, fails: for the SYN with `connection_id = 7` that matches no connection,
the connection created through `new_utp_socket` has `send_id = 7` and `recv_id = 8` and is
registered under the key 8. -/
theorem syn_connection_ids_inverted :
    (new_utp_socket { new_utp_socket_manager true with m_new_connection := 7 } 100 0).2 =
      { ptr := 100, m_recv_id := 8, m_send_id := 7, m_remote := none } ∧
    incoming_packet accepting_env (new_utp_socket_manager true) (utp_packet 4 7) 20 1 true 100 0
      = some ({ m_utp_sockets :=
                  [(8, { ptr := 100, m_recv_id := 8, m_send_id := 7, m_remote := some 1 })]
                m_last_socket := none
                m_new_connection := -1
                enable_incoming_utp := true
                delivered := [100]
                accepted := [100] }, true) := by
  decide

/-- C28, amended: for an inbound `ST_SYN` with `connection_id = c` that matches no existing
connection, with incoming uTP enabled, the connection created through `new_utp_socket` has
`send_id = c` and `recv_id = c + 1` (mod `2^16`) and is registered in the directory under
the key `recv_id = c + 1`; `m_new_connection` is reset to `-1`.  The SYN is then delivered
to that connection, and the accept callback is called when the delivery succeeds. -/
theorem syn_creates_connection (env : utp_env) (m : utp_socket_manager) (p : List Nat)
    (size : Int) (ep : Nat) (impl_ptr : Nat) (rand : Int) (c : Int)
    (hs1 : 20 ≤ size) (hs2 : size < 18446744073709551616)
    (hv : get_version p = some 1) (ht : get_type p = some ST_SYN)
    (hid : connection_id p = some c)
    (hlast : last_socket_matches m ep c = some false)
    (hnone : (equal_range m c).find? (fun e => utp_match e.2 ep c) = none)
    (hen : m.enable_incoming_utp = true) :
    (new_utp_socket { m with m_new_connection := c } impl_ptr rand).2 =
      { ptr := impl_ptr, m_recv_id := (c + 1) % 65536, m_send_id := c, m_remote := none } ∧
    (new_utp_socket { m with m_new_connection := c } impl_ptr rand).1.m_utp_sockets =
      multimap_insert ((c + 1) % 65536)
        { ptr := impl_ptr, m_recv_id := (c + 1) % 65536, m_send_id := c, m_remote := none }
        m.m_utp_sockets ∧
    (new_utp_socket { m with m_new_connection := c } impl_ptr rand).1.m_new_connection = -1 ∧
    incoming_packet env m p size ep true impl_ptr rand =
      some
        (if (deliver env (new_utp_socket { m with m_new_connection := c } impl_ptr rand).1
            (new_utp_socket { m with m_new_connection := c } impl_ptr rand).2 p size ep).2
            = false then
          ((deliver env (new_utp_socket { m with m_new_connection := c } impl_ptr rand).1
            (new_utp_socket { m with m_new_connection := c } impl_ptr rand).2 p size ep).1,
            false)
        else
          ({ (deliver env (new_utp_socket { m with m_new_connection := c } impl_ptr rand).1
              (new_utp_socket { m with m_new_connection := c } impl_ptr rand).2 p size ep).1
              with accepted :=
                (deliver env (new_utp_socket { m with m_new_connection := c } impl_ptr rand).1
                  (new_utp_socket { m with m_new_connection := c } impl_ptr rand).2 p size
                  ep).1.accepted ++ [impl_ptr] },
            true)) := by
  obtain ⟨c0, c1⟩ := connection_id_range p c hid
  have hne : c ≠ -1 := by omega
  have hmod : c % 65536 = c := by omega
  have hnew : new_utp_socket { m with m_new_connection := c } impl_ptr rand =
      ({ m with
          m_new_connection := -1
          m_utp_sockets := multimap_insert ((c + 1) % 65536)
            { ptr := impl_ptr, m_recv_id := (c + 1) % 65536, m_send_id := c, m_remote := none }
            m.m_utp_sockets },
        { ptr := impl_ptr, m_recv_id := (c + 1) % 65536, m_send_id := c, m_remote := none }) := by
    unfold new_utp_socket
    simp [hne, hmod]
  refine ⟨by rw [hnew], by rw [hnew], by rw [hnew], ?_⟩
  unfold incoming_packet sizeof_utp_header instantiate_connection
  rw [if_neg (by omega)]
  simp only [hv, hid, hlast, hnone, hen, ht]
  simp
  split_ifs <;> rfl

/-- The statement of `syn_creates_connection` for the SYN with `connection_id = 7` sent to
a manager without connections. -/
theorem syn_creates_connection_witness :
    (20 : Int) ≤ 20 ∧ (20 : Int) < 18446744073709551616 ∧
    get_version (utp_packet 4 7) = some 1 ∧ get_type (utp_packet 4 7) = some ST_SYN ∧
    connection_id (utp_packet 4 7) = some 7 ∧
    last_socket_matches (new_utp_socket_manager true) 1 7 = some false ∧
    (equal_range (new_utp_socket_manager true) 7).find? (fun e => utp_match e.2 1 7) = none ∧
    (new_utp_socket_manager true).enable_incoming_utp = true ∧
    (new_utp_socket { new_utp_socket_manager true with m_new_connection := 7 } 100 0).2 =
      { ptr := 100, m_recv_id := (7 + 1) % 65536, m_send_id := 7, m_remote := none } :=
  ⟨by decide, by decide, by decide, by decide, by decide, by decide, by decide, by decide,
    (syn_creates_connection accepting_env (new_utp_socket_manager true) (utp_packet 4 7) 20 1
      100 0 7 (by decide) (by decide) (by decide) (by decide) (by decide) (by decide)
      (by decide) (by decide)).1⟩

/-- C29: for a connection created by `new_utp_socket` while `m_new_connection == -1`,
whatever `rand()` returns, `send_id` is that value modulo `2^16` and
`send_id = recv_id + 1` modulo `2^16`; in particular `send_id = 0` goes with
`recv_id = 65535`.  The connection is inserted in the directory under its `recv_id`. -/
theorem new_utp_socket_outgoing (m : utp_socket_manager) (impl_ptr : Nat) (rand : Int)
    (h : m.m_new_connection = -1) :
    (new_utp_socket m impl_ptr rand).2.m_send_id = rand % 65536 ∧
    (new_utp_socket m impl_ptr rand).2.m_recv_id = (rand % 65536 - 1) % 65536 ∧
    (new_utp_socket m impl_ptr rand).2.m_send_id =
      ((new_utp_socket m impl_ptr rand).2.m_recv_id + 1) % 65536 ∧
    ((new_utp_socket m impl_ptr rand).2.m_send_id = 0 →
      (new_utp_socket m impl_ptr rand).2.m_recv_id = 65535) ∧
    (new_utp_socket m impl_ptr rand).1.m_utp_sockets =
      multimap_insert (new_utp_socket m impl_ptr rand).2.m_recv_id
        (new_utp_socket m impl_ptr rand).2 m.m_utp_sockets ∧
    ((new_utp_socket m impl_ptr rand).2.m_recv_id, (new_utp_socket m impl_ptr rand).2) ∈
      (new_utp_socket m impl_ptr rand).1.m_utp_sockets ∧
    (new_utp_socket m impl_ptr rand).1.m_new_connection = -1 := by
  have hnew : new_utp_socket m impl_ptr rand =
      ({ m with
          m_new_connection := -1
          m_utp_sockets := multimap_insert ((rand % 65536 - 1) % 65536)
            { ptr := impl_ptr, m_recv_id := (rand % 65536 - 1) % 65536,
              m_send_id := rand % 65536, m_remote := none }
            m.m_utp_sockets },
        { ptr := impl_ptr, m_recv_id := (rand % 65536 - 1) % 65536,
          m_send_id := rand % 65536, m_remote := none }) := by
    unfold new_utp_socket
    simp [h]
  rw [hnew]
  refine ⟨rfl, rfl, ?_, ?_, rfl, mem_multimap_insert _ _ _, rfl⟩
  · simp only
    omega
  · simp only
    omega

/-- The statement of `new_utp_socket_outgoing` for a new manager and a random value whose
low 16 bits are zero. -/
theorem new_utp_socket_outgoing_witness :
    (new_utp_socket_manager true).m_new_connection = -1 ∧
    (new_utp_socket (new_utp_socket_manager true) 100 131072).2.m_send_id = 0 ∧
    (new_utp_socket (new_utp_socket_manager true) 100 131072).2.m_recv_id = 65535 ∧
    (new_utp_socket (new_utp_socket_manager true) 100 131072).2.m_send_id =
      ((new_utp_socket (new_utp_socket_manager true) 100 131072).2.m_recv_id + 1) % 65536 :=
  ⟨rfl, by decide, by decide,
    (new_utp_socket_outgoing (new_utp_socket_manager true) 100 131072 rfl).2.2.1⟩

/-- C30: for a valid datagram (size at least 20, version 1) with `connection_id = id` from
the endpoint `ep`, when `m_last_socket` does not match `(ep, id)`, `incoming_packet` passes
the datagram to the first connection of the directory that is registered under the key
`id` and matches `(ep, id)`, to that connection only, and returns the result of that
delivery (caching the connection in `m_last_socket` when the result is true).  The
connections before it in the directory either have another key or do not match, and no
other entry of the directory is touched. -/
theorem incoming_packet_dispatch (env : utp_env) (m : utp_socket_manager) (p : List Nat)
    (size : Int) (ep : Nat) (new_ok : Bool) (impl_ptr : Nat) (rand : Int) (id : Int)
    (e : Int × utp_socket_impl)
    (hs1 : 20 ≤ size) (hs2 : size < 18446744073709551616)
    (hv : get_version p = some 1) (hid : connection_id p = some id)
    (hlast : last_socket_matches m ep id = some false)
    (hfind : (equal_range m id).find? (fun x => utp_match x.2 ep id) = some e) :
    (∃ m1, incoming_packet env m p size ep new_ok impl_ptr rand =
        some (m1, (env.utp_incoming_packet e.2 p size ep).1) ∧
      m1.delivered = m.delivered ++ [e.2.ptr] ∧
      m1.accepted = m.accepted ∧
      m1.m_last_socket =
        (if (env.utp_incoming_packet e.2 p size ep).1 = true then some e.2.ptr
          else m.m_last_socket) ∧
      m1.m_utp_sockets = m.m_utp_sockets.map
        (fun x => if x.2.ptr = e.2.ptr then
          (x.1, { (env.utp_incoming_packet e.2 p size ep).2 with ptr := e.2.ptr }) else x)) ∧
    e.1 = id ∧ e.2.m_remote = some ep ∧ e.2.m_recv_id = id ∧
    (∃ l1 l2, m.m_utp_sockets = l1 ++ e :: l2 ∧
      ∀ x ∈ l1, ¬(x.1 = id ∧ x.2.m_remote = some ep ∧ x.2.m_recv_id = id)) := by
  unfold equal_range at hfind
  rw [List.find?_filter, List.find?_eq_some] at hfind
  obtain ⟨hpe, l1, l2, hsplit, hbefore⟩ := hfind
  simp only [utp_match, Bool.and_eq_true, decide_eq_true_eq] at hpe
  have hfind1 : (equal_range m id).find? (fun x => utp_match x.2 ep id) = some e := by
    unfold equal_range
    rw [List.find?_filter, List.find?_eq_some]
    refine ⟨?_, l1, l2, hsplit, hbefore⟩
    simp only [utp_match, Bool.and_eq_true, decide_eq_true_eq]
    exact hpe
  refine ⟨?_, ?_, hpe.2.1, hpe.2.2, l1, l2, hsplit, ?_⟩
  · refine ⟨{ (deliver env m e.2 p size ep).1 with
        m_last_socket := if (deliver env m e.2 p size ep).2 then some e.2.ptr
          else (deliver env m e.2 p size ep).1.m_last_socket }, ?_, rfl, rfl, rfl, rfl⟩
    unfold incoming_packet sizeof_utp_header
    rw [if_neg (by omega)]
    simp only [hv, hid, hlast, hfind1]
    simp only [ne_eq, not_true_eq_false, if_false]
    rfl
  · simpa using hpe.1
  · intro x hx hcon
    have := hbefore x hx
    simp only [utp_match, Bool.and_eq_true, decide_eq_true_eq, Bool.not_eq_true',
      decide_eq_false_iff_not] at this
    exact this ⟨hcon.1, hcon.2.1, hcon.2.2⟩

/-- The statement of `incoming_packet_dispatch` for a data packet with `connection_id = 7`
from the endpoint 2, sent to a manager in which two connections collide on `recv_id = 7`:
the second connection, whose remote endpoint is 2, receives it. -/
theorem incoming_packet_dispatch_witness :
    (20 : Int) ≤ 20 ∧ (20 : Int) < 18446744073709551616 ∧
    get_version (utp_packet 0 7) = some 1 ∧ connection_id (utp_packet 0 7) = some 7 ∧
    last_socket_matches colliding_manager 2 7 = some false ∧
    (equal_range colliding_manager 7).find? (fun x => utp_match x.2 2 7) =
      some (7, { ptr := 200, m_recv_id := 7, m_send_id := 8, m_remote := some 2 }) ∧
    (incoming_packet accepting_env colliding_manager (utp_packet 0 7) 20 2 true 300 0).map
      (fun r => (r.1.delivered, r.1.m_last_socket, r.2)) = some ([200], some 200, true) ∧
    ∃ m1, incoming_packet accepting_env colliding_manager (utp_packet 0 7) 20 2 true 300 0 =
        some (m1, (accepting_env.utp_incoming_packet
          ((7, { ptr := 200, m_recv_id := 7, m_send_id := 8, m_remote := some 2 }) :
            Int × utp_socket_impl).2 (utp_packet 0 7) 20 2).1) ∧
      m1.delivered = colliding_manager.delivered ++ [200] ∧
      m1.accepted = colliding_manager.accepted ∧
      m1.m_last_socket =
        (if (accepting_env.utp_incoming_packet
            ((7, { ptr := 200, m_recv_id := 7, m_send_id := 8, m_remote := some 2 }) :
              Int × utp_socket_impl).2 (utp_packet 0 7) 20 2).1 = true then some 200
          else colliding_manager.m_last_socket) ∧
      m1.m_utp_sockets = colliding_manager.m_utp_sockets.map
        (fun x => if x.2.ptr = 200 then
          (x.1, { (accepting_env.utp_incoming_packet
            ((7, { ptr := 200, m_recv_id := 7, m_send_id := 8, m_remote := some 2 }) :
              Int × utp_socket_impl).2 (utp_packet 0 7) 20 2).2 with ptr := 200 }) else x) :=
  ⟨by decide, by decide, by decide, by decide, by decide, by decide, by decide,
    (incoming_packet_dispatch accepting_env colliding_manager (utp_packet 0 7) 20 2 true 300 0
      7 (7, { ptr := 200, m_recv_id := 7, m_send_id := 8, m_remote := some 2 })
      (by decide) (by decide) (by decide) (by decide) (by decide) (by decide)).1⟩

/-! ## Claims about the remaining cases of the dispatch and of the decoder -/

/-- C31: a valid datagram that matches no existing connection is dropped when incoming uTP
is disabled or when its type is not `ST_SYN`: `incoming_packet` returns false and leaves
the manager as it is, so no connection is created, the accept callback is not called, and
the directory, `m_last_socket` and `m_new_connection` are unchanged. -/
theorem incoming_packet_drops (env : utp_env) (m : utp_socket_manager) (p : List Nat)
    (size : Int) (ep : Nat) (new_ok : Bool) (impl_ptr : Nat) (rand : Int) (id : Int)
    (hs1 : 20 ≤ size) (hs2 : size < 18446744073709551616)
    (hv : get_version p = some 1) (hid : connection_id p = some id)
    (hlast : last_socket_matches m ep id = some false)
    (hnone : (equal_range m id).find? (fun e => utp_match e.2 ep id) = none) :
    (m.enable_incoming_utp = false →
      incoming_packet env m p size ep new_ok impl_ptr rand = some (m, false)) ∧
    (∀ type, get_type p = some type → type ≠ ST_SYN →
      incoming_packet env m p size ep new_ok impl_ptr rand = some (m, false)) := by
  constructor
  · intro hen
    unfold incoming_packet sizeof_utp_header
    rw [if_neg (by omega)]
    simp only [hv, hid, hlast, hnone, hen]
    simp
  · intro type ht hne
    unfold incoming_packet sizeof_utp_header
    rw [if_neg (by omega)]
    simp only [hv, hid, hlast, hnone, ht]
    simp only [ne_eq, not_true_eq_false, if_false, if_neg hne]
    split_ifs <;> rfl

/-- The statement of `incoming_packet_drops` for a data packet from an endpoint that no
connection of the manager has, and for a SYN sent to a manager with incoming uTP
disabled. -/
theorem incoming_packet_drops_witness :
    (20 : Int) ≤ 20 ∧ (20 : Int) < 18446744073709551616 ∧
    get_version (utp_packet 0 7) = some 1 ∧ connection_id (utp_packet 0 7) = some 7 ∧
    last_socket_matches colliding_manager 3 7 = some false ∧
    (equal_range colliding_manager 7).find? (fun e => utp_match e.2 3 7) = none ∧
    get_type (utp_packet 0 7) = some 0 ∧ (0 : Nat) ≠ ST_SYN ∧
    incoming_packet accepting_env colliding_manager (utp_packet 0 7) 20 3 true 300 0 =
      some (colliding_manager, false) ∧
    (new_utp_socket_manager false).enable_incoming_utp = false ∧
    incoming_packet accepting_env (new_utp_socket_manager false) (utp_packet 4 7) 20 3 true
      300 0 = some (new_utp_socket_manager false, false) :=
  ⟨by decide, by decide, by decide, by decide, by decide, by decide, by decide, by decide,
    (incoming_packet_drops accepting_env colliding_manager (utp_packet 0 7) 20 3 true 300 0 7
      (by decide) (by decide) (by decide) (by decide) (by decide) (by decide)).2 0
      (by decide) (by decide),
    by decide,
    (incoming_packet_drops accepting_env (new_utp_socket_manager false) (utp_packet 4 7) 20 3
      true 300 0 7 (by decide) (by decide) (by decide) (by decide) (by decide)
      (by decide)).1 (by decide)⟩

/-- C32: the byte at a dictionary key position is not tested.  On the 24-byte buffer `dA:`,
17 bytes `x`, `i1ee` the byte `A` is read as the key length `'A' - '0' = 17`: the call
returns success with a dictionary of one pair.  On `d!:xx` the byte `!` is read as the
length `-15` and the call reads outside the buffer. -/
theorem lazy_bdecode_key_not_validated :
    lazy_bdecode (bytes "dA:xxxxxxxxxxxxxxxxxi1ee") .none_t 1000 =
      .returned 0 (0 :: 0 :: bytes ":xxxxxxxxxxxxxxxxx" ++ 0 :: bytes "1" ++ [0, 0])
        (.dict_t [(3, .int_t 21)]) ∧
    lazy_bdecode (bytes "d!:xx") .none_t 1000 ≠ .returned (-1) (bytes "d!:xx") .none_t ∧
    lazy_bdecode (bytes "d!:xx") .none_t 1000 = .fault := by
  refine ⟨rfl, ?_, rfl⟩
  intro h
  have hf : lazy_bdecode (bytes "d!:xx") .none_t 1000 = .fault := rfl
  rw [hf] at h
  cases h

/-- C33: the read position does move backwards.  On the 13-byte buffer `l6:xi0eeed/1:` the
key length of the dictionary is computed from `/1` as `-9`; the pass that starts at
offset 10 ends at offset 7, inside the string decoded before, and the call returns
success.  The part of the claim that the loop terminates on every input does hold: every
pass that goes round again clears a byte that was not NUL before. -/
theorem lazy_bdecode_moves_backwards :
    loop_positions 1000 14
      { buf := bytes "l6:xi0eeed/1:", start := 0, stack := [.none_t], ret := .none_t } =
      [0, 1, 9, 10, 7, 8, 9] ∧
    (∃ buf ret, lazy_bdecode (bytes "l6:xi0eeed/1:") .none_t 1000 = .returned 0 buf ret) ∧
    (∀ (buf : List Nat) (ret : lazy_entry) (depth_limit : Int),
      lazy_bdecode buf ret depth_limit ≠ .timeout) :=
  ⟨rfl, ⟨_, _, rfl⟩, lazy_bdecode_terminates⟩


/-! ## The disk buffer pool: the allocator in use when no block is held -/

theorem pool_run_free_one_settled (r r1 : pool_run) (buf : Int)
    (h : r.free_one buf = some r1) :
    r1.pool.m_in_use = 0 → r1.pool.m_using_pool_allocator = r1.pool.m_want_pool_allocator := by
  intro h0
  rw [(pool_run_free_one_ok r r1 buf h).1] at h0 ⊢
  obtain ⟨s1, s2⟩ := free_buffer_impl_strategy r.pool buf
  rw [(free_buffer_impl_fields r.pool buf).1] at h0
  rw [s1, s2, if_pos h0]

theorem pool_run_free_all_settled : ∀ (bufs : List Int) (r r1 : pool_run),
    r.free_all bufs = some r1 →
    (r.pool.m_in_use = 0 → r.pool.m_using_pool_allocator = r.pool.m_want_pool_allocator) →
    (r1.pool.m_in_use = 0 →
      r1.pool.m_using_pool_allocator = r1.pool.m_want_pool_allocator) := by
  intro bufs
  induction bufs with
  | nil =>
    intro r r1 h hs
    simp only [pool_run.free_all, Option.some.injEq] at h
    subst h
    exact hs
  | cons b bs ih =>
    intro r r1 h _
    unfold pool_run.free_all at h
    cases hf : r.free_one b with
    | none =>
      rw [hf] at h
      cases h
    | some r2 =>
      rw [hf] at h
      simp only at h
      exact ih r2 r1 h (pool_run_free_one_settled r r2 b hf)

theorem pool_run_wake_settled (r : pool_run) (ms : Nat → Option Int) (hk : r.ok)
    (hs : r.pool.m_in_use = 0 →
      r.pool.m_using_pool_allocator = r.pool.m_want_pool_allocator) :
    (r.wake ms).pool.m_in_use = 0 →
      (r.wake ms).pool.m_using_pool_allocator = (r.wake ms).pool.m_want_pool_allocator := by
  intro h0
  have hin := check_buffer_level_in_use r.pool ms
  obtain ⟨_, _, f3, f4⟩ := check_buffer_level_frame r.pool ms
  simp only [pool_run.wake, pool_run.take] at h0 ⊢
  rw [f3, f4]
  apply hs
  have := hk.1
  omega

/-- One operation keeps the allocator in use equal to the allocator wanted whenever no
block is held. -/
theorem pool_run_op_settled (r r1 : pool_run) (o : pool_op) (h : r.op o = some r1)
    (hk : r.ok)
    (hs : r.pool.m_in_use = 0 →
      r.pool.m_using_pool_allocator = r.pool.m_want_pool_allocator) :
    r1.pool.m_in_use = 0 →
      r1.pool.m_using_pool_allocator = r1.pool.m_want_pool_allocator := by
  have hk1 := pool_run_op_ok r r1 o h hk
  cases o with
  | call c =>
    cases c with
    | allocate_buffer category m =>
      simp only [pool_run.op, Option.some.injEq] at h
      subst h
      intro h0
      obtain ⟨_, _, f3, f4⟩ := (allocate_frame r.pool category 0 m false none).1
      have hin := (allocate_buffer_impl_fields r.pool category m).2.2.2.2.2.2.1
      simp only [pool_run.take] at h0 ⊢
      rw [f3, f4]
      apply hs
      have := hk.1
      simp only [allocate_buffer] at h0
      omega
    | allocate_buffer_observer exceeded ob category m =>
      simp only [pool_run.op, Option.some.injEq] at h
      subst h
      intro h0
      obtain ⟨_, _, f3, f4⟩ := (allocate_frame r.pool category 0 m exceeded ob).2.1
      obtain ⟨_, o2, _⟩ := allocate_buffer_observer_fields r.pool exceeded ob category m
      have hin := (allocate_buffer_impl_fields r.pool category m).2.2.2.2.2.2.1
      simp only [pool_run.take] at h0 ⊢
      rw [f3, f4]
      apply hs
      have := hk.1
      rw [o2] at h0
      omega
    | async_allocate_buffer category handler m =>
      simp only [pool_run.op, Option.some.injEq] at h
      subst h
      intro h0
      obtain ⟨_, _, f3, f4⟩ := (allocate_frame r.pool category handler m false none).2.2
      simp only [pool_run.take] at h0 ⊢
      rw [f3, f4]
      apply hs
      have := hk.1
      by_cases he : r.pool.m_exceeded_max_size = true
      · rw [(async_cases r.pool category handler m).1 he] at h0
        exact h0
      · rw [(async_cases r.pool category handler m).2 he] at h0
        have hin := (allocate_buffer_impl_fields r.pool category m).2.2.2.2.2.2.1
        omega
    | free_buffer buf ms =>
      simp only [pool_run.op] at h
      cases hf : r.free_one buf with
      | none =>
        rw [hf] at h
        cases h
      | some r2 =>
        rw [hf] at h
        simp only [Option.map_some', Option.some.injEq] at h
        subst h
        exact pool_run_wake_settled r2 ms ((pool_run_free_one_ok r r2 buf hf).2 hk)
          (pool_run_free_one_settled r r2 buf hf)
    | free_multiple_buffers bufvec ms =>
      simp only [pool_run.op] at h
      cases hf : r.free_all (bufvec.insertionSort (· ≤ ·)) with
      | none =>
        rw [hf] at h
        cases h
      | some r2 =>
        rw [hf] at h
        simp only [Option.map_some', Option.some.injEq] at h
        subst h
        exact pool_run_wake_settled r2 ms ((pool_run_free_all_ok _ r r2 hf).2 hk)
          (pool_run_free_all_settled _ r r2 hf hs)
  | set_settings sett have_mmap open_fd mmap_ret errno =>
    simp only [pool_run.op, Option.some.injEq] at h
    subst h
    intro h0
    obtain ⟨f1, _, _, f4, f5⟩ := set_settings_fields r.pool sett have_mmap open_fd mmap_ret errno
    simp only at h0 ⊢
    rw [f1] at h0
    rw [f4, f5, if_pos h0]

theorem pool_run_ops_settled : ∀ (os : List pool_op) (r r1 : pool_run), r.ops os = some r1 →
    r.ok →
    (r.pool.m_in_use = 0 → r.pool.m_using_pool_allocator = r.pool.m_want_pool_allocator) →
    (r1.pool.m_in_use = 0 →
      r1.pool.m_using_pool_allocator = r1.pool.m_want_pool_allocator) := by
  intro os
  induction os with
  | nil =>
    intro r r1 h _ hs
    simp only [pool_run.ops, Option.some.injEq] at h
    subst h
    exact hs
  | cons o os ih =>
    intro r r1 h hk hs
    unfold pool_run.ops at h
    cases ho : r.op o with
    | none =>
      rw [ho] at h
      cases h
    | some r2 =>
      rw [ho] at h
      simp only at h
      exact ih r2 r1 h (pool_run_op_ok r r2 o ho hk) (pool_run_op_settled r r2 o ho hk hs)

/-- C34: in every state reached from a new pool by `set_settings`, allocations and frees
of held blocks, `in_use == 0` implies `m_using_pool_allocator == m_want_pool_allocator`.
In particular the free that brings `in_use` to 0 makes the allocator in use the one
requested last, whatever was in use before. -/
theorem strategy_settled_at_zero :
    (∀ (block_size : Int) (alert_disp : Bool) (os : List pool_op) (r : pool_run),
      (pool_run.start (new_disk_buffer_pool block_size alert_disp)).ops os = some r →
      r.pool.m_in_use = 0 →
      r.pool.m_using_pool_allocator = r.pool.m_want_pool_allocator) ∧
    (∀ (p : disk_buffer_pool) (buf : Int) (ms : Nat → Option Int),
      p.m_in_use - 1 = 0 →
      (free_buffer_impl p buf).m_using_pool_allocator = p.m_want_pool_allocator ∧
      (free_buffer p buf ms).m_using_pool_allocator = p.m_want_pool_allocator) ∧
    (∀ (p : disk_buffer_pool) (sett : session_settings) (have_mmap : Bool) (open_fd : Int)
      (mmap_ret : Option Int) (errno : Int),
      (set_settings p sett have_mmap open_fd mmap_ret errno).m_want_pool_allocator =
        sett.use_disk_cache_pool ∧
      (p.m_in_use ≠ 0 →
        (set_settings p sett have_mmap open_fd mmap_ret errno).m_using_pool_allocator =
          p.m_using_pool_allocator)) := by
  refine ⟨?_, ?_, ?_⟩
  · intro block_size alert_disp os r hrun
    apply pool_run_ops_settled os _ r hrun
    · refine ⟨?_, ?_, rfl⟩
      · simp [pool_run.start, new_disk_buffer_pool]
      · intro e he
        simp [pool_run.start] at he
    · intro _
      rfl
  · intro p buf ms h0
    obtain ⟨_, s2⟩ := free_buffer_impl_strategy p buf
    refine ⟨by rw [s2, if_pos h0], ?_⟩
    unfold free_buffer
    rw [(check_buffer_level_frame (free_buffer_impl p buf) ms).2.2.1, s2, if_pos h0]
  · intro p sett have_mmap open_fd mmap_ret errno
    obtain ⟨_, _, _, f4, f5⟩ := set_settings_fields p sett have_mmap open_fd mmap_ret errno
    refine ⟨f4, ?_⟩
    intro hne
    rw [f5, if_neg hne]

/-- The statement of `strategy_settled_at_zero` for a new pool on which the pool allocator
is requested while a block is held: the heap stays in use until the block is freed. -/
theorem strategy_settled_at_zero_witness :
    (∃ r, (pool_run.start (new_disk_buffer_pool 16384 false)).ops
        [.set_settings small_cache true 0 none 0,
          .call (.allocate_buffer 7 (some 4096)),
          .set_settings { small_cache with use_disk_cache_pool := true } true 0 none 0]
        = some r ∧
      r.pool.m_in_use = 1 ∧ r.pool.m_using_pool_allocator = false ∧
      r.pool.m_want_pool_allocator = true) ∧
    ∃ r, (pool_run.start (new_disk_buffer_pool 16384 false)).ops
        [.set_settings small_cache true 0 none 0,
          .call (.allocate_buffer 7 (some 4096)),
          .set_settings { small_cache with use_disk_cache_pool := true } true 0 none 0,
          .call (.free_buffer 4096 (fun _ => none))] = some r ∧
      r.pool.m_in_use = 0 ∧ r.pool.m_want_pool_allocator = true ∧
      r.pool.m_using_pool_allocator = r.pool.m_want_pool_allocator :=
  ⟨⟨_, rfl, rfl, rfl, rfl⟩, _, rfl, rfl, rfl,
    strategy_settled_at_zero.1 16384 false
      [.set_settings small_cache true 0 none 0,
        .call (.allocate_buffer 7 (some 4096)),
        .set_settings { small_cache with use_disk_cache_pool := true } true 0 none 0,
        .call (.free_buffer 4096 (fun _ => none))] _ rfl rfl⟩

/-! ## The uTP socket manager: the connection cached in `m_last_socket` -/

theorem last_socket_valid_iff (m : utp_socket_manager) :
    last_socket_valid m = true ↔
      ∀ q, m.m_last_socket = some q → ∃ e ∈ m.m_utp_sockets, e.2.ptr = q := by
  unfold last_socket_valid
  cases h : m.m_last_socket with
  | none => simp
  | some q => simp

theorem deliver_fields (env : utp_env) (m : utp_socket_manager) (s : utp_socket_impl)
    (p : List Nat) (size : Int) (ep : Nat) :
    (deliver env m s p size ep).1.m_last_socket = m.m_last_socket ∧
    ∀ q, (∃ e ∈ m.m_utp_sockets, e.2.ptr = q) →
      ∃ e ∈ (deliver env m s p size ep).1.m_utp_sockets, e.2.ptr = q := by
  refine ⟨rfl, ?_⟩
  rintro q ⟨e, he, hq⟩
  simp only [deliver, List.mem_map]
  by_cases hp : e.2.ptr = s.ptr
  · exact ⟨_, ⟨e, he, rfl⟩, by rw [if_pos hp]; simpa [hp] using hq⟩
  · exact ⟨_, ⟨e, he, rfl⟩, by rw [if_neg hp]; exact hq⟩

theorem mem_multimap_insert_of_mem (k : Int) (v : utp_socket_impl)
    (e : Int × utp_socket_impl) :
    ∀ (l : List (Int × utp_socket_impl)), e ∈ l → e ∈ multimap_insert k v l := by
  intro l
  induction l with
  | nil =>
    intro he
    cases he
  | cons x xs ih =>
    intro he
    unfold multimap_insert
    split_ifs
    · exact List.mem_cons_of_mem _ he
    · rcases List.mem_cons.1 he with h | h
      · rw [h]
        exact List.mem_cons_self _ _
      · exact List.mem_cons_of_mem _ (ih h)

theorem new_utp_socket_fields (m : utp_socket_manager) (impl_ptr : Nat) (rand : Int) :
    (new_utp_socket m impl_ptr rand).1.m_last_socket = m.m_last_socket ∧
    (∃ k, (k, (new_utp_socket m impl_ptr rand).2) ∈
      (new_utp_socket m impl_ptr rand).1.m_utp_sockets) ∧
    ∀ e ∈ m.m_utp_sockets, e ∈ (new_utp_socket m impl_ptr rand).1.m_utp_sockets :=
  ⟨rfl, ⟨_, mem_multimap_insert _ _ _⟩, fun e he => mem_multimap_insert_of_mem _ _ e _ he⟩

theorem tick_loop_fields (env : utp_env) : ∀ (l : List (Int × utp_socket_impl))
    (last : Option Nat) (q : Nat), (tick_loop env l last).2 = some q →
    last = some q ∧
    ((∃ e ∈ l, e.2.ptr = q) → ∃ e ∈ (tick_loop env l last).1, e.2.ptr = q) := by
  intro l
  induction l with
  | nil =>
    intro last q h
    exact ⟨h, fun h1 => h1⟩
  | cons x xs ih =>
    intro last q h
    unfold tick_loop at h ⊢
    by_cases hd : env.should_delete x.2 = true
    · rw [if_pos hd] at h ⊢
      obtain ⟨h1, h2⟩ := ih _ q h
      by_cases hl : last = some x.2.ptr
      · rw [if_pos hl] at h1
        cases h1
      · rw [if_neg hl] at h1
        refine ⟨h1, ?_⟩
        rintro ⟨e, he, hq⟩
        rcases List.mem_cons.1 he with h3 | h3
        · subst h3
          rw [h1, hq] at hl
          exact absurd rfl hl
        · exact h2 ⟨e, h3, hq⟩
    · rw [if_neg hd] at h ⊢
      simp only at h ⊢
      obtain ⟨h1, h2⟩ := ih _ q h
      refine ⟨h1, ?_⟩
      rintro ⟨e, he, hq⟩
      rcases List.mem_cons.1 he with h3 | h3
      · subst h3
        exact ⟨_, List.mem_cons_self _ _, hq⟩
      · obtain ⟨e1, he1, hq1⟩ := h2 ⟨e, h3, hq⟩
        exact ⟨e1, List.mem_cons_of_mem _ he1, hq1⟩

theorem tick_loop_clears (env : utp_env) : ∀ (l : List (Int × utp_socket_impl))
    (last : Option Nat), (∃ e ∈ l, env.should_delete e.2 = true ∧ last = some e.2.ptr) →
    (tick_loop env l last).2 = none := by
  intro l
  induction l with
  | nil =>
    rintro last ⟨e, he, _⟩
    cases he
  | cons x xs ih =>
    rintro last ⟨e, he, hd, hl⟩
    cases hr : (tick_loop env (x :: xs) last).2 with
    | none => rfl
    | some q =>
      exfalso
      have hq := (tick_loop_fields env (x :: xs) last q hr).1
      unfold tick_loop at hr
      by_cases hx : env.should_delete x.2 = true
      · rw [if_pos hx] at hr
        rcases List.mem_cons.1 he with h3 | h3
        · subst h3
          rw [if_pos hl] at hr
          have := (tick_loop_fields env xs none q hr).1
          cases this
        · by_cases hl2 : last = some x.2.ptr
          · rw [if_pos hl2] at hr
            have := (tick_loop_fields env xs none q hr).1
            cases this
          · rw [if_neg hl2] at hr
            rw [ih last ⟨e, h3, hd, hl⟩] at hr
            cases hr
      · rw [if_neg hx] at hr
        simp only at hr
        rcases List.mem_cons.1 he with h3 | h3
        · subst h3
          exact hx hd
        · rw [ih last ⟨e, h3, hd, hl⟩] at hr
          cases hr

theorem tick_valid (env : utp_env) (m : utp_socket_manager)
    (hv : last_socket_valid m = true) : last_socket_valid (tick env m) = true := by
  rw [last_socket_valid_iff] at hv ⊢
  intro q hq
  simp only [tick] at hq ⊢
  obtain ⟨h1, h2⟩ := tick_loop_fields env _ _ q hq
  exact h2 (hv q h1)

theorem remove_socket_valid (m : utp_socket_manager) (id : Int)
    (hv : last_socket_valid m = true) : last_socket_valid (remove_socket m id) = true := by
  rw [last_socket_valid_iff] at hv ⊢
  intro q hq
  unfold remove_socket at hq ⊢
  cases hf : m.m_utp_sockets.find? (fun e => decide (e.1 = id % 65536)) with
  | none =>
    rw [hf] at hq
    exact hv q hq
  | some x =>
    rw [hf] at hq
    simp only at hq ⊢
    by_cases hl : m.m_last_socket = some x.2.ptr
    · rw [if_pos hl] at hq
      cases hq
    · rw [if_neg hl] at hq
      obtain ⟨e, he, hp⟩ := hv q hq
      refine ⟨e, ?_, hp⟩
      have hne : e ≠ x := by
        intro hex
        subst hex
        rw [hq, hp] at hl
        exact hl rfl
      exact (List.mem_erase_of_ne hne).2 he

theorem incoming_packet_valid (env : utp_env) (m : utp_socket_manager) (p : List Nat)
    (size : Int) (ep : Nat) (new_ok : Bool) (impl_ptr : Nat) (rand : Int)
    (r : utp_socket_manager × Bool)
    (h : incoming_packet env m p size ep new_ok impl_ptr rand = some r)
    (hv : last_socket_valid m = true) : last_socket_valid r.1 = true := by
  rw [last_socket_valid_iff] at hv ⊢
  unfold incoming_packet at h
  split at h
  · cases h
    exact hv
  · split at h
    · cases h
    · split at h
      · cases h
        exact hv
      · split at h
        · cases h
        · split at h
          · cases h
          · split at h
            · cases h
            · rename_i q hq
              cases hd : deref m q with
              | none =>
                rw [hd] at h
                cases h
              | some s =>
                rw [hd] at h
                simp only [Option.map_some', Option.some.injEq] at h
                subst h
                intro q1 hq1
                exact (deliver_fields env m s p size ep).2 q1 (hv q1 hq1)
          · split at h
            · rename_i e he
              simp only [Option.some.injEq] at h
              subst h
              intro q1 hq1
              simp only at hq1 ⊢
              have he1 := List.mem_of_find?_eq_some he
              unfold equal_range at he1
              have he2 := (List.mem_filter.1 he1).1
              by_cases hr : (deliver env m e.2 p size ep).2 = true
              · rw [if_pos hr] at hq1
                cases hq1
                exact (deliver_fields env m e.2 p size ep).2 _ ⟨e, he2, rfl⟩
              · rw [if_neg hr] at hq1
                exact (deliver_fields env m e.2 p size ep).2 q1 (hv q1 hq1)
            · split at h
              · cases h
                exact hv
              · split at h
                · cases h
                · split at h
                  · split at h
                    · cases h
                      exact hv
                    · dsimp only at h
                      split at h
                      · cases h
                        intro q1 hq1
                        obtain ⟨e, he, hp⟩ := hv q1 hq1
                        exact (deliver_fields env _ _ p size ep).2 q1
                          ⟨e, mem_multimap_insert_of_mem _ _ e _ he, hp⟩
                      · cases h
                        intro q1 hq1
                        obtain ⟨e, he, hp⟩ := hv q1 hq1
                        exact (deliver_fields env _ _ p size ep).2 q1
                          ⟨e, mem_multimap_insert_of_mem _ _ e _ he, hp⟩
                  · cases h
                    exact hv

theorem call_valid (env : utp_env) (m m1 : utp_socket_manager) (c : utp_call)
    (h : m.call env c = some m1) (hv : last_socket_valid m = true) :
    last_socket_valid m1 = true := by
  cases c with
  | incoming_packet p size ep new_ok impl_ptr rand =>
    simp only [utp_socket_manager.call] at h
    cases hr : incoming_packet env m p size ep new_ok impl_ptr rand with
    | none =>
      rw [hr] at h
      cases h
    | some r =>
      rw [hr] at h
      simp only [Option.map_some', Option.some.injEq] at h
      subst h
      exact incoming_packet_valid env m p size ep new_ok impl_ptr rand r hr hv
  | new_utp_socket impl_ptr rand =>
    simp only [utp_socket_manager.call, Option.some.injEq] at h
    subst h
    rw [last_socket_valid_iff] at hv ⊢
    intro q hq
    obtain ⟨e, he, hp⟩ := hv q hq
    exact ⟨e, (new_utp_socket_fields m impl_ptr rand).2.2 e he, hp⟩
  | remove_socket id =>
    simp only [utp_socket_manager.call, Option.some.injEq] at h
    subst h
    exact remove_socket_valid m id hv
  | tick =>
    simp only [utp_socket_manager.call, Option.some.injEq] at h
    subst h
    exact tick_valid env m hv

theorem calls_valid : ∀ (cs : List (utp_env × utp_call)) (m m1 : utp_socket_manager),
    m.calls cs = some m1 → last_socket_valid m = true → last_socket_valid m1 = true := by
  intro cs
  induction cs with
  | nil =>
    intro m m1 h hv
    simp only [utp_socket_manager.calls, Option.some.injEq] at h
    subst h
    exact hv
  | cons c cs ih =>
    intro m m1 h hv
    unfold utp_socket_manager.calls at h
    cases hc : m.call c.1 c.2 with
    | none =>
      rw [hc] at h
      cases h
    | some m2 =>
      rw [hc] at h
      simp only at h
      exact ih m2 m1 h (call_valid c.1 m m2 c.2 hc hv)

theorem deref_of_valid (m : utp_socket_manager) (q : Nat)
    (hv : last_socket_valid m = true) (hq : m.m_last_socket = some q) :
    ∃ e ∈ m.m_utp_sockets, e.2.ptr = q ∧ deref m q = some e.2 := by
  rw [last_socket_valid_iff] at hv
  obtain ⟨e, he, hp⟩ := hv q hq
  unfold deref
  cases hf : m.m_utp_sockets.find? (fun e => decide (e.2.ptr = q)) with
  | none =>
    rw [List.find?_eq_none] at hf
    have := hf e he
    simp [hp] at this
  | some x =>
    have hx := List.find?_some hf
    simp only [decide_eq_true_eq] at hx
    exact ⟨x, List.mem_of_find?_eq_some hf, hx, rfl⟩

theorem tick_loop_sockets (env : utp_env) : ∀ (l : List (Int × utp_socket_impl))
    (last : Option Nat), (tick_loop env l last).1 =
      (l.filter (fun e => !env.should_delete e.2)).map
        (fun e => (e.1, { env.tick_utp_impl e.2 with ptr := e.2.ptr })) := by
  intro l
  induction l with
  | nil =>
    intro last
    rfl
  | cons x xs ih =>
    intro last
    unfold tick_loop
    by_cases hd : env.should_delete x.2 = true
    · rw [if_pos hd, ih]
      simp [hd]
    · rw [if_neg hd]
      simp only [ih]
      simp [hd]

/-- C35: in every state reached from a new manager by calls of `incoming_packet`,
`new_utp_socket`, `remove_socket` and `tick`, `m_last_socket` is null or the address of a
connection of the directory, so the test of the cached connection never reads a deleted
connection and a datagram that matches it is delivered to a connection of the directory.
`remove_socket` and `tick` clear `m_last_socket` when they delete the connection it points
to: `remove_socket` erases the first entry with the key, `tick` the entries whose
connection `should_delete`. -/
theorem last_socket_in_directory :
    (∀ (enable : Bool) (cs : List (utp_env × utp_call)) (m : utp_socket_manager),
      (new_utp_socket_manager enable).calls cs = some m →
      last_socket_valid m = true ∧
      (∀ q, m.m_last_socket = some q →
        ∃ e ∈ m.m_utp_sockets, e.2.ptr = q ∧ deref m q = some e.2) ∧
      (∀ ep id, last_socket_matches m ep id ≠ none) ∧
      (∀ (env : utp_env) (p : List Nat) (size : Int) (ep : Nat) (new_ok : Bool)
        (impl_ptr : Nat) (rand : Int) (id : Int),
        20 ≤ size → size < 18446744073709551616 →
        get_version p = some 1 → connection_id p = some id →
        last_socket_matches m ep id = some true →
        ∃ e ∈ m.m_utp_sockets, m.m_last_socket = some e.2.ptr ∧
          incoming_packet env m p size ep new_ok impl_ptr rand =
            some (deliver env m e.2 p size ep))) ∧
    (∀ (m : utp_socket_manager) (id : Int) (e : Int × utp_socket_impl),
      m.m_utp_sockets.find? (fun x => decide (x.1 = id % 65536)) = some e →
      (remove_socket m id).m_utp_sockets = m.m_utp_sockets.erase e ∧
      (m.m_last_socket = some e.2.ptr → (remove_socket m id).m_last_socket = none) ∧
      (m.m_last_socket ≠ some e.2.ptr →
        (remove_socket m id).m_last_socket = m.m_last_socket)) ∧
    (∀ (env : utp_env) (m : utp_socket_manager),
      (tick env m).m_utp_sockets =
        (m.m_utp_sockets.filter (fun e => !env.should_delete e.2)).map
          (fun e => (e.1, { env.tick_utp_impl e.2 with ptr := e.2.ptr })) ∧
      ∀ e ∈ m.m_utp_sockets, env.should_delete e.2 = true →
        m.m_last_socket = some e.2.ptr → (tick env m).m_last_socket = none) := by
  refine ⟨?_, ?_, ?_⟩
  · intro enable cs m hm
    have hv : last_socket_valid m = true := calls_valid cs _ m hm rfl
    refine ⟨hv, fun q hq => deref_of_valid m q hv hq, ?_, ?_⟩
    · intro ep id
      unfold last_socket_matches
      cases hq : m.m_last_socket with
      | none => simp
      | some q =>
        obtain ⟨e, _, _, hd⟩ := deref_of_valid m q hv hq
        simp [hd]
    · intro env p size ep new_ok impl_ptr rand id hs1 hs2 hver hid hlast
      cases hq : m.m_last_socket with
      | none =>
        unfold last_socket_matches at hlast
        rw [hq] at hlast
        cases hlast
      | some q =>
        obtain ⟨e, he, hp, hd⟩ := deref_of_valid m q hv hq
        refine ⟨e, he, by rw [hp], ?_⟩
        unfold incoming_packet sizeof_utp_header
        rw [if_neg (by omega)]
        simp only [hver, hid, hlast, hq, hd]
        simp
  · intro m id e hf
    unfold remove_socket
    rw [hf]
    refine ⟨rfl, ?_, ?_⟩
    · intro hl
      simp only
      rw [if_pos hl]
    · intro hl
      simp only
      rw [if_neg hl]
  · intro env m
    refine ⟨tick_loop_sockets env _ _, ?_⟩
    intro e he hd hl
    exact tick_loop_clears env _ _ ⟨e, he, hd, hl⟩

/-- The statement of `last_socket_in_directory` for a manager that accepts a connection from
the endpoint 2 and delivers a data packet to it, which caches the connection: the `tick`
that deletes the connection clears `m_last_socket`, and so does `remove_socket`. -/
theorem last_socket_in_directory_witness :
    (new_utp_socket_manager true).calls
      [(deleting_env, .incoming_packet (utp_packet 4 7) 20 2 true 100 0),
        (deleting_env, .incoming_packet (utp_packet 0 8) 20 2 true 200 0)] =
      some cached_manager ∧
    cached_manager.calls [(deleting_env, .tick)] =
      some { cached_manager with m_utp_sockets := [], m_last_socket := none } ∧
    cached_manager.calls [(deleting_env, .remove_socket 8)] =
      some { cached_manager with m_utp_sockets := [], m_last_socket := none } ∧
    (last_socket_valid cached_manager = true ∧
      (∀ q, cached_manager.m_last_socket = some q →
        ∃ e ∈ cached_manager.m_utp_sockets, e.2.ptr = q ∧ deref cached_manager q = some e.2) ∧
      (∀ ep id, last_socket_matches cached_manager ep id ≠ none) ∧
      (∀ (env : utp_env) (p : List Nat) (size : Int) (ep : Nat) (new_ok : Bool)
        (impl_ptr : Nat) (rand : Int) (id : Int),
        20 ≤ size → size < 18446744073709551616 →
        get_version p = some 1 → connection_id p = some id →
        last_socket_matches cached_manager ep id = some true →
        ∃ e ∈ cached_manager.m_utp_sockets, cached_manager.m_last_socket = some e.2.ptr ∧
          incoming_packet env cached_manager p size ep new_ok impl_ptr rand =
            some (deliver env cached_manager e.2 p size ep))) ∧
    (remove_socket cached_manager 8).m_last_socket = none ∧
    (tick deleting_env cached_manager).m_last_socket = none :=
  ⟨by decide, by decide, by decide,
    last_socket_in_directory.1 true
      [(deleting_env, .incoming_packet (utp_packet 4 7) 20 2 true 100 0),
        (deleting_env, .incoming_packet (utp_packet 0 8) 20 2 true 200 0)]
      cached_manager (by decide),
    ((last_socket_in_directory.2.1 cached_manager 8
      (8, { ptr := 100, m_recv_id := 8, m_send_id := 7, m_remote := some 2 })
      (by decide)).2.1 (by decide)),
    (last_socket_in_directory.2.2 deleting_env cached_manager).2
      (8, { ptr := 100, m_recv_id := 8, m_send_id := 7, m_remote := some 2 })
      (by decide) (by decide) (by decide)⟩

end libtorrent
